import Mathlib

/-!
# Reconciliation of authored and ingress-generated configuration

A shallow embedding of `pkg/model/push_context.go`: the canonical-name function
`createCRName`, the three filters `virtualServiceFilter`, `gatewayFilter` and
`destinationFilter`, and the route sort `SortStableForIngressRoutes` with its comparator,
followed by theorems about them.

Modelling conventions.

* A Go string is a sequence of bytes.  `Str` is a list whose elements each stand for
  one byte, so `strings.HasPrefix`, `strings.TrimPrefix`, `+` and `==` are the list
  operations below.
* `constants.IstioIngressGatewayName` and `features.ClusterName` are declared outside this
  package.  Every function takes them as the parameters `gwName` and `clusterId`.
* `config.Config` is copied by value in the first loop of each filter (`c := configs[idx]`),
  so the entries kept in the name index are values here.  Its `Spec` field is an interface
  holding a pointer; the object it points to is shared with the caller.  `Spec` is therefore
  an address and the objects live in a `Heap` that `virtualServiceFilter` threads through.
* The field `Http` of a virtual service is a Go slice: a backing array, the position of the
  first element, a length and a capacity.  `append` writes into the backing array when the
  capacity suffices, so that every slice sharing the array sees the elements written, and
  moves the elements to a new array otherwise.  The `Heap` therefore holds the backing arrays
  next to the spec objects, and `append` follows the built-in.
* A failed type assertion (or a nil dereference) panics; the filter then returns `none`.
* A Go map has no iteration order.  `ConfigsForName` is an association list with distinct
  keys, listed in order of first insertion; the theorems below do not depend on that order.
* `SortStableForIngressRoutes` sorts its slice in place with `sort.SliceStable`; here it
  returns the sorted list.  `sort.SliceStable` belongs to the Go standard library.  Because the
  route comparator is not a strict weak ordering, what the sort returns depends on the
  algorithm, so `sliceStable` follows the library's `stable_func` step by step: an insertion
  sort of blocks of 20 elements, then merges of adjacent blocks by `symMerge_func`.  The
  length of a string is the length of its list of bytes.
-/

namespace Higress

/-- A Go string: one list element per byte. -/
abbrev Str := List Char

/-- Go `strings.HasPrefix(s, p)`. -/
def hasPrefix (s p : Str) : Bool := p.isPrefixOf s

/-- Go `strings.TrimPrefix(s, p)`: `s` without the leading `p`, or `s` itself when `s`
does not start with `p`. -/
def trimPrefix (s p : Str) : Str := if hasPrefix s p then s.drop p.length else s

/-- Source `createCRName(clusterId, autoGenerated)`, with the constant
`constants.IstioIngressGatewayName` as first parameter. -/
def createCRName (gwName clusterId autoGenerated : Str) : Str :=
  let stripName := trimPrefix autoGenerated (gwName ++ "-".toList)
  if clusterId ≠ [] ∧ clusterId ≠ "Kubernetes".toList then
    clusterId ++ "-".toList ++ stripName
  else
    stripName

/-- One `networking.HTTPRoute`; only its name is needed to tell rules apart.  The filter
never writes to a route, so a pointer to a route is identified with the route. -/
structure HTTPRoute where
  Name : Str
deriving DecidableEq, Repr, Inhabited

/-- A Go slice value of type `[]*networking.HTTPRoute`: the backing array it points into,
the position of its first element in that array, its length and its capacity.  A nil slice
has length and capacity 0, and its array is neither read nor written. -/
structure Slice where
  array : Nat
  offset : Nat
  len : Nat
  cap : Nat
deriving DecidableEq, Repr, Inhabited

/-- The object `networking.VirtualService`: the rule list `Http` that the merge extends and,
standing for the fields the filter never touches, `Hosts`. -/
structure VirtualService where
  Hosts : List Str
  Http : Slice
deriving DecidableEq, Repr, Inhabited

/-- One `networking.Server`. -/
structure Server where
  Name : Str
deriving DecidableEq, Repr, Inhabited

/-- The object `networking.Gateway`. -/
structure Gateway where
  Servers : List Server
deriving DecidableEq, Repr, Inhabited

/-- The object `networking.DestinationRule`: its host and load-balancer policy. -/
structure DestinationRule where
  Host : Str
  LbPolicy : Str
deriving DecidableEq, Repr, Inhabited

/-- What a `Spec` pointer can point to. -/
inductive SpecObject where
  | virtualService (vs : VirtualService)
  | gateway (g : Gateway)
  | destinationRule (d : DestinationRule)
deriving DecidableEq, Repr, Inhabited

/-- Address of a spec object. -/
abbrev Ptr := Nat

/-- The memory the filter works in.  `objects` holds the spec objects reachable from the
configs, `none` being a nil or dangling pointer.  `cells a i` is element `i` of backing array
`a`, an array of `*networking.HTTPRoute`, `none` being the nil pointer.  Arrays are numbered
in the order of their allocation and `next` is the array that the next allocation returns.
`grow oldCap newLen` is the capacity the runtime chooses for a slice of capacity `oldCap` that
has to be moved to hold `newLen` elements. -/
structure Heap where
  objects : Ptr → Option SpecObject
  cells : Nat → Nat → Option HTTPRoute
  next : Nat
  grow : Nat → Nat → Nat

/-- Store `o` at address `p`. -/
def Heap.store (h : Heap) (p : Ptr) (o : SpecObject) : Heap :=
  { h with objects := fun q => if q = p then some o else h.objects q }

/-- The elements `s[0]`, ..., `s[len(s)-1]` of a slice. -/
def elems (heap : Heap) (s : Slice) : List (Option HTTPRoute) :=
  (List.range s.len).map (fun i => heap.cells s.array (s.offset + i))

/-- Go `append(s, t...)`: the slice it returns and the memory it leaves.  When the elements
of `t` fit the capacity of `s` they are written into the backing array of `s` right after its
last element and the result points into that same array.  Otherwise a new, zeroed array is
allocated and receives the elements of `s` followed by those of `t`; the array of `s` is left
as it is. -/
def append (heap : Heap) (s t : Slice) : Slice × Heap :=
  if s.len + t.len ≤ s.cap then
    ({ s with len := s.len + t.len },
     { heap with
       cells := fun a i =>
         if a = s.array ∧ s.offset + s.len ≤ i ∧ i < s.offset + s.len + t.len then
           ((elems heap t)[i - (s.offset + s.len)]?).join
         else heap.cells a i })
  else
    ({ array := heap.next, offset := 0, len := s.len + t.len,
       cap := max (heap.grow s.cap (s.len + t.len)) (s.len + t.len) },
     { heap with
       cells := fun a i =>
         if a = heap.next then ((elems heap s ++ elems heap t)[i]?).join else heap.cells a i
       next := heap.next + 1 })

/-- The statement `vs.Http = append(vs.Http, autoGeneratedVS.Http...)`, where `vs` is the
object at address `p`. -/
def assignHttp (heap : Heap) (p : Ptr) (vs autoGeneratedVS : VirtualService) : Heap :=
  (append heap vs.Http autoGeneratedVS.Http).2.store p
    (.virtualService { vs with Http := (append heap vs.Http autoGeneratedVS.Http).1 })

/-- The part of `config.Config` the filters read or write. -/
structure Config where
  Name : Str
  Namespace : Str
  Spec : Ptr
deriving DecidableEq, Repr, Inhabited

/-- The Go map `configsForName`. -/
abbrev ConfigsForName := List (Str × Config)

/-- Map lookup `m[k]`. -/
def mapGet : ConfigsForName → Str → Option Config
  | [], _ => none
  | (k', v) :: t, k => if k' = k then some v else mapGet t k

/-- Map assignment `m[k] = v`. -/
def mapSet : ConfigsForName → Str → Config → ConfigsForName
  | [], k, v => [(k, v)]
  | (k', v') :: t, k, v => if k' = k then (k, v) :: t else (k', v') :: mapSet t k v

/-- The keys of the map. -/
def mapKeys (m : ConfigsForName) : List Str := m.map Prod.fst

/-- The last loop of each filter: `for _, c := range configsForName { out = append(out, *c) }`. -/
def mapValues (m : ConfigsForName) : List Config := m.map Prod.snd

/-- The first loop of each filter: entries whose name has the reserved prefix are collected,
in order, in `autoGenerated`; the others are stored under their name. -/
def partitionConfigs (gwName : Str) :
    List Config → List Config × ConfigsForName → List Config × ConfigsForName
  | [], st => st
  | c :: cs, (autoGenerated, configsForName) =>
    if hasPrefix c.Name gwName then
      partitionConfigs gwName cs (autoGenerated ++ [c], configsForName)
    else
      partitionConfigs gwName cs (autoGenerated, mapSet configsForName c.Name c)

/-- The second loop of `virtualServiceFilter`.  On a name already in the index both specs
are asserted to be virtual services and the generated rules are appended to the rule list of
the indexed object; otherwise the generated entry is renamed and stored. -/
def virtualServiceLoop (gwName clusterId : Str) :
    List Config → ConfigsForName → Heap → Option (ConfigsForName × Heap)
  | [], configsForName, heap => some (configsForName, heap)
  | c :: cs, configsForName, heap =>
    let targetName := createCRName gwName clusterId c.Name
    match mapGet configsForName targetName with
    | some rawVS =>
      match heap.objects rawVS.Spec, heap.objects c.Spec with
      | some (.virtualService vs), some (.virtualService autoGeneratedVS) =>
        virtualServiceLoop gwName clusterId cs configsForName
          (assignHttp heap rawVS.Spec vs autoGeneratedVS)
      | _, _ => none
    | none =>
      virtualServiceLoop gwName clusterId cs
        (mapSet configsForName targetName { c with Name := targetName }) heap

/-- Source `virtualServiceFilter`. -/
def virtualServiceFilter (gwName clusterId : Str) (heap : Heap) (configs : List Config) :
    Option (List Config × Heap) :=
  let (autoGenerated, configsForName) := partitionConfigs gwName configs ([], [])
  match virtualServiceLoop gwName clusterId autoGenerated configsForName heap with
  | some (configsForName, heap) => some (mapValues configsForName, heap)
  | none => none

/-- The second loop of `destinationFilter` and of `gatewayFilter`, which differ only in how
the target name is computed: a generated entry whose target name is not yet in the index is
renamed and stored, any other is dropped. -/
def admitLoop (target : Str → Str) : List Config → ConfigsForName → ConfigsForName
  | [], configsForName => configsForName
  | c :: cs, configsForName =>
    let targetName := target c.Name
    match mapGet configsForName targetName with
    | some _ => admitLoop target cs configsForName
    | none => admitLoop target cs (mapSet configsForName targetName { c with Name := targetName })

/-- Source `destinationFilter`. -/
def destinationFilter (gwName : Str) (configs : List Config) : List Config :=
  let (autoGenerated, configsForName) := partitionConfigs gwName configs ([], [])
  mapValues
    (admitLoop (fun name => trimPrefix name (gwName ++ "-".toList)) autoGenerated configsForName)

/-- Source `gatewayFilter`. -/
def gatewayFilter (gwName clusterId : Str) (configs : List Config) : List Config :=
  let (autoGenerated, configsForName) := partitionConfigs gwName configs ([], [])
  mapValues (admitLoop (createCRName gwName clusterId) autoGenerated configsForName)

/-- The rule list of the virtual service at `p`, empty when there is none. -/
def httpAt (heap : Heap) (p : Ptr) : List (Option HTTPRoute) :=
  match heap.objects p with
  | some (.virtualService vs) => elems heap vs.Http
  | _ => []

/-- The spec at `p` is a virtual service. -/
def isVirtualService (heap : Heap) (p : Ptr) : Bool :=
  match heap.objects p with
  | some (.virtualService _) => true
  | _ => false

/-- The backing array of the rule list of the virtual service at `p`.  There is none when
`p` is not a virtual service, and none when the rule list has neither elements nor capacity,
as is the case of a nil slice. -/
def httpArray (heap : Heap) (p : Ptr) : Option Nat :=
  match heap.objects p with
  | some (.virtualService vs) =>
    if vs.Http.len = 0 ∧ vs.Http.cap = 0 then none else some vs.Http.array
  | _ => none

/-- The value of `constants.IstioIngressGatewayName` in the Istio tree the package builds
against; used in the examples only. -/
def istioIngressGatewayName : Str := "istio-autogenerated-k8s-ingress".toList

/-- The cluster id set by the tests. -/
def testClusterId : Str := "gw-123-istio".toList

/-- The input of `TestVirtualServiceFilter` and of `TestGatewayFilter`: spec `i` belongs
to entry `i`. -/
def testConfigs : List Config :=
  [ { Name := "gw-123-istio-test-com".toList, Namespace := "test".toList, Spec := 0 },
    { Name := "istio-autogenerated-k8s-ingress-test-com".toList, Namespace := "test".toList,
      Spec := 1 },
    { Name := "istio-autogenerated-k8s-ingress-foo-com".toList, Namespace := "test".toList,
      Spec := 2 },
    { Name := "istio-autogenerated-k8s-ingress-bar-com".toList, Namespace := "test".toList,
      Spec := 3 } ]

/-- The spec objects of `TestVirtualServiceFilter`.  Each rule list is a slice literal with
one element, so it has length 1, capacity 1 and an array of its own.  The capacity of a moved
slice is the larger of twice the old capacity and the length needed, which is what the
runtime computes for a short slice before it rounds up to an allocation size; no theorem
depends on this choice. -/
def testVirtualServiceHeap : Heap where
  objects := fun p =>
    match p with
    | 0 => some (.virtualService { Hosts := [], Http := ⟨0, 0, 1, 1⟩ })
    | 1 => some (.virtualService { Hosts := [], Http := ⟨1, 0, 1, 1⟩ })
    | 2 => some (.virtualService { Hosts := [], Http := ⟨2, 0, 1, 1⟩ })
    | 3 => some (.virtualService { Hosts := [], Http := ⟨3, 0, 1, 1⟩ })
    | _ => none
  cells := fun a i =>
    match a, i with
    | 0, 0 => some ⟨"route-1".toList⟩
    | 1, 0 => some ⟨"route-2".toList⟩
    | 2, 0 => some ⟨"route-1".toList⟩
    | 3, 0 => some ⟨"route-1".toList⟩
    | _, _ => none
  next := 4
  grow := fun oldCap newLen => max (2 * oldCap) newLen

/-- The input of `TestDestinationRuleFilter`. -/
def testDestinationConfigs : List Config :=
  [ { Name := "e3431b3db77d88642015e60647514d2f".toList, Namespace := "test".toList, Spec := 0 },
    { Name := "istio-autogenerated-k8s-ingress-e3431b3db77d88642015e60647514d2f".toList,
      Namespace := "test".toList, Spec := 1 } ]

/-- A generated name whose host part itself starts with the reserved prefix. -/
def nestedConfigs : List Config :=
  [ { Name := "istio-autogenerated-k8s-ingress-istio-autogenerated-k8s-ingress-com".toList,
      Namespace := "test".toList, Spec := 0 } ]

/-- One virtual service at address 0. -/
def nestedHeap : Heap where
  objects := fun p =>
    match p with
    | 0 => some (.virtualService { Hosts := [], Http := ⟨0, 0, 1, 1⟩ })
    | _ => none
  cells := fun a i =>
    match a, i with
    | 0, 0 => some ⟨"route-1".toList⟩
    | _, _ => none
  next := 1
  grow := fun oldCap newLen => max (2 * oldCap) newLen

/-- The objects of `TestVirtualServiceFilter`, but with a gateway as the spec of the
authored entry. -/
def mismatchedHeap : Heap :=
  { testVirtualServiceHeap with
    objects := fun p =>
      match p with
      | 0 => some (.gateway { Servers := [⟨"server-1".toList⟩] })
      | q => testVirtualServiceHeap.objects q }

/-- The objects of `TestVirtualServiceFilter`, but with a gateway as the spec of the
generated entry for `foo.com`, which collides with nothing. -/
def strayHeap : Heap :=
  { testVirtualServiceHeap with
    objects := fun p =>
      match p with
      | 2 => some (.gateway { Servers := [⟨"server-1".toList⟩] })
      | q => testVirtualServiceHeap.objects q }

/-- Two authored virtual services and a generated one that resolves to the name of the
first. -/
def sharedConfigs : List Config :=
  [ { Name := "gw-123-istio-test-com".toList, Namespace := "test".toList, Spec := 0 },
    { Name := "gw-123-istio-other-com".toList, Namespace := "test".toList, Spec := 1 },
    { Name := "istio-autogenerated-k8s-ingress-test-com".toList, Namespace := "test".toList,
      Spec := 2 } ]

/-- The rule lists of the two authored virtual services are slices of one array holding
`route-1`, `route-b`: the first is its first element, with room for one more, the second is
the whole array.  The generated virtual service holds `route-2` in an array of its own. -/
def sharedHeap : Heap where
  objects := fun p =>
    match p with
    | 0 => some (.virtualService { Hosts := [], Http := ⟨0, 0, 1, 2⟩ })
    | 1 => some (.virtualService { Hosts := [], Http := ⟨0, 0, 2, 2⟩ })
    | 2 => some (.virtualService { Hosts := [], Http := ⟨1, 0, 1, 1⟩ })
    | _ => none
  cells := fun a i =>
    match a, i with
    | 0, 0 => some ⟨"route-1".toList⟩
    | 0, 1 => some ⟨"route-b".toList⟩
    | 1, 0 => some ⟨"route-2".toList⟩
    | _, _ => none
  next := 2
  grow := fun oldCap newLen => max (2 * oldCap) newLen

/-- An authored virtual service and two generated entries that resolve to its name, the
second of them with the spec object of the authored entry. -/
def aliasedConfigs : List Config :=
  [ { Name := "gw-123-istio-test-com".toList, Namespace := "test".toList, Spec := 0 },
    { Name := "istio-autogenerated-k8s-ingress-test-com".toList, Namespace := "test".toList,
      Spec := 1 },
    { Name := "istio-autogenerated-k8s-ingress-test-com".toList, Namespace := "other".toList,
      Spec := 0 } ]

/-! ## Go's `sort.SliceStable`

`SortStableForIngressRoutes` calls `sort.SliceStable` of the Go standard library, which is
not part of this package.  The definitions below follow `stable_func`, `insertionSort_func`,
`symMerge_func` and `rotate_func` of the library's `sort` package: an insertion sort of
consecutive blocks of 20 elements, then passes that merge adjacent blocks with `symMerge`,
doubling the block size.  A slice is a list; the loops that the library bounds by index
comparisons take a bound on the number of iterations as first argument. -/

/-- Go `data.Less(i, j)` on the slice `data`: the comparator at two positions. -/
def lessAt {α : Type} (less : α → α → Bool) (data : List α) (i j : Nat) : Bool :=
  match data[i]?, data[j]? with
  | some x, some y => less x y
  | _, _ => false

/-- Go `data[a:b]`. -/
def slice {α : Type} (data : List α) (a b : Nat) : List α := (data.take b).drop a

/-- The binary-search loops of `symMerge_func`:
`for i < j { h := (i+j)/2; if pred(h) { i = h + 1 } else { j = h } }`, returning `i`.
The first argument bounds the number of iterations. -/
def searchLoop (pred : Nat → Bool) : Nat → Nat → Nat → Nat
  | 0, i, _ => i
  | fuel + 1, i, j =>
    if i < j then
      let h := (i + j) / 2
      if pred h then searchLoop pred fuel (h + 1) j else searchLoop pred fuel i h
    else i

/-- The inner loop of `insertionSort_func`,
`for j := i; j > a && data.Less(j, j-1); j-- { data.Swap(j, j-1) }`:
the element `x` travels left while it is less than its left neighbour.  The list is
`data[a:i]` from right to left, the result is `data[a:i+1]` from right to left. -/
def insertLeft {α : Type} (less : α → α → Bool) (x : α) : List α → List α
  | [] => [x]
  | y :: ys => if less x y then y :: insertLeft less x ys else x :: y :: ys

/-- Go `insertionSort_func(data, a, b)` on the block `data[a:b]`. -/
def insertionSort {α : Type} (less : α → α → Bool) (block : List α) : List α :=
  (block.foldl (fun sorted x => insertLeft less x sorted) []).reverse

/-- Go `rotate_func(data, a, m, b)`: the blocks `data[a:m]` and `data[m:b]` change places. -/
def rotate {α : Type} (data : List α) (a m b : Nat) : List α :=
  data.take a ++ slice data m b ++ slice data a m ++ data.drop b

/-- Go `symMerge_func(data, a, m, b)` on the two adjacent sorted blocks `u = data[a:m]` and
`v = data[m:b]`, with indices counted from `a`; the result is the new `data[a:b]`.  The first
argument bounds the recursion depth; every recursive call is on fewer elements, so a bound of
`u.length + v.length`, which the callers give, is never used up. -/
def symMerge {α : Type} (less : α → α → Bool) : Nat → List α → List α → List α
  | 0, u, v => u ++ v
  | fuel + 1, u, v =>
    let data := u ++ v
    let m := u.length
    let b := data.length
    if m = 1 then
      let i := searchLoop (fun h => lessAt less data h 0) (b - m) m b
      slice data 1 i ++ data.take 1 ++ data.drop i
    else if b - m = 1 then
      let i := searchLoop (fun h => !lessAt less data m h) m 0 m
      data.take i ++ data.drop m ++ slice data i m
    else
      let mid := b / 2
      let n := mid + m
      let start := if m > mid then n - b else 0
      let r := if m > mid then mid else m
      let p := n - 1
      let start := searchLoop (fun c => !lessAt less data (p - c) c) (r - start) start r
      let end_ := n - start
      let data := if start < m ∧ m < end_ then rotate data start m end_ else data
      let left :=
        if 0 < start ∧ start < mid then
          symMerge less fuel (slice data 0 start) (slice data start mid)
        else slice data 0 mid
      let right :=
        if mid < end_ ∧ end_ < b then
          symMerge less fuel (slice data mid end_) (slice data end_ b)
        else slice data mid b
      left ++ right

/-- The first loop of Go `stable_func`,
`for b <= n { insertionSort_func(data, a, b); a = b; b += 20 }`, and the call
`insertionSort_func(data, a, n)` after it: insertion sort of consecutive blocks of 20 and of
what is left.  The first argument bounds the number of blocks. -/
def insertionBlocks {α : Type} (less : α → α → Bool) : Nat → List α → List α
  | 0, data => insertionSort less data
  | fuel + 1, data =>
    if 20 ≤ data.length then
      insertionSort less (data.take 20) ++ insertionBlocks less fuel (data.drop 20)
    else insertionSort less data

/-- One pass of the second loop of Go `stable_func`: adjacent blocks of `blockSize` are merged
two by two; a last block that is shorter is merged with the one before it.  The list is
`data[a:n]`, the first argument bounds the number of merges. -/
def mergePass {α : Type} (less : α → α → Bool) (blockSize : Nat) : Nat → List α → List α
  | 0, data => data
  | fuel + 1, data =>
    if 2 * blockSize ≤ data.length then
      symMerge less (2 * blockSize) (data.take blockSize) (slice data blockSize (2 * blockSize))
        ++ mergePass less blockSize fuel (data.drop (2 * blockSize))
    else if blockSize < data.length then
      symMerge less data.length (data.take blockSize) (data.drop blockSize)
    else data

/-- The second loop of Go `stable_func`: `for blockSize < n { ...; blockSize *= 2 }`.  The
first argument bounds the number of passes. -/
def mergeLoop {α : Type} (less : α → α → Bool) : Nat → Nat → List α → List α
  | 0, _, data => data
  | fuel + 1, blockSize, data =>
    if blockSize < data.length then
      mergeLoop less fuel (2 * blockSize) (mergePass less blockSize data.length data)
    else data

/-- Go `sort.SliceStable(data, less)`, that is `stable_func` of the standard library. -/
def sliceStable {α : Type} (less : α → α → Bool) (data : List α) : List α :=
  mergeLoop less data.length 20 (insertionBlocks less data.length data)

/-! ## Ingress routes -/

/-- Go `strings.HasSuffix(s, suffix)`. -/
def hasSuffix (s suffix : Str) : Bool := suffix.isSuffixOf s

/-- Source `BackendService`. -/
structure BackendService where
  Namespace : Str
  Name : Str
  Port : Nat
  Weight : Int
deriving DecidableEq, Repr, Inhabited

/-- Source `IngressRoute`; `DestinationType` is a string type in the source. -/
structure IngressRoute where
  Name : Str
  Host : Str
  PathType : Str
  Path : Str
  DestinationType : Str
  ServiceName : Str
  ServiceList : List BackendService
  Error : Str
deriving DecidableEq, Repr, Inhabited

/-- The closure `isAllMatch` of `SortStableForIngressRoutes`. -/
def isAllMatch (route : IngressRoute) : Bool :=
  route.PathType = "prefix".toList && route.Path = "/".toList

/-- The comparator that `SortStableForIngressRoutes` hands to `sort.SliceStable`, as a
function of the two routes `routes[i]` and `routes[j]`. -/
def routeLess (ri rj : IngressRoute) : Bool :=
  if ri.Host ≠ rj.Host then
    decide (ri.Host.length > rj.Host.length)
  else if isAllMatch ri then
    false
  else if isAllMatch rj then
    true
  else if ri.PathType = rj.PathType then
    if ri.Path = rj.Path then
      hasSuffix ri.Name "canary".toList
    else
      decide (ri.Path.length > rj.Path.length)
  else if ri.PathType = "exact".toList then
    true
  else if ri.PathType ≠ "exact".toList ∧ rj.PathType ≠ "exact".toList then
    decide (ri.PathType = "prefix".toList)
  else
    false

/-- Source `SortStableForIngressRoutes`; the sorted slice is returned. -/
def SortStableForIngressRoutes (routes : List IngressRoute) : List IngressRoute :=
  sliceStable routeLess routes

/-- A route with the given name, host, path type and path, and nothing else set. -/
def mkRoute (name host pathType path : String) : IngressRoute :=
  { Name := name.toList, Host := host.toList, PathType := pathType.toList, Path := path.toList,
    DestinationType := "Single".toList, ServiceName := [], ServiceList := [], Error := [] }

/-- The routes used in the examples. -/
def routeApi : IngressRoute := mkRoute "api" "a.com" "prefix" "/api"

/-- A route of another host whose name has the same length. -/
def routeHealth : IngressRoute := mkRoute "health" "b.com" "exact" "/health"

/-- A route of the host of `routeApi` with a longer path. -/
def routeApiV1 : IngressRoute := mkRoute "api-v1" "a.com" "prefix" "/api/v1"

/-- The canary twin of `routeApi`. -/
def routeApiCanary : IngressRoute := mkRoute "api-canary" "a.com" "prefix" "/api"

/-- A catch-all route of a host with a longer name. -/
def routeCatchAll : IngressRoute := mkRoute "default" "shop.example.com" "prefix" "/"

/-- Twenty-one routes with different names and paths: at positions 0, 1, 2, 5 and 10 the
prefix routes `/api00`, `/api01`, `/api02`, `/api05`, `/api10` of `a.com`, at the other
positions below 20 the exact routes `/hlt03`, `/hlt04`, ... of `b.com`, and `routeApiV1`
last. -/
def twentyOneRoutes : List IngressRoute :=
  ["00", "01", "02", "03", "04", "05", "06", "07", "08", "09",
    "10", "11", "12", "13", "14", "15", "16", "17", "18", "19"].map
    (fun s =>
      if s = "00" ∨ s = "01" ∨ s = "02" ∨ s = "05" ∨ s = "10" then
        mkRoute ("api" ++ s) "a.com" "prefix" ("/api" ++ s)
      else mkRoute ("health" ++ s) "b.com" "exact" ("/hlt" ++ s))
    ++ [routeApiV1]

/-- The catch-all route of the host of `routeApi`. -/
def routeApiRoot : IngressRoute := mkRoute "root" "a.com" "prefix" "/"

/-- A route of the host of `routeApi` whose path is as long as that of `routeApi`. -/
def routeApp : IngressRoute := mkRoute "app" "a.com" "prefix" "/app"

/-- Three authored entries, the first and the last with one name in two namespaces. -/
def duplicateConfigs : List Config :=
  [ { Name := "gw-123-istio-test-com".toList, Namespace := "team-a".toList, Spec := 0 },
    { Name := "gw-123-istio-foo-com".toList, Namespace := "team-a".toList, Spec := 1 },
    { Name := "gw-123-istio-test-com".toList, Namespace := "team-b".toList, Spec := 2 } ]

/-! ## Auxiliary definitions for the proofs -/

/-- The index is well formed: keys are distinct and every value is stored under its name. -/
def IndexOK (m : ConfigsForName) : Prop :=
  (mapKeys m).Nodup ∧ ∀ p ∈ m, p.2.Name = p.1

/-- The entries of `l` stored one after the other under their names. -/
def indexAll (l : List Config) (m : ConfigsForName) : ConfigsForName :=
  l.foldl (fun m c => mapSet m c.Name c) m

/-- The last entry of a list that has name `n`. -/
def lastNamed (n : Str) : List Config → Option Config
  | [] => none
  | c :: cs =>
    match lastNamed n cs with
    | some d => some d
    | none => if c.Name = n then some c else none

/-- The generated entries of a list: those whose name has the reserved prefix. -/
def generatedOf (gwName : Str) (l : List Config) : List Config :=
  l.filter (fun c => hasPrefix c.Name gwName)

/-- The authored entries of a list: those whose name lacks the reserved prefix. -/
def authoredOf (gwName : Str) (l : List Config) : List Config :=
  l.filter (fun c => !hasPrefix c.Name gwName)

/-- The name index at the end of the second loop of the gateway and destination filters. -/
def reconcile (target : Str → Str) (gwName : Str) (configs : List Config) : ConfigsForName :=
  admitLoop target (generatedOf gwName configs) (indexAll (authoredOf gwName configs) [])

/-- The entry that the name index holds under `n` when the second loop reaches a generated
entry, `earlier` being the input entries before that entry: it is the last authored entry of
the input named `n`, or, when no authored entry has that name, the first generated entry of
`earlier` whose target name is `n`. -/
def Holder (gwName clusterId : Str) (configs earlier : List Config) (n : Str) (e : Config) :
    Prop :=
  (hasPrefix e.Name gwName = false ∧ e.Name = n ∧
    ∃ k₁ k₂, configs = k₁ ++ e :: k₂ ∧ ∀ x ∈ k₂, x.Name ≠ n) ∨
  ((∀ x ∈ configs, hasPrefix x.Name gwName = false → x.Name ≠ n) ∧
    hasPrefix e.Name gwName = true ∧ createCRName gwName clusterId e.Name = n ∧
    ∃ j₁ j₂, earlier = j₁ ++ e :: j₂ ∧
      ∀ x ∈ j₁, hasPrefix x.Name gwName = true → createCRName gwName clusterId x.Name ≠ n)

/-- A collision: the generated input entry `c` finds its target name in the name index, held
by the entry `e`. -/
def Collision (gwName clusterId : Str) (configs : List Config) (e c : Config) : Prop :=
  ∃ l₁ l₂, configs = l₁ ++ c :: l₂ ∧ hasPrefix c.Name gwName = true ∧
    Holder gwName clusterId configs l₁ (createCRName gwName clusterId c.Name) e

/-- The collisions of a run of the second loop, in the order in which they happen: each
generated entry that finds its target name in the index, paired with the entry the index
holds under that name. -/
def collisionsLoop (target : Str → Str) :
    List Config → ConfigsForName → List (Config × Config)
  | [], _ => []
  | c :: cs, configsForName =>
    match mapGet configsForName (target c.Name) with
    | some rawVS => (rawVS, c) :: collisionsLoop target cs configsForName
    | none =>
      collisionsLoop target cs
        (mapSet configsForName (target c.Name) { c with Name := target c.Name })

/-- The collisions of `virtualServiceFilter` on an input, in the order in which they happen. -/
def collisions (gwName clusterId : Str) (configs : List Config) : List (Config × Config) :=
  collisionsLoop (createCRName gwName clusterId) (generatedOf gwName configs)
    (indexAll (authoredOf gwName configs) [])

/-- The generated entries that collide with an entry whose spec is the object at `p`, in the
order in which they collide. -/
def mergedInto (gwName clusterId : Str) (configs : List Config) (p : Ptr) : List Config :=
  ((collisions gwName clusterId configs).filter (fun ec => decide (ec.1.Spec = p))).map Prod.snd

/-- The rule lists of the objects at the addresses `ptrs` are apart: two different objects
have no backing array in common, and every backing array has been allocated. -/
def Separate (heap : Heap) (ptrs : List Ptr) : Prop :=
  (∀ p ∈ ptrs, ∀ q ∈ ptrs, p ≠ q →
    httpArray heap p = none ∨ httpArray heap p ≠ httpArray heap q) ∧
  (∀ p ∈ ptrs, ∀ a, httpArray heap p = some a → a < heap.next)

/-- The values of `f` do not increase along the list. -/
def Desc {α : Type} (f : α → Nat) (l : List α) : Prop := l.Pairwise (fun a b => f b ≤ f a)

/-- Every block of `blockSize` consecutive elements, counted from the start, is `Desc`. -/
def BlockSorted {α : Type} (f : α → Nat) (blockSize : Nat) (data : List α) : Prop :=
  ∀ k, Desc f ((data.drop (k * blockSize)).take blockSize)

/-- The comparator refines the order given by `f` on the elements that satisfy `S`: a larger
value of `f` makes an element less, and an element that is less has no smaller value. -/
def Refines {α : Type} (less : α → α → Bool) (f : α → Nat) (S : α → Prop) : Prop :=
  (∀ a b, S a → S b → f b < f a → less a b = true) ∧
  (∀ a b, S a → S b → less a b = true → f b ≤ f a)

/-- The comparator is the order given by `f` on the elements that satisfy `S`. -/
def Decides {α : Type} (less : α → α → Bool) (f : α → Nat) (S : α → Prop) : Prop :=
  ∀ a b, S a → S b → less a b = true → f b < f a

/-! ## The name index -/

theorem mapGet_mapSet (m : ConfigsForName) (k k' : Str) (v : Config) :
    mapGet (mapSet m k v) k' = if k = k' then some v else mapGet m k' := by
  induction m with
  | nil => simp [mapSet, mapGet]
  | cons p t ih =>
    obtain ⟨a, b⟩ := p
    by_cases h : a = k
    · subst h
      by_cases h' : a = k' <;> simp [mapSet, mapGet, h']
    · by_cases h' : a = k'
      · subst h'
        have hk : ¬ k = a := fun e => h e.symm
        simp [mapSet, mapGet, h, hk]
      · simp [mapSet, mapGet, h, h', ih]

theorem mapGet_eq_none_iff (m : ConfigsForName) (k : Str) :
    mapGet m k = none ↔ k ∉ mapKeys m := by
  induction m with
  | nil => simp [mapGet, mapKeys]
  | cons p t ih =>
    obtain ⟨a, b⟩ := p
    by_cases h : a = k
    · simp [mapGet, mapKeys, h]
    · have hk : ¬ k = a := fun e => h e.symm
      simpa [mapGet, mapKeys, h, hk] using ih

theorem mem_mapKeys_iff (m : ConfigsForName) (k : Str) :
    k ∈ mapKeys m ↔ ∃ v, mapGet m k = some v := by
  rcases hg : mapGet m k with _ | v
  · simpa using (mapGet_eq_none_iff m k).1 hg
  · have : k ∈ mapKeys m := by
      by_contra hn
      rw [(mapGet_eq_none_iff m k).2 hn] at hg
      cases hg
    simpa using this

theorem mapKeys_mapSet (m : ConfigsForName) (k : Str) (v : Config) :
    mapKeys (mapSet m k v) = if k ∈ mapKeys m then mapKeys m else mapKeys m ++ [k] := by
  induction m with
  | nil => simp [mapSet, mapKeys]
  | cons p t ih =>
    obtain ⟨a, b⟩ := p
    by_cases h : a = k
    · simp [mapSet, mapKeys, h]
    · have hk : ¬ k = a := fun e => h e.symm
      have ih' := ih
      simp only [mapKeys] at ih'
      by_cases hm : k ∈ List.map Prod.fst t
      · simp [mapSet, mapKeys, h, hk, hm, ih']
      · simp [mapSet, mapKeys, h, hk, hm, ih']

theorem indexOK_nil : IndexOK [] := by
  simp [IndexOK, mapKeys]

theorem mem_mapSet (m : ConfigsForName) (k : Str) (v : Config) (p : Str × Config)
    (hp : p ∈ mapSet m k v) : p = (k, v) ∨ p ∈ m := by
  induction m with
  | nil => simpa [mapSet] using hp
  | cons q t ih =>
    obtain ⟨a, b⟩ := q
    by_cases h : a = k
    · simp only [mapSet, h, if_true, List.mem_cons] at hp
      rcases hp with hp | hp
      · exact Or.inl hp
      · exact Or.inr (List.mem_cons_of_mem _ hp)
    · simp only [mapSet, h, if_false, List.mem_cons] at hp
      rcases hp with hp | hp
      · exact Or.inr (by simp [hp])
      · rcases ih hp with h1 | h1
        · exact Or.inl h1
        · exact Or.inr (List.mem_cons_of_mem _ h1)

theorem indexOK_mapSet (m : ConfigsForName) (k : Str) (v : Config) (hm : IndexOK m)
    (hv : v.Name = k) : IndexOK (mapSet m k v) := by
  refine ⟨?_, ?_⟩
  · rw [mapKeys_mapSet]
    by_cases hk : k ∈ mapKeys m
    · simpa [hk] using hm.1
    · simp only [hk, if_false]
      exact List.Nodup.append hm.1 (List.nodup_singleton k) (by simpa using hk)
  · intro p hp
    rcases mem_mapSet m k v p hp with h | h
    · simp [h, hv]
    · exact hm.2 p h

theorem mapGet_eq_some_iff (m : ConfigsForName) (hm : (mapKeys m).Nodup) (k : Str) (v : Config) :
    mapGet m k = some v ↔ (k, v) ∈ m := by
  induction m with
  | nil => simp [mapGet]
  | cons p t ih =>
    obtain ⟨a, b⟩ := p
    simp only [mapKeys, List.map_cons, List.nodup_cons] at hm
    by_cases h : a = k
    · subst h
      have hnot : ∀ w, (a, w) ∉ t := fun w hw => hm.1 (List.mem_map_of_mem Prod.fst hw)
      simp [mapGet, hnot, eq_comm]
    · have hk : ¬ k = a := fun e => h e.symm
      simp [mapGet, h, hk, ih hm.2]

theorem mem_mapValues_iff (m : ConfigsForName) (hm : IndexOK m) (e : Config) :
    e ∈ mapValues m ↔ mapGet m e.Name = some e := by
  rw [mapGet_eq_some_iff m hm.1]
  constructor
  · intro h
    obtain ⟨p, hp, rfl⟩ := List.mem_map.1 h
    have := hm.2 p hp
    rw [this]
    exact hp
  · intro h
    exact List.mem_map.2 ⟨_, h, rfl⟩

theorem mapValues_names (m : ConfigsForName) (hm : IndexOK m) :
    (mapValues m).map Config.Name = mapKeys m := by
  simp only [mapValues, mapKeys, List.map_map]
  apply List.map_congr_left
  intro p hp
  exact hm.2 p hp

/-! ## The first loop -/

theorem partitionConfigs_eq (gwName : Str) (cs auto : List Config) (m : ConfigsForName) :
    partitionConfigs gwName cs (auto, m) =
      (auto ++ generatedOf gwName cs, indexAll (authoredOf gwName cs) m) := by
  induction cs generalizing auto m with
  | nil => simp [partitionConfigs, generatedOf, authoredOf, indexAll]
  | cons c cs ih =>
    by_cases h : hasPrefix c.Name gwName = true
    · simp [partitionConfigs, h, ih, generatedOf, authoredOf]
    · simp [partitionConfigs, h, ih, generatedOf, authoredOf, indexAll]

theorem mapGet_indexAll (l : List Config) (m : ConfigsForName) (n : Str) :
    mapGet (indexAll l m) n =
      match lastNamed n l with
      | some d => some d
      | none => mapGet m n := by
  induction l generalizing m with
  | nil => simp [indexAll, lastNamed]
  | cons c cs ih =>
    have hstep : indexAll (c :: cs) m = indexAll cs (mapSet m c.Name c) := rfl
    rw [hstep, ih, mapGet_mapSet]
    simp only [lastNamed]
    cases lastNamed n cs with
    | some d => rfl
    | none =>
      by_cases h : c.Name = n <;> simp [h]

theorem indexOK_indexAll (l : List Config) (m : ConfigsForName) (hm : IndexOK m) :
    IndexOK (indexAll l m) := by
  induction l generalizing m with
  | nil => simpa [indexAll] using hm
  | cons c cs ih =>
    have hstep : indexAll (c :: cs) m = indexAll cs (mapSet m c.Name c) := rfl
    rw [hstep]
    exact ih _ (indexOK_mapSet m c.Name c hm rfl)

theorem lastNamed_eq_none_iff (n : Str) (l : List Config) :
    lastNamed n l = none ↔ ∀ c ∈ l, c.Name ≠ n := by
  induction l with
  | nil => simp [lastNamed]
  | cons c cs ih =>
    simp only [lastNamed, List.mem_cons, forall_eq_or_imp]
    cases h : lastNamed n cs with
    | some d =>
      have : ¬ ∀ c ∈ cs, c.Name ≠ n := fun hall => by
        rw [ih.2 hall] at h
        cases h
      simp [this]
    | none =>
      have hcs : ∀ a ∈ cs, ¬ a.Name = n := ih.1 h
      by_cases hc : c.Name = n
      · simp [hc]
      · simpa [hc] using hcs

theorem lastNamed_append_cons (n : Str) (l₁ l₂ : List Config) (a : Config) (ha : a.Name = n)
    (hl : ∀ c ∈ l₂, c.Name ≠ n) : lastNamed n (l₁ ++ a :: l₂) = some a := by
  induction l₁ with
  | nil => simp [lastNamed, (lastNamed_eq_none_iff n l₂).2 hl, ha]
  | cons c cs ih => simp [lastNamed, ih]

theorem lastNamed_some (n : Str) (l : List Config) (d : Config) (h : lastNamed n l = some d) :
    d ∈ l ∧ d.Name = n := by
  induction l with
  | nil => simp [lastNamed] at h
  | cons c cs ih =>
    simp only [lastNamed] at h
    cases h' : lastNamed n cs with
    | some e =>
      rw [h'] at h
      simp only [Option.some.injEq] at h
      subst h
      exact ⟨List.mem_cons_of_mem _ (ih h').1, (ih h').2⟩
    | none =>
      rw [h'] at h
      by_cases hc : c.Name = n
      · simp only [hc, if_true, Option.some.injEq] at h
        subst h
        exact ⟨List.mem_cons_self _ _, hc⟩
      · simp [hc] at h

/-! ## The second loop of the gateway and destination filters -/

theorem mapGet_admitLoop (target : Str → Str) (cs : List Config) (m : ConfigsForName) (n : Str) :
    mapGet (admitLoop target cs m) n =
      match mapGet m n with
      | some e => some e
      | none => (cs.find? (fun c => target c.Name = n)).map (fun c => { c with Name := n }) := by
  induction cs generalizing m with
  | nil => cases h : mapGet m n <;> simp [admitLoop, h]
  | cons c cs ih =>
    simp only [admitLoop]
    cases hg : mapGet m (target c.Name) with
    | some e =>
      simp only []
      rw [ih]
      cases hn : mapGet m n with
      | some e' => rfl
      | none =>
        have hne : ¬ target c.Name = n := fun e' => by
          rw [e', hn] at hg
          cases hg
        simp [List.find?, hne]
    | none =>
      simp only []
      rw [ih, mapGet_mapSet]
      by_cases hne : target c.Name = n
      · subst hne
        simp [hg, List.find?]
      · simp only [hne, if_false]
        cases hn : mapGet m n with
        | some e' => rfl
        | none => simp [List.find?, hne]

theorem indexOK_admitLoop (target : Str → Str) (cs : List Config) (m : ConfigsForName)
    (hm : IndexOK m) : IndexOK (admitLoop target cs m) := by
  induction cs generalizing m with
  | nil => simpa [admitLoop] using hm
  | cons c cs ih =>
    simp only [admitLoop]
    cases hg : mapGet m (target c.Name) with
    | some e => exact ih m hm
    | none => exact ih _ (indexOK_mapSet m _ _ hm rfl)

theorem gatewayFilter_eq (gwName clusterId : Str) (configs : List Config) :
    gatewayFilter gwName clusterId configs =
      mapValues (reconcile (createCRName gwName clusterId) gwName configs) := by
  simp [gatewayFilter, partitionConfigs_eq, reconcile]

theorem destinationFilter_eq (gwName : Str) (configs : List Config) :
    destinationFilter gwName configs =
      mapValues (reconcile (fun name => trimPrefix name (gwName ++ "-".toList)) gwName configs) := by
  simp [destinationFilter, partitionConfigs_eq, reconcile]

theorem indexOK_reconcile (target : Str → Str) (gwName : Str) (configs : List Config) :
    IndexOK (reconcile target gwName configs) :=
  indexOK_admitLoop _ _ _ (indexOK_indexAll _ _ indexOK_nil)

theorem mapGet_reconcile (target : Str → Str) (gwName : Str) (configs : List Config) (n : Str) :
    mapGet (reconcile target gwName configs) n =
      match lastNamed n (authoredOf gwName configs) with
      | some d => some d
      | none => ((generatedOf gwName configs).find? (fun c => target c.Name = n)).map
          (fun c => { c with Name := n }) := by
  unfold reconcile
  rw [mapGet_admitLoop, mapGet_indexAll]
  cases lastNamed n (authoredOf gwName configs) <;> simp [mapGet]

/-! ## Reading the index in terms of the input list -/

theorem find?_decompose {α : Type} (p : α → Bool) (l : List α) (b : α)
    (h : l.find? p = some b) :
    p b = true ∧ ∃ l₁ l₂, l = l₁ ++ b :: l₂ ∧ ∀ a ∈ l₁, p a = false := by
  induction l with
  | nil => simp at h
  | cons x xs ih =>
    by_cases hx : p x = true
    · simp only [List.find?, hx, Option.some.injEq] at h
      subst h
      exact ⟨hx, [], xs, rfl, by simp⟩
    · have hx' : p x = false := by simpa using hx
      simp only [List.find?, hx'] at h
      obtain ⟨hb, l₁, l₂, hl, hall⟩ := ih h
      refine ⟨hb, x :: l₁, l₂, by simp [hl], ?_⟩
      intro a ha
      rcases List.mem_cons.1 ha with rfl | ha
      · exact hx'
      · exact hall a ha

theorem find?_append_cons {α : Type} (p : α → Bool) (l₁ l₂ : List α) (b : α)
    (hb : p b = true) (hall : ∀ a ∈ l₁, p a = false) : (l₁ ++ b :: l₂).find? p = some b := by
  induction l₁ with
  | nil => simp [List.find?, hb]
  | cons x xs ih =>
    have hx : p x = false := hall x (List.mem_cons_self _ _)
    simp only [List.cons_append, List.find?, hx]
    exact ih (fun a ha => hall a (List.mem_cons_of_mem _ ha))

theorem lastNamed_authoredOf (gwName n : Str) (l : List Config) :
    lastNamed n (authoredOf gwName l) = if hasPrefix n gwName then none else lastNamed n l := by
  induction l with
  | nil => simp [authoredOf, lastNamed]
  | cons c cs ih =>
    unfold authoredOf at ih ⊢
    by_cases hc : hasPrefix c.Name gwName = true
    · simp only [List.filter, hc, Bool.not_true, lastNamed]
      rw [ih]
      by_cases hn : hasPrefix n gwName = true
      · simp only [hn, if_true]
      · have hne : ¬ c.Name = n := fun e => hn (e ▸ hc)
        simp only [hn]
        cases lastNamed n cs <;> simp [hne]
    · have hc' : hasPrefix c.Name gwName = false := by simpa using hc
      simp only [List.filter, hc', Bool.not_false, lastNamed]
      rw [ih]
      by_cases hn : hasPrefix n gwName = true
      · have hne : ¬ c.Name = n := fun e => hc (e ▸ hn)
        simp [hn, hne]
      · simp only [hn]
        cases lastNamed n cs <;> simp

/-- The entry stored under `n` when both loops are done: the last authored entry named `n`,
or else the first generated entry with target name `n`, renamed. -/
theorem mapGet_reconcile_configs (target : Str → Str) (gwName : Str) (configs : List Config)
    (n : Str) :
    mapGet (reconcile target gwName configs) n =
      match (if hasPrefix n gwName then none else lastNamed n configs) with
      | some d => some d
      | none => (configs.find? (fun c => hasPrefix c.Name gwName && decide (target c.Name = n))).map
          (fun c => { c with Name := n }) := by
  rw [mapGet_reconcile, lastNamed_authoredOf]
  unfold generatedOf
  rw [List.find?_filter]
  simp

theorem mapGet_mem (m : ConfigsForName) (k : Str) (v : Config) (h : mapGet m k = some v) :
    (k, v) ∈ m := by
  induction m with
  | nil => simp [mapGet] at h
  | cons p t ih =>
    obtain ⟨a, b⟩ := p
    by_cases hk : a = k
    · simp only [mapGet, hk, if_true, Option.some.injEq] at h
      simp [hk, h]
    · simp only [mapGet, hk, if_false] at h
      exact List.mem_cons_of_mem _ (ih h)

theorem filter_name_eq_singleton (l : List Config) (a : Config)
    (hl : (l.map Config.Name).Nodup) (ha : a ∈ l) :
    l.filter (fun e => decide (e.Name = a.Name)) = [a] := by
  induction l with
  | nil => simp at ha
  | cons x xs ih =>
    simp only [List.map_cons, List.nodup_cons] at hl
    rcases List.mem_cons.1 ha with rfl | ha'
    · have : ∀ e ∈ xs, ¬ e.Name = a.Name := fun e he heq =>
        hl.1 (heq ▸ List.mem_map_of_mem Config.Name he)
      have hnil : xs.filter (fun e => decide (e.Name = a.Name)) = [] := by
        rw [List.filter_eq_nil_iff]
        intro e he
        simpa using this e he
      simp [List.filter, hnil]
    · have hx : ¬ x.Name = a.Name := fun heq =>
        hl.1 (heq ▸ List.mem_map_of_mem Config.Name ha')
      simp [List.filter, hx, ih hl.2 ha']

/-- The output has exactly one entry under a name that the index resolves. -/
theorem filter_mapValues_reconcile (target : Str → Str) (gwName : Str) (configs : List Config)
    (e : Config) (h : mapGet (reconcile target gwName configs) e.Name = some e) :
    (mapValues (reconcile target gwName configs)).filter (fun x => decide (x.Name = e.Name))
      = [e] := by
  have hok := indexOK_reconcile target gwName configs
  apply filter_name_eq_singleton
  · rw [mapValues_names _ hok]
    exact hok.1
  · exact (mem_mapValues_iff _ hok e).2 h

theorem reconcile_shadow (target : Str → Str) (gwName : Str) (configs l₁ l₂ : List Config)
    (a : Config) (hl : configs = l₁ ++ a :: l₂) (ha : hasPrefix a.Name gwName = false)
    (hlast : ∀ c ∈ l₂, c.Name ≠ a.Name) :
    mapGet (reconcile target gwName configs) a.Name = some a := by
  rw [mapGet_reconcile_configs, hl, lastNamed_append_cons a.Name l₁ l₂ a rfl hlast]
  simp [ha]

theorem reconcile_admit (target : Str → Str) (gwName : Str) (configs : List Config)
    (g : Config) (hg : g ∈ configs) (hgen : hasPrefix g.Name gwName = true)
    (hna : ∀ c ∈ configs, hasPrefix c.Name gwName = false → c.Name ≠ target g.Name) :
    ∃ l₁ g₀ l₂, configs = l₁ ++ g₀ :: l₂ ∧ hasPrefix g₀.Name gwName = true ∧
      target g₀.Name = target g.Name ∧
      (∀ c ∈ l₁, hasPrefix c.Name gwName = true → target c.Name ≠ target g.Name) ∧
      mapGet (reconcile target gwName configs) (target g.Name)
        = some { g₀ with Name := target g.Name } := by
  have hnone : (if hasPrefix (target g.Name) gwName then none
      else lastNamed (target g.Name) configs) = none := by
    by_cases hp : hasPrefix (target g.Name) gwName = true
    · simp [hp]
    · have hp' : hasPrefix (target g.Name) gwName = false := by simpa using hp
      simp only [hp', Bool.false_eq_true, if_false]
      rw [lastNamed_eq_none_iff]
      intro c hc hcn
      have hcp : hasPrefix c.Name gwName = false := by
        rw [hcn]
        simpa using hp
      exact hna c hc hcp hcn
  cases hf : configs.find?
      (fun c => hasPrefix c.Name gwName && decide (target c.Name = target g.Name)) with
  | none =>
    rw [List.find?_eq_none] at hf
    exact absurd (by simp [hgen]) (hf g hg)
  | some g₀ =>
    obtain ⟨hp, l₁, l₂, hl, hall⟩ := find?_decompose _ _ _ hf
    simp only [Bool.and_eq_true, decide_eq_true_eq] at hp
    refine ⟨l₁, g₀, l₂, hl, hp.1, hp.2, ?_, ?_⟩
    · intro c hc hcp hct
      have := hall c hc
      simp [hcp, hct] at this
    · rw [mapGet_reconcile_configs, hnone, hf]
      rfl

/-- Which names are in the index when both loops are done. -/
theorem mem_mapKeys_reconcile (target : Str → Str) (gwName : Str) (configs : List Config)
    (n : Str) :
    n ∈ mapKeys (reconcile target gwName configs) ↔
      n ∈ (authoredOf gwName configs).map Config.Name ++
        (generatedOf gwName configs).map (fun c => target c.Name) := by
  rw [mem_mapKeys_iff, mapGet_reconcile]
  simp only [List.mem_append, List.mem_map]
  cases hl : lastNamed n (authoredOf gwName configs) with
  | some d =>
    have := lastNamed_some _ _ _ hl
    simp only [Option.some.injEq, exists_eq', true_iff]
    exact Or.inl ⟨d, this.1, this.2⟩
  | none =>
    have hno := (lastNamed_eq_none_iff _ _).1 hl
    simp only []
    constructor
    · rintro ⟨v, hv⟩
      cases hf : (generatedOf gwName configs).find? (fun c => decide (target c.Name = n)) with
      | none => simp [hf] at hv
      | some c =>
        have hmem := List.mem_of_find?_eq_some hf
        have hp := List.find?_some hf
        exact Or.inr ⟨c, hmem, by simpa using hp⟩
    · rintro (⟨a, ha, han⟩ | ⟨c, hc, hcn⟩)
      · exact absurd han (hno a ha)
      · cases hf : (generatedOf gwName configs).find? (fun c => decide (target c.Name = n)) with
        | some c' => exact ⟨_, rfl⟩
        | none =>
          rw [List.find?_eq_none] at hf
          exact absurd (by simpa using hcn) (hf c hc)

theorem length_mapValues_reconcile (target : Str → Str) (gwName : Str)
    (configs : List Config) :
    (mapValues (reconcile target gwName configs)).length =
      ((authoredOf gwName configs).map Config.Name ++
        (generatedOf gwName configs).map (fun c => target c.Name)).toFinset.card := by
  have hok := indexOK_reconcile target gwName configs
  have hlen : (mapValues (reconcile target gwName configs)).length
      = (mapKeys (reconcile target gwName configs)).length := by
    simp [mapValues, mapKeys]
  rw [hlen, ← List.toFinset_card_of_nodup hok.1]
  congr 1
  ext n
  simp only [List.mem_toFinset]
  exact mem_mapKeys_reconcile target gwName configs n

/-! ## Slices and `append` -/

theorem isVirtualService_iff (heap : Heap) (p : Ptr) :
    isVirtualService heap p = true ↔ ∃ vs, heap.objects p = some (.virtualService vs) := by
  unfold isVirtualService
  cases h : heap.objects p with
  | none => simp
  | some o => cases o <;> simp

theorem length_elems (heap : Heap) (s : Slice) : (elems heap s).length = s.len := by
  simp [elems]

theorem getElem?_elems (heap : Heap) (s : Slice) (j : Nat) (hj : j < s.len) :
    (elems heap s)[j]? = some (heap.cells s.array (s.offset + j)) := by
  simp [elems, List.getElem?_map, List.getElem?_range hj]

/-- The elements of a slice depend only on the cells between its first and its last
element. -/
theorem elems_congr (h1 h2 : Heap) (s : Slice)
    (hc : ∀ i, s.offset ≤ i → i < s.offset + s.len → h1.cells s.array i = h2.cells s.array i) :
    elems h1 s = elems h2 s := by
  unfold elems
  apply List.map_congr_left
  intro i hi
  have := List.mem_range.1 hi
  exact hc _ (by omega) (by omega)

theorem map_getElem?_join {α : Type} (l : List (Option α)) (n : Nat) (hn : n = l.length) :
    (List.range n).map (fun i => (l[0 + i]?).join) = l := by
  subst hn
  apply List.ext_getElem
  · simp
  · intro i h1 h2
    simp [List.getElem?_eq_getElem h2]

theorem append_objects (heap : Heap) (s t : Slice) :
    (append heap s t).2.objects = heap.objects := by
  unfold append
  split <;> rfl

/-- The slice `append` returns either points into the array of its first argument, at the
same position and with the same capacity, or into the array just allocated. -/
theorem append_slice (heap : Heap) (s t : Slice) :
    ((append heap s t).1.array = s.array ∧ (append heap s t).1.offset = s.offset ∧
      (append heap s t).1.cap = s.cap ∧ (append heap s t).1.len = s.len + t.len ∧
      s.len + t.len ≤ s.cap ∧ (append heap s t).2.next = heap.next) ∨
    ((append heap s t).1.array = heap.next ∧ (append heap s t).1.len = s.len + t.len ∧
      s.cap < s.len + t.len ∧ (append heap s t).2.next = heap.next + 1) := by
  unfold append
  split
  · rename_i hfit
    exact Or.inl ⟨rfl, rfl, rfl, rfl, hfit, rfl⟩
  · rename_i hfit
    exact Or.inr ⟨rfl, rfl, by omega, rfl⟩

/-- The cells `append` writes: those of the array just allocated, or those right after the
last element of its first argument, within its capacity. -/
theorem append_cells (heap : Heap) (s t : Slice) (a i : Nat) :
    (append heap s t).2.cells a i = heap.cells a i ∨ a = heap.next ∨
      (a = s.array ∧ s.offset + s.len ≤ i ∧ i < s.offset + s.len + t.len ∧
        s.len + t.len ≤ s.cap) := by
  unfold append
  split
  · rename_i hfit
    by_cases hc : a = s.array ∧ s.offset + s.len ≤ i ∧ i < s.offset + s.len + t.len
    · exact Or.inr (Or.inr ⟨hc.1, hc.2.1, hc.2.2, hfit⟩)
    · exact Or.inl (if_neg hc)
  · by_cases hc : a = heap.next
    · exact Or.inr (Or.inl hc)
    · exact Or.inl (if_neg hc)

/-- The slice `append` returns holds the elements of its first argument followed by those of
its second. -/
theorem elems_append (heap : Heap) (s t : Slice) :
    elems (append heap s t).2 (append heap s t).1 = elems heap s ++ elems heap t := by
  unfold append
  split
  · rename_i hfit
    show (List.range (s.len + t.len)).map (fun i =>
        if s.array = s.array ∧ s.offset + s.len ≤ s.offset + i ∧
            s.offset + i < s.offset + s.len + t.len then
          ((elems heap t)[s.offset + i - (s.offset + s.len)]?).join
        else heap.cells s.array (s.offset + i)) = elems heap s ++ elems heap t
    rw [List.range_add, List.map_append, List.map_map]
    congr 1
    · apply List.map_congr_left
      intro i hi
      have := List.mem_range.1 hi
      rw [if_neg (by omega)]
    · show _ = (List.range t.len).map (fun i => heap.cells t.array (t.offset + i))
      apply List.map_congr_left
      intro j hj
      have hj' := List.mem_range.1 hj
      simp only [Function.comp]
      have hcond : True ∧ s.offset + s.len ≤ s.offset + (s.len + j) ∧
          s.offset + (s.len + j) < s.offset + s.len + t.len := ⟨trivial, by omega, by omega⟩
      rw [if_pos hcond]
      have hidx : s.offset + (s.len + j) - (s.offset + s.len) = j := by omega
      rw [hidx, getElem?_elems _ _ _ hj']
      rfl
  · show (List.range (s.len + t.len)).map (fun i =>
        if heap.next = heap.next then ((elems heap s ++ elems heap t)[0 + i]?).join
        else heap.cells heap.next (0 + i)) = elems heap s ++ elems heap t
    simp only [if_true]
    exact map_getElem?_join _ _ (by simp [length_elems])

/-! ## The assignment to `Http` -/

theorem assignHttp_objects (heap : Heap) (p q : Ptr) (vs avs : VirtualService) :
    (assignHttp heap p vs avs).objects q =
      if q = p then some (.virtualService { vs with Http := (append heap vs.Http avs.Http).1 })
      else heap.objects q := by
  simp [assignHttp, Heap.store, append_objects]

theorem assignHttp_next (heap : Heap) (p : Ptr) (vs avs : VirtualService) :
    (assignHttp heap p vs avs).next = (append heap vs.Http avs.Http).2.next := rfl

theorem elems_assignHttp (heap : Heap) (p : Ptr) (vs avs : VirtualService) (s : Slice) :
    elems (assignHttp heap p vs avs) s = elems (append heap vs.Http avs.Http).2 s := rfl

theorem isVirtualService_assignHttp (heap : Heap) (p q : Ptr) (vs avs : VirtualService)
    (h : heap.objects p = some (.virtualService vs)) :
    isVirtualService (assignHttp heap p vs avs) q = isVirtualService heap q := by
  unfold isVirtualService
  rw [assignHttp_objects]
  by_cases hq : q = p
  · simp [hq, h]
  · simp [hq]

/-- After the assignment the rule list of the object is what it was, followed by the
generated rules. -/
theorem httpAt_assignHttp_self (heap : Heap) (p : Ptr) (vs avs : VirtualService) :
    httpAt (assignHttp heap p vs avs) p = elems heap vs.Http ++ elems heap avs.Http := by
  unfold httpAt
  rw [assignHttp_objects]
  simp only [if_true]
  rw [elems_assignHttp, elems_append]

theorem httpAt_eq_elems (heap : Heap) (p : Ptr) (vs : VirtualService)
    (h : heap.objects p = some (.virtualService vs)) : httpAt heap p = elems heap vs.Http := by
  simp [httpAt, h]

theorem httpArray_of_objects_eq (h1 h2 : Heap) (p : Ptr) (h : h1.objects p = h2.objects p) :
    httpArray h1 p = httpArray h2 p := by
  simp [httpArray, h]

/-- The assignment keeps rule lists apart that were apart, and leaves the rule list of
every other object as it was. -/
theorem assignHttp_separate (heap : Heap) (ptrs : List Ptr) (p : Ptr) (vs avs : VirtualService)
    (hsep : Separate heap ptrs) (hp : p ∈ ptrs)
    (hvs : heap.objects p = some (.virtualService vs)) :
    Separate (assignHttp heap p vs avs) ptrs ∧
      ∀ q ∈ ptrs, q ≠ p → httpAt (assignHttp heap p vs avs) q = httpAt heap q := by
  have hother : ∀ q, q ≠ p →
      httpArray (assignHttp heap p vs avs) q = httpArray heap q := fun q hq =>
    httpArray_of_objects_eq _ _ _ (by rw [assignHttp_objects, if_neg hq])
  have hpa : httpArray heap p =
      if vs.Http.len = 0 ∧ vs.Http.cap = 0 then none else some vs.Http.array := by
    simp [httpArray, hvs]
  have hpa' : httpArray (assignHttp heap p vs avs) p =
      if (append heap vs.Http avs.Http).1.len = 0 ∧ (append heap vs.Http avs.Http).1.cap = 0
      then none else some (append heap vs.Http avs.Http).1.array := by
    simp [httpArray, assignHttp_objects]
  rcases append_slice heap vs.Http avs.Http with ⟨ha, ho, hc, hl, hfit, hn⟩ | ⟨ha, hl, hfit, hn⟩
  · -- the rules fit: same array
    have hsame : httpArray (assignHttp heap p vs avs) p = httpArray heap p := by
      rw [hpa, hpa', ha, hl, hc]
      by_cases h0 : vs.Http.len = 0 ∧ vs.Http.cap = 0
      · have : vs.Http.len + avs.Http.len = 0 ∧ vs.Http.cap = 0 := by omega
        rw [if_pos h0, if_pos this]
      · have : ¬ (vs.Http.len + avs.Http.len = 0 ∧ vs.Http.cap = 0) := by omega
        rw [if_neg h0, if_neg this]
    have hall : ∀ q, httpArray (assignHttp heap p vs avs) q = httpArray heap q := by
      intro q
      by_cases hq : q = p
      · rw [hq, hsame]
      · exact hother q hq
    refine ⟨⟨?_, ?_⟩, ?_⟩
    · intro x hx y hy hxy
      rw [hall x, hall y]
      exact hsep.1 x hx y hy hxy
    · intro x hx a hxa
      rw [hall x] at hxa
      rw [assignHttp_next, hn]
      exact hsep.2 x hx a hxa
    · intro q hq hqp
      unfold httpAt
      rw [assignHttp_objects, if_neg hqp]
      cases hqo : heap.objects q with
      | none => rfl
      | some o =>
        cases o with
        | gateway g => rfl
        | destinationRule d => rfl
        | virtualService u =>
          simp only []
          rw [elems_assignHttp]
          apply elems_congr
          intro i hi1 hi2
          rcases append_cells heap vs.Http avs.Http u.Http.array i with h | h | h
          · exact h
          · exfalso
            have hqa : httpArray heap q = some u.Http.array := by
              have : ¬ (u.Http.len = 0 ∧ u.Http.cap = 0) := by omega
              simp [httpArray, hqo, this]
            have := hsep.2 q hq _ hqa
            omega
          · exfalso
            have hqa : httpArray heap q = some u.Http.array := by
              have : ¬ (u.Http.len = 0 ∧ u.Http.cap = 0) := by omega
              simp [httpArray, hqo, this]
            have hpq : httpArray heap p = some vs.Http.array := by
              have : ¬ (vs.Http.len = 0 ∧ vs.Http.cap = 0) := by omega
              rw [hpa, if_neg this]
            rcases hsep.1 p hp q hq (fun e => hqp e.symm) with h0 | h0
            · rw [hpq] at h0
              cases h0
            · rw [hpq, hqa, h.1] at h0
              exact h0 rfl
  · -- the rules do not fit: a new array
    have hnew : httpArray (assignHttp heap p vs avs) p = some heap.next := by
      rw [hpa', ha, hl]
      have : ¬ (vs.Http.len + avs.Http.len = 0 ∧ (append heap vs.Http avs.Http).1.cap = 0) := by
        omega
      rw [if_neg this]
    refine ⟨⟨?_, ?_⟩, ?_⟩
    · intro x hx y hy hxy
      by_cases hxp : x = p
      · subst hxp
        right
        rw [hnew, hother y (fun e => hxy e.symm)]
        intro heq
        have := hsep.2 y hy _ heq.symm
        omega
      · rw [hother x hxp]
        by_cases hyp : y = p
        · subst hyp
          rw [hnew]
          cases hxa : httpArray heap x with
          | none => exact Or.inl rfl
          | some a =>
            right
            intro heq
            have := hsep.2 x hx a hxa
            have : a = heap.next := Option.some.inj heq
            omega
        · rw [hother y hyp]
          exact hsep.1 x hx y hy hxy
    · intro x hx a hxa
      rw [assignHttp_next, hn]
      by_cases hxp : x = p
      · subst hxp
        rw [hnew] at hxa
        have : heap.next = a := Option.some.inj hxa
        omega
      · rw [hother x hxp] at hxa
        have := hsep.2 x hx a hxa
        omega
    · intro q hq hqp
      unfold httpAt
      rw [assignHttp_objects, if_neg hqp]
      cases hqo : heap.objects q with
      | none => rfl
      | some o =>
        cases o with
        | gateway g => rfl
        | destinationRule d => rfl
        | virtualService u =>
          simp only []
          rw [elems_assignHttp]
          apply elems_congr
          intro i hi1 hi2
          rcases append_cells heap vs.Http avs.Http u.Http.array i with h | h | h
          · exact h
          · exfalso
            have hqa : httpArray heap q = some u.Http.array := by
              have : ¬ (u.Http.len = 0 ∧ u.Http.cap = 0) := by omega
              simp [httpArray, hqo, this]
            have := hsep.2 q hq _ hqa
            omega
          · exfalso
            omega

/-! ## The second loop of the virtual-service filter -/

theorem virtualServiceLoop_admit (gwName clusterId : Str) (c : Config) (cs : List Config)
    (m : ConfigsForName) (h : Heap)
    (hg : mapGet m (createCRName gwName clusterId c.Name) = none) :
    virtualServiceLoop gwName clusterId (c :: cs) m h =
      virtualServiceLoop gwName clusterId cs
        (mapSet m (createCRName gwName clusterId c.Name)
          { c with Name := createCRName gwName clusterId c.Name }) h := by
  simp only [virtualServiceLoop, hg]

theorem virtualServiceLoop_merge (gwName clusterId : Str) (c raw : Config) (cs : List Config)
    (m : ConfigsForName) (h : Heap) (vs avs : VirtualService)
    (hg : mapGet m (createCRName gwName clusterId c.Name) = some raw)
    (h1 : h.objects raw.Spec = some (.virtualService vs))
    (h2 : h.objects c.Spec = some (.virtualService avs)) :
    virtualServiceLoop gwName clusterId (c :: cs) m h =
      virtualServiceLoop gwName clusterId cs m (assignHttp h raw.Spec vs avs) := by
  simp only [virtualServiceLoop, hg, h1, h2]

theorem isVirtualService_eq_false (heap : Heap) (p : Ptr)
    (h : isVirtualService heap p = false) (vs : VirtualService) :
    heap.objects p ≠ some (.virtualService vs) := by
  intro hp
  have := (isVirtualService_iff heap p).2 ⟨vs, hp⟩
  rw [this] at h
  cases h

theorem virtualServiceLoop_panic (gwName clusterId : Str) (c raw : Config) (cs : List Config)
    (m : ConfigsForName) (h : Heap)
    (hg : mapGet m (createCRName gwName clusterId c.Name) = some raw)
    (hbad : isVirtualService h raw.Spec = false ∨ isVirtualService h c.Spec = false) :
    virtualServiceLoop gwName clusterId (c :: cs) m h = none := by
  simp only [virtualServiceLoop, hg]
  cases h1 : h.objects raw.Spec with
  | none => rfl
  | some o1 =>
    cases o1 with
    | gateway x => rfl
    | destinationRule x => rfl
    | virtualService vs =>
      cases h2 : h.objects c.Spec with
      | none => rfl
      | some o2 =>
        cases o2 with
        | gateway x => rfl
        | destinationRule x => rfl
        | virtualService avs =>
          rcases hbad with hb | hb
          · exact absurd h1 (isVirtualService_eq_false _ _ hb vs)
          · exact absurd h2 (isVirtualService_eq_false _ _ hb avs)

/-- The three ways the loop can go on at a generated entry. -/
theorem virtualServiceLoop_cases (gwName clusterId : Str) (c : Config) (cs : List Config)
    (m : ConfigsForName) (h : Heap) :
    (mapGet m (createCRName gwName clusterId c.Name) = none ∧
      collisionsLoop (createCRName gwName clusterId) (c :: cs) m =
        collisionsLoop (createCRName gwName clusterId) cs
          (mapSet m (createCRName gwName clusterId c.Name)
            { c with Name := createCRName gwName clusterId c.Name }) ∧
      virtualServiceLoop gwName clusterId (c :: cs) m h =
        virtualServiceLoop gwName clusterId cs
          (mapSet m (createCRName gwName clusterId c.Name)
            { c with Name := createCRName gwName clusterId c.Name }) h) ∨
    (∃ raw, mapGet m (createCRName gwName clusterId c.Name) = some raw ∧
      collisionsLoop (createCRName gwName clusterId) (c :: cs) m =
        (raw, c) :: collisionsLoop (createCRName gwName clusterId) cs m ∧
      ((isVirtualService h raw.Spec = false ∨ isVirtualService h c.Spec = false) ∧
          virtualServiceLoop gwName clusterId (c :: cs) m h = none ∨
        ∃ vs avs, h.objects raw.Spec = some (.virtualService vs) ∧
          h.objects c.Spec = some (.virtualService avs) ∧
          virtualServiceLoop gwName clusterId (c :: cs) m h =
            virtualServiceLoop gwName clusterId cs m (assignHttp h raw.Spec vs avs))) := by
  cases hg : mapGet m (createCRName gwName clusterId c.Name) with
  | none =>
    exact Or.inl ⟨rfl, by simp only [collisionsLoop, hg],
      virtualServiceLoop_admit _ _ _ _ _ _ hg⟩
  | some raw =>
    refine Or.inr ⟨raw, rfl, by simp only [collisionsLoop, hg], ?_⟩
    cases hr : isVirtualService h raw.Spec with
    | false => exact Or.inl ⟨Or.inl rfl, virtualServiceLoop_panic _ _ _ _ _ _ _ hg (Or.inl hr)⟩
    | true =>
      cases hc : isVirtualService h c.Spec with
      | false => exact Or.inl ⟨Or.inr rfl, virtualServiceLoop_panic _ _ _ _ _ _ _ hg (Or.inr hc)⟩
      | true =>
        obtain ⟨vs, h1⟩ := (isVirtualService_iff _ _).1 hr
        obtain ⟨avs, h2⟩ := (isVirtualService_iff _ _).1 hc
        exact Or.inr ⟨vs, avs, h1, h2, virtualServiceLoop_merge _ _ _ _ _ _ _ _ _ hg h1 h2⟩

/-- The index built by the virtual-service loop is the one the gateway loop builds. -/
theorem virtualServiceLoop_index (gwName clusterId : Str) (cs : List Config)
    (m m' : ConfigsForName) (h h' : Heap)
    (hr : virtualServiceLoop gwName clusterId cs m h = some (m', h')) :
    m' = admitLoop (createCRName gwName clusterId) cs m := by
  induction cs generalizing m h with
  | nil =>
    simp only [virtualServiceLoop, Option.some.injEq, Prod.mk.injEq] at hr
    simp [admitLoop, hr.1]
  | cons c cs ih =>
    rcases virtualServiceLoop_cases gwName clusterId c cs m h with
      ⟨hg, _, hstep⟩ | ⟨raw, hg, _, ⟨_, hstep⟩ | ⟨vs, avs, _, _, hstep⟩⟩
    · rw [hstep] at hr
      simp only [admitLoop, hg]
      exact ih _ _ hr
    · rw [hstep] at hr
      cases hr
    · rw [hstep] at hr
      simp only [admitLoop, hg]
      exact ih _ _ hr

/-- The loop panics exactly when, at one of its collisions, the spec of the indexed entry or
the spec of the generated entry is not a virtual service. -/
theorem virtualServiceLoop_eq_none_iff (gwName clusterId : Str) (cs : List Config)
    (m : ConfigsForName) (h : Heap) :
    virtualServiceLoop gwName clusterId cs m h = none ↔
      ∃ ec ∈ collisionsLoop (createCRName gwName clusterId) cs m,
        isVirtualService h ec.1.Spec = false ∨ isVirtualService h ec.2.Spec = false := by
  induction cs generalizing m h with
  | nil => simp [virtualServiceLoop, collisionsLoop]
  | cons c cs ih =>
    rcases virtualServiceLoop_cases gwName clusterId c cs m h with
      ⟨hg, hcol, hstep⟩ | ⟨raw, hg, hcol, ⟨hbad, hstep⟩ | ⟨vs, avs, h1, h2, hstep⟩⟩
    · rw [hstep, hcol]
      exact ih _ _
    · rw [hstep, hcol]
      simp only [true_iff]
      exact ⟨(raw, c), List.mem_cons_self _ _, hbad⟩
    · rw [hstep, hcol, ih]
      have hraw : isVirtualService h raw.Spec = true := (isVirtualService_iff _ _).2 ⟨vs, h1⟩
      have hcv : isVirtualService h c.Spec = true := (isVirtualService_iff _ _).2 ⟨avs, h2⟩
      constructor
      · rintro ⟨ec, hec, hb⟩
        refine ⟨ec, List.mem_cons_of_mem _ hec, ?_⟩
        rwa [isVirtualService_assignHttp _ _ _ _ _ h1, isVirtualService_assignHttp _ _ _ _ _ h1]
          at hb
      · rintro ⟨ec, hec, hb⟩
        rcases List.mem_cons.1 hec with rfl | hec'
        · simp only [hraw, hcv] at hb
          simp at hb
        · refine ⟨ec, hec', ?_⟩
          rwa [isVirtualService_assignHttp _ _ _ _ _ h1,
            isVirtualService_assignHttp _ _ _ _ _ h1]

theorem collisionsLoop_mem_spec (target : Str → Str) (cs : List Config) (m : ConfigsForName)
    (ec : Config × Config) (h : ec ∈ collisionsLoop target cs m) :
    (ec.1 ∈ mapValues m ∨ ∃ c ∈ cs, ec.1.Spec = c.Spec) ∧ ec.2 ∈ cs := by
  induction cs generalizing m with
  | nil => simp [collisionsLoop] at h
  | cons c cs ih =>
    simp only [collisionsLoop] at h
    cases hg : mapGet m (target c.Name) with
    | none =>
      rw [hg] at h
      obtain ⟨h1, h2⟩ := ih _ h
      refine ⟨?_, List.mem_cons_of_mem _ h2⟩
      rcases h1 with h1 | ⟨c', hc', hs⟩
      · obtain ⟨q, hq, hqe⟩ := List.mem_map.1 h1
        rcases mem_mapSet _ _ _ _ hq with rfl | hq'
        · exact Or.inr ⟨c, List.mem_cons_self _ _, by rw [← hqe]⟩
        · exact Or.inl (List.mem_map.2 ⟨q, hq', hqe⟩)
      · exact Or.inr ⟨c', List.mem_cons_of_mem _ hc', hs⟩
    | some raw =>
      rw [hg] at h
      rcases List.mem_cons.1 h with rfl | h'
      · exact ⟨Or.inl (List.mem_map.2 ⟨_, mapGet_mem _ _ _ hg, rfl⟩), List.mem_cons_self _ _⟩
      · obtain ⟨h1, h2⟩ := ih _ h'
        refine ⟨?_, List.mem_cons_of_mem _ h2⟩
        rcases h1 with h1 | ⟨c', hc', hs⟩
        · exact Or.inl h1
        · exact Or.inr ⟨c', List.mem_cons_of_mem _ hc', hs⟩

/-- The loop returns when every spec is a virtual service. -/
theorem virtualServiceLoop_isSome (gwName clusterId : Str) (cs : List Config)
    (m : ConfigsForName) (h : Heap)
    (hcs : ∀ c ∈ cs, isVirtualService h c.Spec = true)
    (hm : ∀ p ∈ m, isVirtualService h p.2.Spec = true) :
    ∃ m' h', virtualServiceLoop gwName clusterId cs m h = some (m', h') := by
  cases hr : virtualServiceLoop gwName clusterId cs m h with
  | some r => exact ⟨r.1, r.2, rfl⟩
  | none =>
    exfalso
    obtain ⟨ec, hec, hb⟩ := (virtualServiceLoop_eq_none_iff _ _ _ _ _).1 hr
    obtain ⟨h1, h2⟩ := collisionsLoop_mem_spec _ _ _ _ hec
    have hv2 := hcs _ h2
    have hv1 : isVirtualService h ec.1.Spec = true := by
      rcases h1 with h1 | ⟨c', hc', hs⟩
      · obtain ⟨q, hq, hqe⟩ := List.mem_map.1 h1
        rw [← hqe]
        exact hm q hq
      · rw [hs]
        exact hcs c' hc'
    rw [hv1, hv2] at hb
    simp at hb

theorem mem_mapValues_of_mapGet (m : ConfigsForName) (k : Str) (v : Config)
    (h : mapGet m k = some v) : v ∈ mapValues m :=
  List.mem_map.2 ⟨(k, v), mapGet_mem m k v h, rfl⟩

theorem mem_mapValues_mapSet (m : ConfigsForName) (k : Str) (v e : Config)
    (h : e ∈ mapValues (mapSet m k v)) : e = v ∨ e ∈ mapValues m := by
  obtain ⟨q, hq, rfl⟩ := List.mem_map.1 h
  rcases mem_mapSet _ _ _ _ hq with rfl | hq'
  · exact Or.inl rfl
  · exact Or.inr (List.mem_map.2 ⟨q, hq', rfl⟩)

/-- The rule list of an object after the loop, when the rule lists are apart and no spec
object is referenced twice: what it was before, followed by the rule lists of the generated
entries that collided with an entry referencing it, in the order of the collisions. -/
theorem virtualServiceLoop_contents (gwName clusterId : Str) (cs : List Config)
    (m m' : ConfigsForName) (h h' : Heap) (ptrs : List Ptr)
    (hin : ∀ e ∈ mapValues m, e.Spec ∈ ptrs) (hcin : ∀ c ∈ cs, c.Spec ∈ ptrs)
    (hsep : Separate h ptrs)
    (hdis : ∀ e ∈ mapValues m, ∀ c ∈ cs, e.Spec ≠ c.Spec)
    (hnd : (cs.map Config.Spec).Nodup)
    (hr : virtualServiceLoop gwName clusterId cs m h = some (m', h'))
    (p : Ptr) (hp : p ∈ ptrs) :
    httpAt h' p = httpAt h p ++
      (((collisionsLoop (createCRName gwName clusterId) cs m).filter
          (fun ec => decide (ec.1.Spec = p))).map (fun ec => httpAt h ec.2.Spec)).flatten := by
  induction cs generalizing m h with
  | nil =>
    simp only [virtualServiceLoop, Option.some.injEq, Prod.mk.injEq] at hr
    simp [hr.2, collisionsLoop]
  | cons c cs ih =>
    simp only [List.map_cons, List.nodup_cons] at hnd
    have hcin' : ∀ c' ∈ cs, c'.Spec ∈ ptrs := fun c' hc' => hcin c' (List.mem_cons_of_mem _ hc')
    have hdis' : ∀ e ∈ mapValues m, ∀ c' ∈ cs, e.Spec ≠ c'.Spec :=
      fun e he c' hc' => hdis e he c' (List.mem_cons_of_mem _ hc')
    rcases virtualServiceLoop_cases gwName clusterId c cs m h with
      ⟨hg, hcol, hstep⟩ | ⟨raw, hg, hcol, ⟨hbad, hstep⟩ | ⟨vs, avs, h1, h2, hstep⟩⟩
    · rw [hstep] at hr
      rw [hcol]
      apply ih _ _ _ hcin' hsep _ hnd.2 hr
      · intro e he
        rcases mem_mapValues_mapSet _ _ _ _ he with rfl | he'
        · exact hcin c (List.mem_cons_self _ _)
        · exact hin e he'
      · intro e he c' hc'
        rcases mem_mapValues_mapSet _ _ _ _ he with rfl | he'
        · intro heq
          exact hnd.1 (heq ▸ List.mem_map_of_mem Config.Spec hc')
        · exact hdis' e he' c' hc'
    · rw [hstep] at hr
      cases hr
    · rw [hstep] at hr
      rw [hcol]
      have hrawmem := mem_mapValues_of_mapGet _ _ _ hg
      have hrawin := hin raw hrawmem
      obtain ⟨hsep', hframe⟩ := assignHttp_separate h ptrs raw.Spec vs avs hsep hrawin h1
      have hstepeq := ih m (assignHttp h raw.Spec vs avs) hin hcin' hsep' hdis' hnd.2 hr
      have hcongr : ((collisionsLoop (createCRName gwName clusterId) cs m).filter
            (fun ec => decide (ec.1.Spec = p))).map
            (fun ec => httpAt (assignHttp h raw.Spec vs avs) ec.2.Spec)
          = ((collisionsLoop (createCRName gwName clusterId) cs m).filter
            (fun ec => decide (ec.1.Spec = p))).map (fun ec => httpAt h ec.2.Spec) := by
        apply List.map_congr_left
        intro ec hec
        have hmem := (collisionsLoop_mem_spec _ _ _ _ (List.mem_of_mem_filter hec)).2
        exact hframe _ (hcin' _ hmem) (fun heq => hdis' raw hrawmem _ hmem heq.symm)
      rw [hcongr] at hstepeq
      rw [hstepeq]
      have hself : httpAt (assignHttp h raw.Spec vs avs) raw.Spec
          = httpAt h raw.Spec ++ httpAt h c.Spec := by
        rw [httpAt_assignHttp_self, httpAt_eq_elems _ _ _ h1, httpAt_eq_elems _ _ _ h2]
      by_cases hpr : raw.Spec = p
      · subst hpr
        rw [hself]
        simp [List.filter]
      · rw [hframe p hp (fun e => hpr e.symm)]
        simp [List.filter, hpr]

/-- The collisions with the entry stored under `n`, when no spec object is referenced twice:
the generated entries with target name `n`. -/
theorem collisionsLoop_filter (target : Str → Str) (cs : List Config) (m : ConfigsForName)
    (hok : IndexOK m)
    (hdis : ∀ e ∈ mapValues m, ∀ c ∈ cs, e.Spec ≠ c.Spec)
    (hinj : ∀ e ∈ mapValues m, ∀ e' ∈ mapValues m, e.Spec = e'.Spec → e = e')
    (hnd : (cs.map Config.Spec).Nodup)
    (n : Str) (e : Config) (hget : mapGet m n = some e) :
    ((collisionsLoop target cs m).filter (fun ec => decide (ec.1.Spec = e.Spec))).map Prod.snd
      = cs.filter (fun c => decide (target c.Name = n)) := by
  induction cs generalizing m with
  | nil => simp [collisionsLoop]
  | cons c cs ih =>
    simp only [List.map_cons, List.nodup_cons] at hnd
    have hdis' : ∀ e ∈ mapValues m, ∀ c' ∈ cs, e.Spec ≠ c'.Spec :=
      fun e he c' hc' => hdis e he c' (List.mem_cons_of_mem _ hc')
    simp only [collisionsLoop]
    cases hg : mapGet m (target c.Name) with
    | none =>
      simp only []
      have hne : ¬ target c.Name = n := fun heq => by
        rw [heq, hget] at hg
        cases hg
      have hget' : mapGet (mapSet m (target c.Name) { c with Name := target c.Name }) n
          = some e := by
        rw [mapGet_mapSet]
        simp [hne, hget]
      rw [ih (mapSet m (target c.Name) { c with Name := target c.Name })
        (indexOK_mapSet m (target c.Name) { c with Name := target c.Name } hok rfl) ?_ ?_
        hnd.2 hget']
      · simp [List.filter, hne]
      · intro x hx c' hc'
        rcases mem_mapValues_mapSet _ _ _ _ hx with rfl | hx'
        · intro heq
          exact hnd.1 (heq ▸ List.mem_map_of_mem Config.Spec hc')
        · exact hdis' x hx' c' hc'
      · intro x hx y hy hxy
        rcases mem_mapValues_mapSet _ _ _ _ hx with rfl | hx'
        · rcases mem_mapValues_mapSet _ _ _ _ hy with rfl | hy'
          · rfl
          · exact absurd hxy.symm (hdis y hy' c (List.mem_cons_self _ _))
        · rcases mem_mapValues_mapSet _ _ _ _ hy with rfl | hy'
          · exact absurd hxy (hdis x hx' c (List.mem_cons_self _ _))
          · exact hinj x hx' y hy' hxy
    | some raw =>
      simp only []
      have hrawmem := mem_mapValues_of_mapGet _ _ _ hg
      have hstep := ih m hok hdis' hinj hnd.2 hget
      by_cases hn : target c.Name = n
      · have he : e = raw := by
          rw [hn, hget] at hg
          exact Option.some.inj hg
        subst he
        simp [List.filter, hn, hstep]
      · have hsp : ¬ raw.Spec = e.Spec := by
          intro heq
          have he := hinj e (mem_mapValues_of_mapGet _ _ _ hget) raw hrawmem heq.symm
          have h1n := hok.2 _ (mapGet_mem _ _ _ hget)
          have h2n := hok.2 _ (mapGet_mem _ _ _ hg)
          simp only [] at h1n h2n
          exact hn (by rw [← h2n, ← h1n, he])
        simp [List.filter, hn, hsp, hstep]

/-- A pair is among the collisions of the loop exactly when its second component is an entry
of the list and its first is what the index holds under the target name of that entry once
the entries before it have been processed. -/
theorem mem_collisionsLoop (target : Str → Str) (cs : List Config) (m : ConfigsForName)
    (e c : Config) :
    (e, c) ∈ collisionsLoop target cs m ↔
      ∃ l₁ l₂, cs = l₁ ++ c :: l₂ ∧ mapGet (admitLoop target l₁ m) (target c.Name) = some e := by
  induction cs generalizing m with
  | nil => simp [collisionsLoop]
  | cons c₀ cs ih =>
    simp only [collisionsLoop]
    cases hg : mapGet m (target c₀.Name) with
    | none =>
      simp only []
      rw [ih]
      constructor
      · rintro ⟨l₁, l₂, hl, hm⟩
        refine ⟨c₀ :: l₁, l₂, by simp [hl], ?_⟩
        simpa only [admitLoop, hg] using hm
      · rintro ⟨l₁, l₂, hl, hm⟩
        cases l₁ with
        | nil =>
          simp only [List.nil_append, List.cons.injEq] at hl
          rw [← hl.1] at hm
          simp only [admitLoop] at hm
          rw [hg] at hm
          cases hm
        | cons x l₁ =>
          simp only [List.cons_append, List.cons.injEq] at hl
          obtain ⟨rfl, hl⟩ := hl
          refine ⟨l₁, l₂, hl, ?_⟩
          simpa only [admitLoop, hg] using hm
    | some raw =>
      simp only [List.mem_cons, Prod.mk.injEq]
      rw [ih]
      constructor
      · rintro (⟨rfl, rfl⟩ | ⟨l₁, l₂, hl, hm⟩)
        · exact ⟨[], cs, rfl, by simpa only [admitLoop] using hg⟩
        · refine ⟨c₀ :: l₁, l₂, by simp [hl], ?_⟩
          simpa only [admitLoop, hg] using hm
      · rintro ⟨l₁, l₂, hl, hm⟩
        cases l₁ with
        | nil =>
          simp only [List.nil_append, List.cons.injEq] at hl
          obtain ⟨rfl, _⟩ := hl
          simp only [admitLoop] at hm
          rw [hg] at hm
          exact Or.inl ⟨(Option.some.inj hm).symm, rfl⟩
        | cons x l₁ =>
          simp only [List.cons_append, List.cons.injEq] at hl
          obtain ⟨rfl, hl⟩ := hl
          refine Or.inr ⟨l₁, l₂, hl, ?_⟩
          simpa only [admitLoop, hg] using hm

theorem virtualServiceFilter_eq (gwName clusterId : Str) (heap : Heap) (configs : List Config) :
    virtualServiceFilter gwName clusterId heap configs =
      match virtualServiceLoop gwName clusterId (generatedOf gwName configs)
          (indexAll (authoredOf gwName configs) []) heap with
      | some (m, h) => some (mapValues m, h)
      | none => none := by
  simp [virtualServiceFilter, partitionConfigs_eq]

/-- When the virtual-service filter returns, its entries are those of the gateway filter. -/
theorem virtualServiceFilter_some (gwName clusterId : Str) (heap heap' : Heap)
    (configs out : List Config)
    (h : virtualServiceFilter gwName clusterId heap configs = some (out, heap')) :
    out = mapValues (reconcile (createCRName gwName clusterId) gwName configs) ∧
      virtualServiceLoop gwName clusterId (generatedOf gwName configs)
        (indexAll (authoredOf gwName configs) []) heap
        = some (reconcile (createCRName gwName clusterId) gwName configs, heap') := by
  rw [virtualServiceFilter_eq] at h
  cases hr : virtualServiceLoop gwName clusterId (generatedOf gwName configs)
      (indexAll (authoredOf gwName configs) []) heap with
  | none => simp [hr] at h
  | some r =>
    obtain ⟨m, h1⟩ := r
    rw [hr] at h
    simp only [Option.some.injEq, Prod.mk.injEq] at h
    have hm := virtualServiceLoop_index _ _ _ _ _ _ _ hr
    have hm' : m = reconcile (createCRName gwName clusterId) gwName configs := hm
    rw [← h.1, ← h.2, hm']
    exact ⟨rfl, rfl⟩

theorem mem_indexAll (l : List Config) (m : ConfigsForName) (p : Str × Config)
    (hp : p ∈ indexAll l m) : p ∈ m ∨ p.2 ∈ l := by
  induction l generalizing m with
  | nil => exact Or.inl hp
  | cons c cs ih =>
    have hstep : indexAll (c :: cs) m = indexAll cs (mapSet m c.Name c) := rfl
    rw [hstep] at hp
    rcases ih _ hp with h | h
    · rcases mem_mapSet _ _ _ _ h with rfl | h'
      · exact Or.inr (List.mem_cons_self _ _)
      · exact Or.inl h'
    · exact Or.inr (List.mem_cons_of_mem _ h)

theorem mem_generatedOf (gwName : Str) (l : List Config) (c : Config) :
    c ∈ generatedOf gwName l ↔ c ∈ l ∧ hasPrefix c.Name gwName = true := by
  simp [generatedOf]

theorem mem_authoredOf (gwName : Str) (l : List Config) (c : Config) :
    c ∈ authoredOf gwName l ↔ c ∈ l ∧ hasPrefix c.Name gwName = false := by
  simp [authoredOf]

/-- The virtual-service filter returns when every spec is a virtual service. -/
theorem virtualServiceFilter_isSome (gwName clusterId : Str) (heap : Heap)
    (configs : List Config) (hvs : ∀ c ∈ configs, isVirtualService heap c.Spec = true) :
    ∃ heap', virtualServiceFilter gwName clusterId heap configs
      = some (mapValues (reconcile (createCRName gwName clusterId) gwName configs), heap') := by
  obtain ⟨m', h', hr⟩ := virtualServiceLoop_isSome gwName clusterId (generatedOf gwName configs)
    (indexAll (authoredOf gwName configs) []) heap
    (fun c hc => hvs c ((mem_generatedOf _ _ _).1 hc).1)
    (fun p hp => by
      rcases mem_indexAll _ _ _ hp with h | h
      · simp at h
      · exact hvs _ ((mem_authoredOf _ _ _).1 h).1)
  have hm := virtualServiceLoop_index _ _ _ _ _ _ _ hr
  refine ⟨h', ?_⟩
  rw [virtualServiceFilter_eq, hr, hm]
  rfl

/-- Where an output entry comes from: it is an authored input entry, or a generated input
entry renamed to its target name. -/
theorem mem_reconcile_cases (target : Str → Str) (gwName : Str) (configs : List Config)
    (e : Config) (he : e ∈ mapValues (reconcile target gwName configs)) :
    (e ∈ configs ∧ hasPrefix e.Name gwName = false) ∨
      ∃ g ∈ configs, hasPrefix g.Name gwName = true ∧ e = { g with Name := target g.Name } := by
  have hget := (mem_mapValues_iff _ (indexOK_reconcile target gwName configs) e).1 he
  rw [mapGet_reconcile] at hget
  cases hl : lastNamed e.Name (authoredOf gwName configs) with
  | some d =>
    rw [hl] at hget
    simp only [Option.some.injEq] at hget
    subst hget
    exact Or.inl ((mem_authoredOf _ _ _).1 (lastNamed_some _ _ _ hl).1)
  | none =>
    rw [hl] at hget
    simp only [] at hget
    cases hf : (generatedOf gwName configs).find? (fun c => decide (target c.Name = e.Name)) with
    | none => simp [hf] at hget
    | some g =>
      rw [hf] at hget
      simp only [Option.map_some', Option.some.injEq] at hget
      have hmem := (mem_generatedOf _ _ _).1 (List.mem_of_find?_eq_some hf)
      have hp : target g.Name = e.Name := by simpa using List.find?_some hf
      refine Or.inr ⟨g, hmem.1, hmem.2, ?_⟩
      rw [hp]
      exact hget.symm

theorem mapSet_of_not_mem (m : ConfigsForName) (k : Str) (v : Config) (hk : k ∉ mapKeys m) :
    mapSet m k v = m ++ [(k, v)] := by
  induction m with
  | nil => rfl
  | cons p t ih =>
    obtain ⟨a, b⟩ := p
    simp only [mapKeys, List.map_cons, List.mem_cons, not_or] at hk
    have ha : ¬ a = k := fun e => hk.1 e.symm
    simp only [mapSet, ha, if_false, List.cons_append]
    rw [ih hk.2]

theorem indexAll_of_nodup (l : List Config) (m : ConfigsForName)
    (hnd : (mapKeys m ++ l.map Config.Name).Nodup) :
    indexAll l m = m ++ l.map (fun c => (c.Name, c)) := by
  induction l generalizing m with
  | nil => simp [indexAll]
  | cons c cs ih =>
    have hstep : indexAll (c :: cs) m = indexAll cs (mapSet m c.Name c) := rfl
    have hc : c.Name ∉ mapKeys m := by
      intro hmem
      have := (List.nodup_append.1 hnd).2.2
      exact this hmem (by simp)
    rw [hstep, mapSet_of_not_mem m c.Name c hc, ih]
    · simp
    · simpa [mapKeys] using hnd

/-- A list of authored entries with distinct names passes through unchanged. -/
theorem reconcile_of_authored_nodup (target : Str → Str) (gwName : Str) (l : List Config)
    (hauth : ∀ c ∈ l, hasPrefix c.Name gwName = false) (hnd : (l.map Config.Name).Nodup) :
    mapValues (reconcile target gwName l) = l ∧
      reconcile target gwName l = l.map (fun c => (c.Name, c)) ∧
      generatedOf gwName l = [] := by
  have hgen : generatedOf gwName l = [] := by
    unfold generatedOf
    rw [List.filter_eq_nil_iff]
    intro c hc
    simp [hauth c hc]
  have hau : authoredOf gwName l = l := by
    unfold authoredOf
    rw [List.filter_eq_self]
    intro c hc
    simp [hauth c hc]
  have hrec : reconcile target gwName l = l.map (fun c => (c.Name, c)) := by
    unfold reconcile
    rw [hgen, hau, indexAll_of_nodup l [] (by simpa [mapKeys] using hnd)]
    simp [admitLoop]
  refine ⟨?_, hrec, hgen⟩
  rw [hrec]
  simp only [mapValues, List.map_map]
  exact List.map_id _

/-- Names of the output when no target name carries the reserved prefix. -/
theorem reconcile_output_authored (target : Str → Str) (gwName : Str) (configs : List Config)
    (hclean : ∀ c ∈ configs, hasPrefix c.Name gwName = true →
      hasPrefix (target c.Name) gwName = false)
    (e : Config) (he : e ∈ mapValues (reconcile target gwName configs)) :
    hasPrefix e.Name gwName = false := by
  rcases mem_reconcile_cases target gwName configs e he with h | ⟨g, hg, hgp, rfl⟩
  · exact h.2
  · exact hclean g hg hgp

theorem admitLoop_append (target : Str → Str) (xs ys : List Config) (m : ConfigsForName) :
    admitLoop target (xs ++ ys) m = admitLoop target ys (admitLoop target xs m) := by
  induction xs generalizing m with
  | nil => rfl
  | cons c cs ih =>
    simp only [List.cons_append, admitLoop]
    cases mapGet m (target c.Name) <;> exact ih _

theorem generatedOf_append_cons (gwName : Str) (k₁ k₂ : List Config) (g : Config)
    (hgen : hasPrefix g.Name gwName = true) :
    generatedOf gwName (k₁ ++ g :: k₂) = generatedOf gwName k₁ ++ g :: generatedOf gwName k₂ ∧
      generatedOf gwName (k₁ ++ k₂) = generatedOf gwName k₁ ++ generatedOf gwName k₂ ∧
      authoredOf gwName (k₁ ++ g :: k₂) = authoredOf gwName (k₁ ++ k₂) := by
  simp [generatedOf, authoredOf, List.filter_append, List.filter_cons, hgen]

/-- A generated entry whose target name is held by an authored entry leaves no trace: the
index is the one built from the input without it. -/
theorem reconcile_drop_shadowed (target : Str → Str) (gwName : Str) (k₁ k₂ : List Config)
    (g e : Config) (hgen : hasPrefix g.Name gwName = true)
    (hex : mapGet (indexAll (authoredOf gwName (k₁ ++ g :: k₂)) []) (target g.Name) = some e) :
    reconcile target gwName (k₁ ++ g :: k₂) = reconcile target gwName (k₁ ++ k₂) := by
  obtain ⟨h1, h2, h3⟩ := generatedOf_append_cons gwName k₁ k₂ g hgen
  unfold reconcile
  rw [h1, h2, ← h3, admitLoop_append, admitLoop_append]
  have hkeep : mapGet (admitLoop target (generatedOf gwName k₁)
      (indexAll (authoredOf gwName (k₁ ++ g :: k₂)) [])) (target g.Name) = some e := by
    rw [mapGet_admitLoop, hex]
  simp only [admitLoop, hkeep]

theorem mapGet_indexAll_authored (gwName : Str) (configs l₁ l₂ : List Config) (a : Config)
    (hl : configs = l₁ ++ a :: l₂) (ha : hasPrefix a.Name gwName = false)
    (hlast : ∀ c ∈ l₂, c.Name ≠ a.Name) :
    mapGet (indexAll (authoredOf gwName configs) []) a.Name = some a := by
  rw [mapGet_indexAll, lastNamed_authoredOf, hl, lastNamed_append_cons a.Name l₁ l₂ a rfl hlast]
  simp [ha]

theorem hasPrefix_createCRName (gwName clusterId name : Str) (h1 : clusterId ≠ [])
    (h2 : clusterId ≠ "Kubernetes".toList) :
    hasPrefix (createCRName gwName clusterId name) clusterId = true := by
  simp only [createCRName, h1, h2, ne_eq, not_false_eq_true, and_self, if_true,
    List.append_assoc]
  simp [hasPrefix]

/-! ## Collisions in terms of the input list -/

theorem lastNamed_eq_some_iff (n : Str) (l : List Config) (d : Config) :
    lastNamed n l = some d ↔
      d.Name = n ∧ ∃ l₁ l₂, l = l₁ ++ d :: l₂ ∧ ∀ x ∈ l₂, x.Name ≠ n := by
  constructor
  · intro h
    refine ⟨(lastNamed_some n l d h).2, ?_⟩
    induction l with
    | nil => simp [lastNamed] at h
    | cons c cs ih =>
      simp only [lastNamed] at h
      cases h' : lastNamed n cs with
      | some e =>
        rw [h'] at h
        simp only [Option.some.injEq] at h
        subst h
        obtain ⟨l₁, l₂, hl, hall⟩ := ih h'
        exact ⟨c :: l₁, l₂, by simp [hl], hall⟩
      | none =>
        rw [h'] at h
        by_cases hc : c.Name = n
        · simp only [hc, if_true, Option.some.injEq] at h
          subst h
          exact ⟨[], cs, rfl, (lastNamed_eq_none_iff n cs).1 h'⟩
        · simp [hc] at h
  · rintro ⟨hn, l₁, l₂, rfl, hall⟩
    exact lastNamed_append_cons n l₁ l₂ d hn hall

theorem generatedOf_eq_append_cons (gwName : Str) (l l₁ l₂ : List Config) (c : Config)
    (h : generatedOf gwName l = l₁ ++ c :: l₂) :
    ∃ k₁ k₂, l = k₁ ++ c :: k₂ ∧ hasPrefix c.Name gwName = true ∧
      generatedOf gwName k₁ = l₁ ∧ generatedOf gwName k₂ = l₂ := by
  unfold generatedOf at h ⊢
  obtain ⟨a, b, hab, ha, hb⟩ := List.filter_eq_append_iff.1 h
  obtain ⟨u, v, huv, hu, hc, hv⟩ := List.filter_eq_cons_iff.1 hb
  refine ⟨a ++ u, v, by simp [hab, huv], hc, ?_, hv⟩
  rw [List.filter_append, ha]
  have : u.filter (fun c => hasPrefix c.Name gwName) = [] := by
    rw [List.filter_eq_nil_iff]
    exact hu
  simp [this]

/-- What the index holds under a name once the authored entries of `configs` and the
generated entries of `earlier` have been processed. -/
theorem mapGet_admitLoop_holder (gwName clusterId : Str) (configs earlier : List Config)
    (n : Str) (e' : Config) :
    mapGet (admitLoop (createCRName gwName clusterId) (generatedOf gwName earlier)
        (indexAll (authoredOf gwName configs) [])) n = some e' ↔
      ∃ e, Holder gwName clusterId configs earlier n e ∧ e' = { e with Name := n } := by
  rw [mapGet_admitLoop, mapGet_indexAll]
  cases hl : lastNamed n (authoredOf gwName configs) with
  | some d =>
    simp only []
    have hd := lastNamed_some _ _ _ hl
    have hdp := ((mem_authoredOf _ _ _).1 hd.1).2
    have hnp : hasPrefix n gwName = false := by
      rw [← hd.2]
      exact hdp
    rw [lastNamed_authoredOf, hnp] at hl
    simp only [Bool.false_eq_true, if_false] at hl
    have hdeq : ({ d with Name := n } : Config) = d := by
      rw [← hd.2]
    constructor
    · intro h
      have hde : d = e' := Option.some.inj h
      subst hde
      refine ⟨d, Or.inl ⟨hdp, hd.2, ((lastNamed_eq_some_iff _ _ _).1 hl).2⟩, hdeq.symm⟩
    · rintro ⟨e, hh, rfl⟩
      rcases hh with ⟨_, hen, k₁, k₂, hk, hlast⟩ | ⟨hna, _⟩
      · have : lastNamed n configs = some e := by
          rw [hk]
          exact lastNamed_append_cons n k₁ k₂ e hen hlast
        rw [hl] at this
        have hde : d = e := Option.some.inj this
        subst hde
        rw [hdeq]
      · exact absurd hd.2 (hna d ((mem_authoredOf _ _ _).1 hd.1).1 hdp)
  | none =>
    have hno := (lastNamed_eq_none_iff _ _).1 hl
    simp only [mapGet]
    constructor
    · intro h
      cases hf : (generatedOf gwName earlier).find?
          (fun c => decide (createCRName gwName clusterId c.Name = n)) with
      | none => simp [hf] at h
      | some g =>
        rw [hf] at h
        simp only [Option.map_some', Option.some.injEq] at h
        obtain ⟨hp, l₁, l₂, hsplit, hall⟩ := find?_decompose _ _ _ hf
        obtain ⟨j₁, j₂, hj, hgp, hj₁, _⟩ := generatedOf_eq_append_cons _ _ _ _ _ hsplit
        refine ⟨g, Or.inr ⟨?_, hgp, by simpa using hp, j₁, j₂, hj, ?_⟩, h.symm⟩
        · intro x hx hxp
          exact hno x ((mem_authoredOf _ _ _).2 ⟨hx, hxp⟩)
        · intro x hx hxp hxn
          have hx1 : x ∈ l₁ := by
            rw [← hj₁]
            exact (mem_generatedOf _ _ _).2 ⟨hx, hxp⟩
          have := hall x hx1
          simp [hxn] at this
    · rintro ⟨e, hh, rfl⟩
      rcases hh with ⟨hep, hen, k₁, k₂, hk, _⟩ | ⟨_, hep, hen, j₁, j₂, hj, hfirst⟩
      · exact absurd hen (hno e ((mem_authoredOf _ _ _).2 ⟨by simp [hk], hep⟩))
      · rw [hj, (generatedOf_append_cons gwName j₁ j₂ e hep).1,
          find?_append_cons _ _ _ e (by simpa using hen)]
        · rfl
        · intro x hx
          have hx' := (mem_generatedOf _ _ _).1 hx
          simpa using hfirst x hx'.1 hx'.2

/-- The pairs listed by `collisions` are the collisions of the input, the first component
being the indexed entry under the name it is stored under. -/
theorem mem_collisions_iff (gwName clusterId : Str) (configs : List Config) (e' c : Config) :
    (e', c) ∈ collisions gwName clusterId configs ↔
      ∃ e, Collision gwName clusterId configs e c ∧
        e' = { e with Name := createCRName gwName clusterId c.Name } := by
  unfold collisions
  rw [mem_collisionsLoop]
  constructor
  · rintro ⟨l₁, l₂, hl, hm⟩
    obtain ⟨k₁, k₂, hk, hcp, hk₁, _⟩ := generatedOf_eq_append_cons _ _ _ _ _ hl
    rw [← hk₁] at hm
    obtain ⟨e, he, hee⟩ := (mapGet_admitLoop_holder _ _ _ _ _ _).1 hm
    exact ⟨e, ⟨k₁, k₂, hk, hcp, he⟩, hee⟩
  · rintro ⟨e, ⟨k₁, k₂, hk, hcp, he⟩, hee⟩
    refine ⟨generatedOf gwName k₁, generatedOf gwName k₂, ?_, ?_⟩
    · rw [hk]
      exact (generatedOf_append_cons gwName k₁ k₂ c hcp).1
    · exact (mapGet_admitLoop_holder _ _ _ _ _ _).2 ⟨e, he, hee⟩

/-- A property of the two spec objects holds at some collision of the input exactly when
it holds at one of the pairs listed by `collisions`. -/
theorem exists_collision_iff (gwName clusterId : Str) (configs : List Config)
    (P : Ptr → Ptr → Prop) :
    (∃ e c, Collision gwName clusterId configs e c ∧ P e.Spec c.Spec) ↔
      ∃ ec ∈ collisions gwName clusterId configs, P ec.1.Spec ec.2.Spec := by
  constructor
  · rintro ⟨e, c, hcol, hP⟩
    exact ⟨({ e with Name := createCRName gwName clusterId c.Name }, c),
      (mem_collisions_iff _ _ _ _ _).2 ⟨e, hcol, rfl⟩, hP⟩
  · rintro ⟨⟨e', c⟩, hmem, hP⟩
    obtain ⟨e, hcol, rfl⟩ := (mem_collisions_iff _ _ _ _ _).1 hmem
    exact ⟨e, c, hcol, hP⟩

theorem nodup_filterMap_inj {α β : Type} (f : α → Option β) (l : List α)
    (h : (l.filterMap f).Nodup) (x y : α) (hx : x ∈ l) (hy : y ∈ l) (b : β)
    (hfx : f x = some b) (hfy : f y = some b) : x = y := by
  induction l with
  | nil => simp at hx
  | cons z l ih =>
    rw [List.filterMap_cons] at h
    cases hz : f z with
    | none =>
      rw [hz] at h
      simp only [] at h
      rcases List.mem_cons.1 hx with rfl | hx'
      · rw [hz] at hfx
        cases hfx
      · rcases List.mem_cons.1 hy with rfl | hy'
        · rw [hz] at hfy
          cases hfy
        · exact ih h hx' hy'
    | some b' =>
      rw [hz] at h
      simp only [List.nodup_cons] at h
      rcases List.mem_cons.1 hx with rfl | hx'
      · rcases List.mem_cons.1 hy with rfl | hy'
        · rfl
        · exfalso
          rw [hz] at hfx
          have hb : b' = b := Option.some.inj hfx
          exact h.1 (List.mem_filterMap.2 ⟨y, hy', by rw [hfy, hb]⟩)
      · rcases List.mem_cons.1 hy with rfl | hy'
        · exfalso
          rw [hz] at hfy
          have hb : b' = b := Option.some.inj hfy
          exact h.1 (List.mem_filterMap.2 ⟨x, hx', by rw [hfx, hb]⟩)
        · exact ih h.2 hx' hy'

/-- Entries with rule lists in backing arrays of their own, all allocated, have their rule
lists apart. -/
theorem separate_of_nodup (heap : Heap) (configs : List Config)
    (harr : (configs.filterMap (fun c => httpArray heap c.Spec)).Nodup)
    (halloc : ∀ a ∈ configs.filterMap (fun c => httpArray heap c.Spec), a < heap.next) :
    Separate heap (configs.map Config.Spec) := by
  refine ⟨?_, ?_⟩
  · intro p hp q hq hpq
    obtain ⟨x, hx, rfl⟩ := List.mem_map.1 hp
    obtain ⟨y, hy, rfl⟩ := List.mem_map.1 hq
    cases hxa : httpArray heap x.Spec with
    | none => exact Or.inl rfl
    | some a =>
      right
      intro heq
      have := nodup_filterMap_inj _ _ harr x y hx hy a hxa heq.symm
      exact hpq (by rw [this])
  · intro p hp a hpa
    obtain ⟨x, hx, rfl⟩ := List.mem_map.1 hp
    exact halloc a (List.mem_filterMap.2 ⟨x, hx, hpa⟩)

/-- The virtual-service filter panics exactly when, at one of the collisions of the input,
the spec of the indexed entry or the spec of the generated entry is not a virtual service. -/
theorem virtualServiceFilter_eq_none_iff (gwName clusterId : Str) (heap : Heap)
    (configs : List Config) :
    virtualServiceFilter gwName clusterId heap configs = none ↔
      ∃ e c, Collision gwName clusterId configs e c ∧
        (isVirtualService heap e.Spec = false ∨ isVirtualService heap c.Spec = false) := by
  rw [exists_collision_iff gwName clusterId configs
    (fun p q => isVirtualService heap p = false ∨ isVirtualService heap q = false),
    virtualServiceFilter_eq]
  unfold collisions
  rw [← virtualServiceLoop_eq_none_iff]
  cases virtualServiceLoop gwName clusterId (generatedOf gwName configs)
      (indexAll (authoredOf gwName configs) []) heap <;> simp

theorem indexAll_values (gwName : Str) (configs : List Config) :
    ∀ e ∈ mapValues (indexAll (authoredOf gwName configs) []),
      e ∈ configs ∧ hasPrefix e.Name gwName = false := by
  intro e he
  obtain ⟨q, hq, rfl⟩ := List.mem_map.1 he
  rcases mem_indexAll _ _ _ hq with h | h
  · simp at h
  · exact (mem_authoredOf _ _ _).1 h

/-- The rule list seen through each input entry after the call, for an input whose entries
have spec objects of their own with rule lists in backing arrays of their own. -/
theorem virtualServiceFilter_contents (gwName clusterId : Str) (heap heap' : Heap)
    (configs out : List Config)
    (hs : virtualServiceFilter gwName clusterId heap configs = some (out, heap'))
    (hnd : (configs.map Config.Spec).Nodup)
    (harr : (configs.filterMap (fun c => httpArray heap c.Spec)).Nodup)
    (halloc : ∀ a ∈ configs.filterMap (fun c => httpArray heap c.Spec), a < heap.next)
    (x : Config) (hx : x ∈ configs) :
    httpAt heap' x.Spec = httpAt heap x.Spec ++
      ((mergedInto gwName clusterId configs x.Spec).map (fun c => httpAt heap c.Spec)).flatten := by
  have hloop := (virtualServiceFilter_some _ _ _ _ _ _ hs).2
  have hinj := List.inj_on_of_nodup_map hnd
  have hval := indexAll_values gwName configs
  have := virtualServiceLoop_contents gwName clusterId (generatedOf gwName configs)
    (indexAll (authoredOf gwName configs) []) _ heap heap' (configs.map Config.Spec)
    (fun e he => List.mem_map_of_mem _ (hval e he).1)
    (fun c hc => List.mem_map_of_mem _ ((mem_generatedOf _ _ _).1 hc).1)
    (separate_of_nodup heap configs harr halloc)
    (fun e he c hc heq => by
      have h1 := hval e he
      have h2 := (mem_generatedOf _ _ _).1 hc
      have := hinj h1.1 h2.1 heq
      rw [this, h2.2] at h1
      exact absurd h1.2 (by simp))
    (List.Nodup.sublist (List.Sublist.map _ (List.filter_sublist _)) hnd)
    hloop x.Spec (List.mem_map_of_mem _ hx)
  rw [this]
  unfold mergedInto collisions
  rw [List.map_map]
  rfl

/-- The generated entries merged into the last authored entry with a name, when no spec
object is referenced twice: those whose target name is that name. -/
theorem mergedInto_authored (gwName clusterId : Str) (configs l₁ l₂ : List Config) (a : Config)
    (hl : configs = l₁ ++ a :: l₂) (ha : hasPrefix a.Name gwName = false)
    (hlast : ∀ c ∈ l₂, c.Name ≠ a.Name) (hnd : (configs.map Config.Spec).Nodup) :
    mergedInto gwName clusterId configs a.Spec =
      configs.filter (fun c => hasPrefix c.Name gwName &&
        decide (createCRName gwName clusterId c.Name = a.Name)) := by
  have hinj := List.inj_on_of_nodup_map hnd
  have hval := indexAll_values gwName configs
  have hget := mapGet_indexAll_authored gwName configs l₁ l₂ a hl ha hlast
  unfold mergedInto collisions
  rw [collisionsLoop_filter (createCRName gwName clusterId) (generatedOf gwName configs)
    (indexAll (authoredOf gwName configs) []) (indexOK_indexAll _ _ indexOK_nil) ?_ ?_ ?_
    a.Name a hget]
  · unfold generatedOf
    rw [List.filter_filter]
    have hf : (fun c : Config => decide (createCRName gwName clusterId c.Name = a.Name) &&
          hasPrefix c.Name gwName)
        = (fun c : Config => hasPrefix c.Name gwName &&
          decide (createCRName gwName clusterId c.Name = a.Name)) := by
      funext c
      exact Bool.and_comm _ _
    rw [hf]
  · intro e he c hc heq
    have h1 := hval e he
    have h2 := (mem_generatedOf _ _ _).1 hc
    have := hinj h1.1 h2.1 heq
    rw [this, h2.2] at h1
    exact absurd h1.2 (by simp)
  · intro e he e' he' heq
    exact hinj (hval e he).1 (hval e' he').1 heq
  · exact List.Nodup.sublist (List.Sublist.map _ (List.filter_sublist _)) hnd

theorem searchLoop_spec (pred : Nat → Bool) (fuel i j : Nat) (hf : j - i ≤ fuel) (hij : i ≤ j) :
    i ≤ searchLoop pred fuel i j ∧ searchLoop pred fuel i j ≤ j ∧
      (i < searchLoop pred fuel i j → pred (searchLoop pred fuel i j - 1) = true) ∧
      (searchLoop pred fuel i j < j → pred (searchLoop pred fuel i j) = false) := by
  induction fuel generalizing i j with
  | zero =>
    have : i = j := by omega
    subst this
    simp [searchLoop]
  | succ fuel ih =>
    by_cases hlt : i < j
    · have h1 : i ≤ (i + j) / 2 := by omega
      have h2 : (i + j) / 2 < j := by omega
      cases hp : pred ((i + j) / 2) with
      | true =>
        have hs : searchLoop pred (fuel + 1) i j = searchLoop pred fuel ((i + j) / 2 + 1) j := by
          simp [searchLoop, hlt, hp]
        obtain ⟨a1, a2, a3, a4⟩ := ih ((i + j) / 2 + 1) j (by omega) (by omega)
        rw [hs]
        refine ⟨by omega, a2, ?_, a4⟩
        intro _
        by_cases he : searchLoop pred fuel ((i + j) / 2 + 1) j = (i + j) / 2 + 1
        · rw [he]
          simpa using hp
        · exact a3 (by omega)
      | false =>
        have hs : searchLoop pred (fuel + 1) i j = searchLoop pred fuel i ((i + j) / 2) := by
          simp [searchLoop, hlt, hp]
        obtain ⟨a1, a2, a3, a4⟩ := ih i ((i + j) / 2) (by omega) (by omega)
        rw [hs]
        refine ⟨a1, by omega, a3, ?_⟩
        intro _
        by_cases he : searchLoop pred fuel i ((i + j) / 2) = (i + j) / 2
        · rw [he]
          exact hp
        · exact a4 (by omega)
    · have : i = j := by omega
      subst this
      simp [searchLoop]

theorem desc_append {α : Type} (f : α → Nat) (u v : List α) :
    Desc f (u ++ v) ↔ Desc f u ∧ Desc f v ∧ ∀ a ∈ u, ∀ b ∈ v, f b ≤ f a := by
  unfold Desc
  exact List.pairwise_append

theorem desc_take {α : Type} (f : α → Nat) (l : List α) (n : Nat) (h : Desc f l) :
    Desc f (l.take n) :=
  List.Pairwise.sublist (List.take_sublist n l) h

theorem desc_drop {α : Type} (f : α → Nat) (l : List α) (n : Nat) (h : Desc f l) :
    Desc f (l.drop n) :=
  List.Pairwise.sublist (List.drop_sublist n l) h

/-- In a descending list the elements from position `j` on are at most the one at `j`. -/
theorem desc_mem_drop {α : Type} (f : α → Nat) (l : List α) (j : Nat) (x b : α)
    (h : Desc f l) (hx : l[j]? = some x) (hb : b ∈ l.drop j) : f b ≤ f x := by
  have hj : j < l.length := by
    by_contra hn
    rw [List.getElem?_eq_none (by omega)] at hx
    cases hx
  have hxe : l[j] = x := by
    rw [List.getElem?_eq_getElem hj] at hx
    exact Option.some.inj hx
  rw [List.drop_eq_getElem_cons hj, hxe] at hb
  rcases List.mem_cons.1 hb with rfl | hb'
  · exact le_refl _
  · have hd := desc_drop f l j h
    rw [List.drop_eq_getElem_cons hj, hxe] at hd
    exact (List.pairwise_cons.1 hd).1 b hb'

/-- In a descending list the elements up to position `j` are at least the one at `j`. -/
theorem desc_mem_take {α : Type} (f : α → Nat) (l : List α) (j : Nat) (x a : α)
    (h : Desc f l) (hx : l[j]? = some x) (ha : a ∈ l.take (j + 1)) : f x ≤ f a := by
  have hj : j < l.length := by
    by_contra hn
    rw [List.getElem?_eq_none (by omega)] at hx
    cases hx
  have hxe : l[j] = x := by
    rw [List.getElem?_eq_getElem hj] at hx
    exact Option.some.inj hx
  have hsplit : l = l.take j ++ x :: l.drop (j + 1) := by
    conv_lhs => rw [← List.take_append_drop j l, List.drop_eq_getElem_cons hj, hxe]
  have htake : l.take (j + 1) = l.take j ++ [x] := by
    rw [List.take_succ, List.getElem?_eq_getElem hj, hxe]
    rfl
  rw [htake] at ha
  rcases List.mem_append.1 ha with ha' | ha'
  · rw [hsplit] at h
    exact ((desc_append f _ _).1 h).2.2 a ha' x (List.mem_cons_self _ _)
  · rw [List.mem_singleton.1 ha']

theorem insertLeft_perm {α : Type} (less : α → α → Bool) (x : α) (ys : List α) :
    (insertLeft less x ys).Perm (x :: ys) := by
  induction ys with
  | nil => exact List.Perm.refl _
  | cons y ys ih =>
    by_cases h : less x y = true
    · simp only [insertLeft, h, if_true]
      exact (List.Perm.cons y ih).trans (List.Perm.swap x y ys)
    · simp only [insertLeft, h]
      exact List.Perm.refl _

theorem insertLeft_asc {α : Type} (less : α → α → Bool) (f : α → Nat) (S : α → Prop)
    (hr : Refines less f S) (x : α) (ys : List α) (hx : S x) (hys : ∀ y ∈ ys, S y)
    (hasc : ys.Pairwise (fun a b => f a ≤ f b)) :
    (insertLeft less x ys).Pairwise (fun a b => f a ≤ f b) := by
  induction ys with
  | nil => simp [insertLeft]
  | cons y ys ih =>
    have hy : S y := hys y (List.mem_cons_self _ _)
    have hys' : ∀ z ∈ ys, S z := fun z hz => hys z (List.mem_cons_of_mem _ hz)
    obtain ⟨hyall, hrest⟩ := List.pairwise_cons.1 hasc
    by_cases h : less x y = true
    · simp only [insertLeft, h, if_true]
      refine List.pairwise_cons.2 ⟨?_, ih hys' hrest⟩
      intro z hz
      rcases List.mem_cons.1 ((insertLeft_perm less x ys).subset hz) with rfl | hz'
      · exact hr.2 _ _ hx hy h
      · exact hyall z hz'
    · simp only [insertLeft, h]
      have hxy : f x ≤ f y := by
        by_contra hn
        exact h (hr.1 x y hx hy (by omega))
      refine List.pairwise_cons.2 ⟨?_, hasc⟩
      intro z hz
      rcases List.mem_cons.1 hz with rfl | hz'
      · exact hxy
      · exact le_trans hxy (hyall z hz')

theorem insertLeft_filter {α : Type} (less : α → α → Bool) (f : α → Nat) (S : α → Prop)
    (hd : Decides less f S) (x : α) (ys : List α) (hx : S x) (hys : ∀ y ∈ ys, S y) (k : Nat) :
    (insertLeft less x ys).filter (fun z => decide (f z = k))
      = (x :: ys).filter (fun z => decide (f z = k)) := by
  induction ys with
  | nil => rfl
  | cons y ys ih =>
    have hy : S y := hys y (List.mem_cons_self _ _)
    have hys' : ∀ z ∈ ys, S z := fun z hz => hys z (List.mem_cons_of_mem _ hz)
    by_cases h : less x y = true
    · have hlt := hd x y hx hy h
      simp only [insertLeft, h, if_true]
      rw [List.filter_cons, ih hys']
      by_cases hyk : f y = k
      · have hxk : ¬ f x = k := by omega
        simp [List.filter_cons, hyk, hxk]
      · simp [List.filter_cons, hyk]
    · simp only [insertLeft, h]
      rfl

theorem foldl_insertLeft_perm {α : Type} (less : α → α → Bool) (l acc : List α) :
    (l.foldl (fun sorted x => insertLeft less x sorted) acc).Perm (l ++ acc) := by
  induction l generalizing acc with
  | nil => exact List.Perm.refl _
  | cons x xs ih =>
    simp only [List.foldl_cons, List.cons_append]
    refine (ih _).trans ?_
    exact (List.Perm.append_left xs (insertLeft_perm less x acc)).trans List.perm_middle

theorem insertionSort_perm {α : Type} (less : α → α → Bool) (l : List α) :
    (insertionSort less l).Perm l := by
  unfold insertionSort
  refine (List.reverse_perm _).trans ?_
  simpa using foldl_insertLeft_perm less l []

theorem foldl_insertLeft_asc {α : Type} (less : α → α → Bool) (f : α → Nat) (S : α → Prop)
    (hr : Refines less f S) (l acc : List α) (hl : ∀ y ∈ l, S y) (hacc : ∀ y ∈ acc, S y)
    (hasc : acc.Pairwise (fun a b => f a ≤ f b)) :
    (l.foldl (fun sorted x => insertLeft less x sorted) acc).Pairwise (fun a b => f a ≤ f b) := by
  induction l generalizing acc with
  | nil => exact hasc
  | cons x xs ih =>
    simp only [List.foldl_cons]
    have hx : S x := hl x (List.mem_cons_self _ _)
    apply ih _ (fun y hy => hl y (List.mem_cons_of_mem _ hy))
    · intro y hy
      rcases List.mem_cons.1 ((insertLeft_perm less x acc).subset hy) with rfl | hy'
      · exact hx
      · exact hacc y hy'
    · exact insertLeft_asc less f S hr x acc hx hacc hasc

theorem insertionSort_desc {α : Type} (less : α → α → Bool) (f : α → Nat) (S : α → Prop)
    (hr : Refines less f S) (l : List α) (hl : ∀ y ∈ l, S y) :
    Desc f (insertionSort less l) := by
  unfold insertionSort Desc
  rw [List.pairwise_reverse]
  exact foldl_insertLeft_asc less f S hr l [] hl (by simp) List.Pairwise.nil

theorem foldl_insertLeft_filter {α : Type} (less : α → α → Bool) (f : α → Nat) (S : α → Prop)
    (hd : Decides less f S) (l acc : List α) (hl : ∀ y ∈ l, S y) (hacc : ∀ y ∈ acc, S y)
    (k : Nat) :
    (l.foldl (fun sorted x => insertLeft less x sorted) acc).filter (fun z => decide (f z = k))
      = (l.filter (fun z => decide (f z = k))).reverse
          ++ acc.filter (fun z => decide (f z = k)) := by
  induction l generalizing acc with
  | nil => simp
  | cons x xs ih =>
    simp only [List.foldl_cons]
    have hx : S x := hl x (List.mem_cons_self _ _)
    rw [ih _ (fun y hy => hl y (List.mem_cons_of_mem _ hy)), insertLeft_filter less f S hd x acc hx hacc]
    · by_cases hxk : f x = k
      · simp [List.filter_cons, hxk]
      · simp [List.filter_cons, hxk]
    · intro y hy
      rcases List.mem_cons.1 ((insertLeft_perm less x acc).subset hy) with rfl | hy'
      · exact hx
      · exact hacc y hy'

theorem insertionSort_filter {α : Type} (less : α → α → Bool) (f : α → Nat) (S : α → Prop)
    (hd : Decides less f S) (l : List α) (hl : ∀ y ∈ l, S y) (k : Nat) :
    (insertionSort less l).filter (fun z => decide (f z = k))
      = l.filter (fun z => decide (f z = k)) := by
  unfold insertionSort
  rw [List.filter_reverse, foldl_insertLeft_filter less f S hd l [] hl (by simp) k]
  simp

theorem symMerge_single_left {α : Type} (less : α → α → Bool) (fuel : Nat) (x : α)
    (v : List α) :
    ∃ j, j ≤ v.length ∧ symMerge less (fuel + 1) [x] v = v.take j ++ x :: v.drop j ∧
      (0 < j → ∃ y, v[j - 1]? = some y ∧ less y x = true) ∧
      (j < v.length → ∃ y, v[j]? = some y ∧ less y x = false) := by
  obtain ⟨h1, h2, h3, h4⟩ := searchLoop_spec (fun h => lessAt less ([x] ++ v) h 0)
    (([x] ++ v).length - 1) 1 ([x] ++ v).length (by simp) (by simp)
  generalize hi : searchLoop (fun h => lessAt less ([x] ++ v) h 0)
    (([x] ++ v).length - 1) 1 ([x] ++ v).length = i at h1 h2 h3 h4
  obtain ⟨j, rfl⟩ : ∃ j, i = j + 1 := ⟨i - 1, by omega⟩
  simp only [List.singleton_append, List.length_cons] at h2 h3 h4
  refine ⟨j, by omega, ?_, ?_, ?_⟩
  · simp only [symMerge, List.length_singleton, if_true]
    rw [hi]
    simp [slice]
  · intro hj
    have := h3 (by omega)
    obtain ⟨j', rfl⟩ : ∃ j', j = j' + 1 := ⟨j - 1, by omega⟩
    simp only [Nat.add_sub_cancel, lessAt, List.getElem?_cons_succ, List.getElem?_cons_zero] at this ⊢
    cases hv : v[j']? with
    | none => simp [hv] at this
    | some y => exact ⟨y, rfl, by simpa [hv] using this⟩
  · intro hj
    have := h4 (by omega)
    simp only [lessAt, List.getElem?_cons_succ, List.getElem?_cons_zero] at this
    rw [List.getElem?_eq_getElem hj] at this ⊢
    exact ⟨_, rfl, by simpa using this⟩

theorem symMerge_single_right {α : Type} (less : α → α → Bool) (fuel : Nat) (y : α)
    (u : List α) (hu : u.length ≠ 1) :
    ∃ i, i ≤ u.length ∧ symMerge less (fuel + 1) u [y] = u.take i ++ y :: u.drop i ∧
      (0 < i → ∃ z, u[i - 1]? = some z ∧ less y z = false) ∧
      (i < u.length → ∃ z, u[i]? = some z ∧ less y z = true) := by
  obtain ⟨h1, h2, h3, h4⟩ := searchLoop_spec (fun h => !lessAt less (u ++ [y]) u.length h)
    u.length 0 u.length (by simp) (by simp)
  generalize hi : searchLoop (fun h => !lessAt less (u ++ [y]) u.length h)
    u.length 0 u.length = i at h1 h2 h3 h4
  have hy : (u ++ [y])[u.length]? = some y := by simp
  refine ⟨i, h2, ?_, ?_, ?_⟩
  · simp only [symMerge, hu, if_false, List.length_append, List.length_singleton,
      Nat.add_sub_cancel_left, if_true]
    rw [hi]
    simp [slice, List.take_append_of_le_length h2]
  · intro hpos
    have := h3 hpos
    have hlt : i - 1 < u.length := by omega
    simp only [lessAt, hy, List.getElem?_append_left hlt, List.getElem?_eq_getElem hlt] at this ⊢
    exact ⟨_, rfl, by simpa using this⟩
  · intro hlt
    have := h4 hlt
    simp only [lessAt, hy, List.getElem?_append_left hlt, List.getElem?_eq_getElem hlt] at this ⊢
    exact ⟨_, rfl, by simpa using this⟩

theorem slice_zero {α : Type} (data : List α) (b : Nat) : slice data 0 b = data.take b := by
  simp [slice]

theorem slice_to_length {α : Type} (data : List α) (a : Nat) :
    slice data a data.length = data.drop a := by
  simp [slice]

theorem slice_append_left {α : Type} (x y : List α) (a b : Nat) (hb : b ≤ x.length) :
    slice (x ++ y) a b = slice x a b := by
  simp [slice, List.take_append_of_le_length hb]

theorem slice_append_right {α : Type} (x y : List α) (a b : Nat) :
    slice (x ++ y) (x.length + a) (x.length + b) = slice y a b := by
  simp [slice, List.take_append, List.drop_append]

theorem rotate_append {α : Type} (u v : List α) (start e : Nat) (hs : start ≤ u.length) :
    rotate (u ++ v) start u.length (u.length + e)
      = u.take start ++ v.take e ++ u.drop start ++ v.drop e := by
  unfold rotate
  have h1 : (u ++ v).take start = u.take start := List.take_append_of_le_length hs
  have h2 : slice (u ++ v) u.length (u.length + e) = v.take e := by
    have := slice_append_right u v 0 e
    simpa [slice] using this
  have h3 : slice (u ++ v) start u.length = u.drop start := by
    rw [slice_append_left u v start u.length (le_refl _), slice_to_length]
  have h4 : (u ++ v).drop (u.length + e) = v.drop e := by
    simp [List.drop_append]
  rw [h1, h2, h3, h4]

theorem four_blocks {α : Type} (a b c d : List α) :
    slice (a ++ b ++ c ++ d) 0 a.length = a ∧
    slice (a ++ b ++ c ++ d) a.length (a.length + b.length) = b ∧
    slice (a ++ b ++ c ++ d) 0 (a.length + b.length) = a ++ b ∧
    slice (a ++ b ++ c ++ d) (a.length + b.length) (a.length + b.length + c.length) = c ∧
    slice (a ++ b ++ c ++ d) (a.length + b.length + c.length)
      (a.length + b.length + c.length + d.length) = d ∧
    slice (a ++ b ++ c ++ d) (a.length + b.length)
      (a.length + b.length + c.length + d.length) = c ++ d := by
  refine ⟨?_, ?_, ?_, ?_, ?_, ?_⟩
  · simp [slice, List.append_assoc]
  · have := slice_append_right a (b ++ c ++ d) 0 b.length
    simp only [List.append_assoc, Nat.add_zero] at this ⊢
    rw [this]
    simp [slice]
  · have : a ++ b ++ c ++ d = (a ++ b) ++ (c ++ d) := by simp
    rw [this, slice_zero]
    have hl : a.length + b.length = (a ++ b).length := by simp
    rw [hl, List.take_left]
  · have h1 : a ++ b ++ c ++ d = (a ++ b) ++ (c ++ d) := by simp
    have hl : a.length + b.length = (a ++ b).length := by simp
    have := slice_append_right (a ++ b) (c ++ d) 0 c.length
    rw [h1, hl]
    simp only [Nat.add_zero] at this
    rw [this]
    simp [slice]
  · have h1 : a ++ b ++ c ++ d = (a ++ b ++ c) ++ d := by simp
    have hl : a.length + b.length + c.length = (a ++ b ++ c).length := by simp [Nat.add_assoc]
    have := slice_append_right (a ++ b ++ c) d 0 d.length
    rw [hl]
    simp only [Nat.add_zero] at this
    rw [this]
    simp [slice]
  · have h1 : a ++ b ++ c ++ d = (a ++ b) ++ (c ++ d) := by simp
    have hl : a.length + b.length = (a ++ b).length := by simp
    have := slice_append_right (a ++ b) (c ++ d) 0 (c ++ d).length
    have hl2 : a.length + b.length + c.length + d.length
        = (a ++ b).length + (c ++ d).length := by simp [Nat.add_assoc]
    rw [h1, hl2, hl]
    simp only [Nat.add_zero] at this
    rw [this]
    simp [slice]

theorem symMerge_split {α : Type} (less : α → α → Bool) (fuel : Nat) (u v : List α)
    (hu : u.length ≠ 1) (hv : v.length ≠ 1) :
    ∃ start e, start ≤ u.length ∧ e ≤ v.length ∧ start + e = (u.length + v.length) / 2 ∧
      symMerge less (fuel + 1) u v =
        (if 0 < start ∧ 0 < e then symMerge less fuel (u.take start) (v.take e)
          else u.take start ++ v.take e) ++
        (if start < u.length ∧ e < v.length then symMerge less fuel (u.drop start) (v.drop e)
          else u.drop start ++ v.drop e) ∧
      (0 < start → e < v.length →
        ∃ a c, u[start - 1]? = some a ∧ v[e]? = some c ∧ less c a = false) ∧
      (start < u.length → 0 < e →
        ∃ a c, u[start]? = some a ∧ v[e - 1]? = some c ∧ less c a = true) := by
  -- the quantities of the source
  generalize hm : u.length = m at hu
  generalize hlv : v.length = lv at hv
  generalize hmid : (m + lv) / 2 = mid
  have hmid1 : 2 * mid ≤ m + lv := by omega
  have hmid2 : m + lv < 2 * mid + 2 := by omega
  generalize hs0 : (if m > mid then mid + m - (m + lv) else 0) = start0
  generalize hr0 : (if m > mid then mid else m) = r0
  have hs0r0 : start0 ≤ r0 := by
    by_cases h : m > mid
    · simp only [h, if_true] at hs0 hr0
      omega
    · simp only [h, if_false] at hs0 hr0
      omega
  have hr0m : r0 ≤ m ∧ r0 ≤ mid := by
    by_cases h : m > mid
    · simp only [h, if_true] at hr0
      omega
    · simp only [h, if_false] at hr0
      omega
  have hs0lo : mid + m ≤ m + lv + start0 := by
    by_cases h : m > mid
    · simp only [h, if_true] at hs0
      omega
    · simp only [h, if_false] at hs0
      omega
  obtain ⟨h1, h2, h3, h4⟩ := searchLoop_spec
    (fun c => !lessAt less (u ++ v) (mid + m - 1 - c) c) (r0 - start0) start0 r0
    (le_refl _) hs0r0
  generalize hst : searchLoop (fun c => !lessAt less (u ++ v) (mid + m - 1 - c) c)
    (r0 - start0) start0 r0 = start at h1 h2 h3 h4
  have hsm : start ≤ m := by omega
  have hsmid : start ≤ mid := by omega
  have hev : mid - start ≤ lv := by omega
  refine ⟨start, mid - start, by omega, hev, by omega, ?_, ?_, ?_⟩
  · -- the value
    have hend : mid + m - start = m + (mid - start) := by omega
    have hdata : (if start < m ∧ m < mid + m - start
          then rotate (u ++ v) start m (mid + m - start) else u ++ v)
        = u.take start ++ v.take (mid - start) ++ u.drop start ++ v.drop (mid - start) := by
      by_cases hc : start < m ∧ m < mid + m - start
      · rw [if_pos hc, hend, ← hm, rotate_append u v start (mid - start) (by omega)]
      · rw [if_neg hc]
        by_cases hsm' : start = m
        · have : u.take start = u := by rw [hsm', ← hm]; exact List.take_length u
          have hd : u.drop start = [] := by rw [hsm', ← hm]; exact List.drop_length u
          rw [this, hd]
          simp
        · have he : mid - start = 0 := by omega
          rw [he]
          simp
    have hl1 : (u.take start).length = start := by
      rw [List.length_take]
      omega
    have hl2 : (v.take (mid - start)).length = mid - start := by
      rw [List.length_take]
      omega
    have hl3 : (u.drop start).length = m - start := by
      rw [List.length_drop]
      omega
    have hl4 : (v.drop (mid - start)).length = lv - (mid - start) := by
      rw [List.length_drop]
      omega
    obtain ⟨b1, b2, b3, b4, b5, b6⟩ := four_blocks (u.take start) (v.take (mid - start))
      (u.drop start) (v.drop (mid - start))
    have e1 : start + (mid - start) = mid := by omega
    have e2 : mid + (m - start) = mid + m - start := by omega
    have e3 : mid + m - start + (lv - (mid - start)) = m + lv := by omega
    simp only [hl1, hl2, hl3, hl4, e1, e2, e3] at b1 b2 b3 b4 b5 b6
    have hv1 : ¬ (m + lv - m = 1) := by omega
    simp only [symMerge, List.length_append, hm, hlv, hu, hv1, if_false, hmid, hs0, hr0, hst,
      hdata, b1, b2, b3, b4, b5, b6]
    have g1 : (0 < start ∧ start < mid) ↔ (0 < start ∧ 0 < mid - start) := by omega
    have g2 : (mid < mid + m - start ∧ mid + m - start < m + lv)
        ↔ (start < m ∧ mid - start < lv) := by omega
    simp only [g1, g2]
  · -- the comparison at the lower boundary
    intro hpos he
    have hlt : start0 < start := by
      by_contra hn
      have heq : start0 = start := by omega
      by_cases h : m > mid
      · simp only [h, if_true] at hs0
        omega
      · simp only [h, if_false] at hs0
        omega
    have hp := h3 hlt
    have hi1 : start - 1 < u.length := by omega
    have hi2 : mid + m - 1 - (start - 1) = u.length + (mid - start) := by omega
    have hi3 : mid - start < v.length := by omega
    simp only [lessAt, hi2, List.getElem?_append_left hi1, List.getElem?_append_right (Nat.le_add_right _ _),
      Nat.add_sub_cancel_left, List.getElem?_eq_getElem hi1, List.getElem?_eq_getElem hi3] at hp ⊢
    exact ⟨_, _, rfl, rfl, by simpa using hp⟩
  · -- the comparison at the upper boundary
    intro hlt hepos
    have hlt' : start < r0 := by
      by_contra hn
      have heq : start = r0 := by omega
      by_cases h : m > mid
      · simp only [h, if_true] at hr0
        omega
      · simp only [h, if_false] at hr0
        omega
    have hp := h4 hlt'
    have hi1 : start < u.length := by omega
    have hi2 : mid + m - 1 - start = u.length + (mid - start - 1) := by omega
    have hi3 : mid - start - 1 < v.length := by omega
    simp only [lessAt, hi2, List.getElem?_append_left hi1, List.getElem?_append_right (Nat.le_add_right _ _),
      Nat.add_sub_cancel_left, List.getElem?_eq_getElem hi1, List.getElem?_eq_getElem hi3] at hp ⊢
    exact ⟨_, _, rfl, rfl, by simpa using hp⟩

theorem desc_insert {α : Type} (f : α → Nat) (l : List α) (x : α) (j : Nat) (hl : Desc f l)
    (hlo : ∀ a ∈ l.take j, f x ≤ f a) (hhi : ∀ c ∈ l.drop j, f c ≤ f x) :
    Desc f (l.take j ++ x :: l.drop j) := by
  rw [desc_append]
  refine ⟨desc_take f l j hl, ?_, ?_⟩
  · exact List.pairwise_cons.2 ⟨hhi, desc_drop f l j hl⟩
  · intro a ha b hb
    rcases List.mem_cons.1 hb with rfl | hb'
    · exact hlo a ha
    · have h := hl
      rw [← List.take_append_drop j l] at h
      exact ((desc_append f _ _).1 h).2.2 a ha b hb'

theorem filter_comm_of_disjoint {α : Type} (f : α → Nat) (k : Nat) (p q : List α)
    (h : ∀ a ∈ p, ∀ b ∈ q, f a ≠ f b) :
    p.filter (fun z => decide (f z = k)) ++ q.filter (fun z => decide (f z = k))
      = q.filter (fun z => decide (f z = k)) ++ p.filter (fun z => decide (f z = k)) := by
  by_cases hp : p.filter (fun z => decide (f z = k)) = []
  · rw [hp]
    simp
  · have hq : q.filter (fun z => decide (f z = k)) = [] := by
      rw [List.filter_eq_nil_iff]
      intro b hb hbk
      apply hp
      rw [List.filter_eq_nil_iff]
      intro a ha hak
      exact h a ha b hb (by
        have h1 : f a = k := by simpa using hak
        have h2 : f b = k := by simpa using hbk
        omega)
    rw [hq]
    simp

theorem getElem?_bound_take {α : Type} (f : α → Nat) (l : List α) (j : Nat) (hl : Desc f l)
    (P : α → Prop) (hj : 0 < j → ∃ y, l[j - 1]? = some y ∧ P y) (a : α) (ha : a ∈ l.take j) :
    ∃ y, y ∈ l ∧ P y ∧ f y ≤ f a := by
  have hpos : 0 < j := by
    rcases Nat.eq_zero_or_pos j with h | h
    · rw [h] at ha
      simp at ha
    · exact h
  obtain ⟨y, hy, hP⟩ := hj hpos
  refine ⟨y, List.getElem?_mem hy, hP, ?_⟩
  apply desc_mem_take f l (j - 1) y a hl hy
  have : j - 1 + 1 = j := by omega
  rw [this]
  exact ha

theorem getElem?_bound_drop {α : Type} (f : α → Nat) (l : List α) (j : Nat) (hl : Desc f l)
    (P : α → Prop) (hj : j < l.length → ∃ y, l[j]? = some y ∧ P y) (c : α) (hc : c ∈ l.drop j) :
    ∃ y, y ∈ l ∧ P y ∧ f c ≤ f y := by
  have hlt : j < l.length := by
    by_contra hn
    rw [List.drop_eq_nil_of_le (by omega)] at hc
    simp at hc
  obtain ⟨y, hy, hP⟩ := hj hlt
  exact ⟨y, List.getElem?_mem hy, hP, desc_mem_drop f l j y c hl hy hc⟩

theorem not_less_le {α : Type} (less : α → α → Bool) (f : α → Nat) (S : α → Prop)
    (hr : Refines less f S) (a b : α) (ha : S a) (hb : S b) (h : less a b = false) :
    f a ≤ f b := by
  by_contra hn
  have := hr.1 a b ha hb (by omega)
  rw [h] at this
  cases this

theorem desc_append_of_nil {α : Type} (f : α → Nat) (p q : List α) (hp : Desc f p)
    (hq : Desc f q) (h : p = [] ∨ q = []) : Desc f (p ++ q) := by
  rcases h with rfl | rfl
  · simpa using hq
  · simpa using hp

/-- What `symMerge` does to two descending blocks when the comparator refines `f`: the result
is a rearrangement of the two blocks, descending, and, when the comparator is the order of
`f`, with the elements of each value of `f` in the order they had. -/
theorem symMerge_spec {α : Type} (less : α → α → Bool) (f : α → Nat) (S : α → Prop)
    (hr : Refines less f S) (fuel : Nat) (u v : List α)
    (hfuel : u.length + v.length ≤ fuel) (hu : ∀ x ∈ u, S x) (hv : ∀ x ∈ v, S x)
    (hdu : Desc f u) (hdv : Desc f v) :
    (symMerge less fuel u v).Perm (u ++ v) ∧ Desc f (symMerge less fuel u v) ∧
      (Decides less f S → ∀ k,
        (symMerge less fuel u v).filter (fun z => decide (f z = k))
          = (u ++ v).filter (fun z => decide (f z = k))) := by
  induction fuel generalizing u v with
  | zero =>
    have hu0 : u = [] := List.length_eq_zero.1 (by omega)
    have hv0 : v = [] := List.length_eq_zero.1 (by omega)
    subst hu0 hv0
    simp [symMerge, Desc]
  | succ fuel ih =>
    by_cases h1 : u.length = 1
    · obtain ⟨x, rfl⟩ := List.length_eq_one.1 h1
      obtain ⟨j, hj, heq, hlo, hhi⟩ := symMerge_single_left less fuel x v
      rw [heq]
      have hx : S x := hu x (by simp)
      have blo : ∀ a ∈ v.take j, f x ≤ f a ∧ (Decides less f S → f x < f a) := by
        intro a ha
        obtain ⟨y, hy, hP, hle⟩ :=
          getElem?_bound_take f v j hdv (fun y => less y x = true) hlo a ha
        exact ⟨le_trans (hr.2 y x (hv y hy) hx hP) hle,
          fun hd => lt_of_lt_of_le (hd y x (hv y hy) hx hP) hle⟩
      have bhi : ∀ c ∈ v.drop j, f c ≤ f x := by
        intro c hc
        obtain ⟨y, hy, hP, hle⟩ :=
          getElem?_bound_drop f v j hdv (fun y => less y x = false) hhi c hc
        exact le_trans hle (not_less_le less f S hr y x (hv y hy) hx hP)
      refine ⟨?_, desc_insert f v x j hdv (fun a ha => (blo a ha).1) bhi, ?_⟩
      · have hp : (v.take j ++ x :: v.drop j).Perm (x :: (v.take j ++ v.drop j)) :=
          List.perm_middle
        rw [List.take_append_drop] at hp
        simpa using hp
      · intro hd k
        have hcomm := filter_comm_of_disjoint f k (v.take j) [x] (by
          intro a ha b hb
          rw [List.mem_singleton.1 hb]
          have := (blo a ha).2 hd
          omega)
        calc (v.take j ++ x :: v.drop j).filter (fun z => decide (f z = k))
            = (v.take j).filter (fun z => decide (f z = k))
                ++ [x].filter (fun z => decide (f z = k))
                ++ (v.drop j).filter (fun z => decide (f z = k)) := by
              rw [show x :: v.drop j = [x] ++ v.drop j from rfl, List.filter_append,
                List.filter_append, List.append_assoc]
          _ = [x].filter (fun z => decide (f z = k))
                ++ (v.take j).filter (fun z => decide (f z = k))
                ++ (v.drop j).filter (fun z => decide (f z = k)) := by rw [hcomm]
          _ = ([x] ++ v).filter (fun z => decide (f z = k)) := by
              conv_rhs => rw [← List.take_append_drop j v]
              rw [List.filter_append, List.filter_append, List.append_assoc]
    · by_cases h2 : v.length = 1
      · obtain ⟨y, rfl⟩ := List.length_eq_one.1 h2
        obtain ⟨i, hi, heq, hlo, hhi⟩ := symMerge_single_right less fuel y u h1
        rw [heq]
        have hy : S y := hv y (by simp)
        have blo : ∀ a ∈ u.take i, f y ≤ f a := by
          intro a ha
          obtain ⟨z, hz, hP, hle⟩ :=
            getElem?_bound_take f u i hdu (fun z => less y z = false) hlo a ha
          exact le_trans (not_less_le less f S hr y z hy (hu z hz) hP) hle
        have bhi : ∀ c ∈ u.drop i, f c ≤ f y ∧ (Decides less f S → f c < f y) := by
          intro c hc
          obtain ⟨z, hz, hP, hle⟩ :=
            getElem?_bound_drop f u i hdu (fun z => less y z = true) hhi c hc
          exact ⟨le_trans hle (hr.2 y z hy (hu z hz) hP),
            fun hd => lt_of_le_of_lt hle (hd y z hy (hu z hz) hP)⟩
        refine ⟨?_, desc_insert f u y i hdu blo (fun c hc => (bhi c hc).1), ?_⟩
        · have hp : (u.take i ++ y :: u.drop i).Perm (y :: (u.take i ++ u.drop i)) :=
            List.perm_middle
          rw [List.take_append_drop] at hp
          exact hp.trans (List.perm_append_singleton y u).symm
        · intro hd k
          have hcomm := filter_comm_of_disjoint f k [y] (u.drop i) (by
            intro a ha b hb
            rw [List.mem_singleton.1 ha]
            have := (bhi b hb).2 hd
            omega)
          calc (u.take i ++ y :: u.drop i).filter (fun z => decide (f z = k))
              = (u.take i).filter (fun z => decide (f z = k))
                  ++ ([y].filter (fun z => decide (f z = k))
                  ++ (u.drop i).filter (fun z => decide (f z = k))) := by
                rw [show y :: u.drop i = [y] ++ u.drop i from rfl, List.filter_append,
                  List.filter_append]
            _ = (u.take i).filter (fun z => decide (f z = k))
                  ++ ((u.drop i).filter (fun z => decide (f z = k))
                  ++ [y].filter (fun z => decide (f z = k))) := by rw [hcomm]
            _ = (u ++ [y]).filter (fun z => decide (f z = k)) := by
                conv_rhs => rw [← List.take_append_drop i u]
                rw [List.filter_append, List.filter_append, List.append_assoc]
      · obtain ⟨start, e, hs, he, hse, heq, flo, fhi⟩ := symMerge_split less fuel u v h1 h2
        have hu1 : ∀ x ∈ u.take start, S x := fun x hx => hu x (List.mem_of_mem_take hx)
        have hu2 : ∀ x ∈ u.drop start, S x := fun x hx => hu x (List.mem_of_mem_drop hx)
        have hv1 : ∀ x ∈ v.take e, S x := fun x hx => hv x (List.mem_of_mem_take hx)
        have hv2 : ∀ x ∈ v.drop e, S x := fun x hx => hv x (List.mem_of_mem_drop hx)
        -- the two halves
        have hleft : ∃ left, left = (if 0 < start ∧ 0 < e
              then symMerge less fuel (u.take start) (v.take e)
              else u.take start ++ v.take e) ∧
            left.Perm (u.take start ++ v.take e) ∧ Desc f left ∧
            (Decides less f S → ∀ k, left.filter (fun z => decide (f z = k))
              = (u.take start ++ v.take e).filter (fun z => decide (f z = k))) := by
          refine ⟨_, rfl, ?_⟩
          by_cases hg : 0 < start ∧ 0 < e
          · rw [if_pos hg]
            apply ih _ _ _ hu1 hv1 (desc_take f u start hdu) (desc_take f v e hdv)
            simp only [List.length_take]
            omega
          · rw [if_neg hg]
            refine ⟨List.Perm.refl _, ?_, fun _ _ => rfl⟩
            apply desc_append_of_nil f _ _ (desc_take f u start hdu) (desc_take f v e hdv)
            by_cases hs0 : start = 0
            · exact Or.inl (by simp [hs0])
            · exact Or.inr (by
                have : e = 0 := by omega
                simp [this])
        have hright : ∃ right, right = (if start < u.length ∧ e < v.length
              then symMerge less fuel (u.drop start) (v.drop e)
              else u.drop start ++ v.drop e) ∧
            right.Perm (u.drop start ++ v.drop e) ∧ Desc f right ∧
            (Decides less f S → ∀ k, right.filter (fun z => decide (f z = k))
              = (u.drop start ++ v.drop e).filter (fun z => decide (f z = k))) := by
          refine ⟨_, rfl, ?_⟩
          by_cases hg : start < u.length ∧ e < v.length
          · rw [if_pos hg]
            apply ih _ _ _ hu2 hv2 (desc_drop f u start hdu) (desc_drop f v e hdv)
            simp only [List.length_drop]
            omega
          · rw [if_neg hg]
            refine ⟨List.Perm.refl _, ?_, fun _ _ => rfl⟩
            apply desc_append_of_nil f _ _ (desc_drop f u start hdu) (desc_drop f v e hdv)
            by_cases hs0 : start < u.length
            · exact Or.inr (List.drop_eq_nil_of_le (by omega))
            · exact Or.inl (List.drop_eq_nil_of_le (by omega))
        obtain ⟨left, hleq, hlperm, hldesc, hlfilter⟩ := hleft
        obtain ⟨right, hreq, hrperm, hrdesc, hrfilter⟩ := hright
        rw [heq, ← hleq, ← hreq]
        -- comparisons across the split
        have g1 : ∀ x ∈ u.take start, ∀ y ∈ v.drop e, f y ≤ f x := by
          intro x hx y hy
          have hpos : 0 < start := by
            rcases Nat.eq_zero_or_pos start with h | h
            · rw [h] at hx
              simp at hx
            · exact h
          have hlt : e < v.length := by
            by_contra hn
            rw [List.drop_eq_nil_of_le (by omega)] at hy
            simp at hy
          obtain ⟨a, c, ha, hc, hless⟩ := flo hpos hlt
          have h3 := not_less_le less f S hr c a (hv c (List.getElem?_mem hc))
            (hu a (List.getElem?_mem ha)) hless
          have h4 : f a ≤ f x := by
            apply desc_mem_take f u (start - 1) a x hdu ha
            have : start - 1 + 1 = start := by omega
            rw [this]
            exact hx
          have h5 : f y ≤ f c := desc_mem_drop f v e c y hdv hc hy
          omega
        have g2 : ∀ y ∈ v.take e, ∀ x ∈ u.drop start,
            f x ≤ f y ∧ (Decides less f S → f x < f y) := by
          intro y hy x hx
          have hpos : 0 < e := by
            rcases Nat.eq_zero_or_pos e with h | h
            · rw [h] at hy
              simp at hy
            · exact h
          have hlt : start < u.length := by
            by_contra hn
            rw [List.drop_eq_nil_of_le (by omega)] at hx
            simp at hx
          obtain ⟨a, c, ha, hc, hless⟩ := fhi hlt hpos
          have hSa := hu a (List.getElem?_mem ha)
          have hSc := hv c (List.getElem?_mem hc)
          have h4 : f x ≤ f a := desc_mem_drop f u start a x hdu ha hx
          have h5 : f c ≤ f y := by
            apply desc_mem_take f v (e - 1) c y hdv hc
            have : e - 1 + 1 = e := by omega
            rw [this]
            exact hy
          refine ⟨?_, fun hd => ?_⟩
          · have := hr.2 c a hSc hSa hless
            omega
          · have := hd c a hSc hSa hless
            omega
        have hus : Desc f (u.take start ++ u.drop start) := by
          rw [List.take_append_drop]
          exact hdu
        have hvs : Desc f (v.take e ++ v.drop e) := by
          rw [List.take_append_drop]
          exact hdv
        refine ⟨?_, ?_, ?_⟩
        · have hp1 : (left ++ right).Perm
              ((u.take start ++ v.take e) ++ (u.drop start ++ v.drop e)) :=
            List.Perm.append hlperm hrperm
          have hp2 : ((u.take start ++ v.take e) ++ (u.drop start ++ v.drop e)).Perm
              ((u.take start ++ u.drop start) ++ (v.take e ++ v.drop e)) := by
            simp only [List.append_assoc]
            apply List.Perm.append_left
            rw [← List.append_assoc, ← List.append_assoc]
            exact List.Perm.append_right _ List.perm_append_comm
          rw [List.take_append_drop, List.take_append_drop] at hp2
          exact hp1.trans hp2
        · rw [desc_append]
          refine ⟨hldesc, hrdesc, ?_⟩
          intro a ha b hb
          rcases List.mem_append.1 (hlperm.subset ha) with ha' | ha'
          · rcases List.mem_append.1 (hrperm.subset hb) with hb' | hb'
            · exact ((desc_append f _ _).1 hus).2.2 a ha' b hb'
            · exact g1 a ha' b hb'
          · rcases List.mem_append.1 (hrperm.subset hb) with hb' | hb'
            · exact (g2 a ha' b hb').1
            · exact ((desc_append f _ _).1 hvs).2.2 a ha' b hb'
        · intro hd k
          have hcomm := filter_comm_of_disjoint f k (v.take e) (u.drop start) (by
            intro a ha b hb
            have := (g2 a ha b hb).2 hd
            omega)
          calc (left ++ right).filter (fun z => decide (f z = k))
              = (u.take start).filter (fun z => decide (f z = k))
                  ++ ((v.take e).filter (fun z => decide (f z = k))
                  ++ (u.drop start).filter (fun z => decide (f z = k)))
                  ++ (v.drop e).filter (fun z => decide (f z = k)) := by
                rw [List.filter_append, hlfilter hd k, hrfilter hd k, List.filter_append,
                  List.filter_append]
                simp only [List.append_assoc]
            _ = (u.take start).filter (fun z => decide (f z = k))
                  ++ ((u.drop start).filter (fun z => decide (f z = k))
                  ++ (v.take e).filter (fun z => decide (f z = k)))
                  ++ (v.drop e).filter (fun z => decide (f z = k)) := by rw [hcomm]
            _ = (u ++ v).filter (fun z => decide (f z = k)) := by
                conv_rhs => rw [← List.take_append_drop start u, ← List.take_append_drop e v]
                simp only [List.filter_append, List.append_assoc]

theorem blockSorted_of_desc {α : Type} (f : α → Nat) (blockSize : Nat) (l : List α)
    (h : Desc f l) : BlockSorted f blockSize l :=
  fun k => desc_take f _ blockSize (desc_drop f l (k * blockSize) h)

theorem desc_of_blockSorted {α : Type} (f : α → Nat) (blockSize : Nat) (l : List α)
    (h : BlockSorted f blockSize l) (hl : l.length ≤ blockSize) : Desc f l := by
  have := h 0
  simpa [List.take_of_length_le hl] using this

theorem blockSorted_append {α : Type} (f : α → Nat) (blockSize : Nat) (x y : List α)
    (hx : x.length = blockSize) (hdx : Desc f x) (hy : BlockSorted f blockSize y) :
    BlockSorted f blockSize (x ++ y) := by
  intro k
  cases k with
  | zero =>
    simp only [Nat.zero_mul, List.drop_zero]
    rw [← hx, List.take_left]
    exact hdx
  | succ k =>
    have : (k + 1) * blockSize = x.length + k * blockSize := by
      rw [hx, Nat.succ_mul, Nat.add_comm]
    rw [this, List.drop_append]
    exact hy k

theorem blockSorted_drop {α : Type} (f : α → Nat) (blockSize j : Nat) (l : List α)
    (h : BlockSorted f blockSize l) : BlockSorted f blockSize (l.drop (j * blockSize)) := by
  intro k
  rw [List.drop_drop]
  have : k * blockSize + j * blockSize = (k + j) * blockSize := by rw [Nat.add_mul]
  have h' := h (k + j)
  rw [Nat.add_mul] at h'
  first
    | exact h'
    | (rw [Nat.add_comm] at h'; exact h')

theorem insertionBlocks_spec {α : Type} (less : α → α → Bool) (f : α → Nat) (S : α → Prop)
    (hr : Refines less f S) (fuel : Nat) (data : List α) (hS : ∀ x ∈ data, S x) :
    (insertionBlocks less fuel data).Perm data ∧
      BlockSorted f 20 (insertionBlocks less fuel data) ∧
      (Decides less f S → ∀ k,
        (insertionBlocks less fuel data).filter (fun z => decide (f z = k))
          = data.filter (fun z => decide (f z = k))) := by
  induction fuel generalizing data with
  | zero =>
    exact ⟨insertionSort_perm less data,
      blockSorted_of_desc f 20 _ (insertionSort_desc less f S hr data hS),
      fun hd k => insertionSort_filter less f S hd data hS k⟩
  | succ fuel ih =>
    by_cases h : 20 ≤ data.length
    · simp only [insertionBlocks, h, if_true]
      have hS1 : ∀ x ∈ data.take 20, S x := fun x hx => hS x (List.mem_of_mem_take hx)
      have hS2 : ∀ x ∈ data.drop 20, S x := fun x hx => hS x (List.mem_of_mem_drop hx)
      obtain ⟨p, b, fl⟩ := ih (data.drop 20) hS2
      have hp1 := insertionSort_perm less (data.take 20)
      refine ⟨?_, ?_, ?_⟩
      · have := List.Perm.append hp1 p
        rwa [List.take_append_drop] at this
      · apply blockSorted_append f 20 _ _ _ (insertionSort_desc less f S hr _ hS1) b
        rw [hp1.length_eq, List.length_take]
        omega
      · intro hd k
        rw [List.filter_append, insertionSort_filter less f S hd _ hS1 k, fl hd k,
          ← List.filter_append, List.take_append_drop]
    · simp only [insertionBlocks, h, if_false]
      exact ⟨insertionSort_perm less data,
        blockSorted_of_desc f 20 _ (insertionSort_desc less f S hr data hS),
        fun hd k => insertionSort_filter less f S hd data hS k⟩

theorem mergePass_spec {α : Type} (less : α → α → Bool) (f : α → Nat) (S : α → Prop)
    (hr : Refines less f S) (blockSize : Nat) (hbs : 0 < blockSize) (fuel : Nat)
    (data : List α) (hfuel : data.length ≤ fuel) (hS : ∀ x ∈ data, S x)
    (hb : BlockSorted f blockSize data) :
    (mergePass less blockSize fuel data).Perm data ∧
      BlockSorted f (2 * blockSize) (mergePass less blockSize fuel data) ∧
      (Decides less f S → ∀ k,
        (mergePass less blockSize fuel data).filter (fun z => decide (f z = k))
          = data.filter (fun z => decide (f z = k))) := by
  induction fuel generalizing data with
  | zero =>
    have : data = [] := List.length_eq_zero.1 (by omega)
    subst this
    refine ⟨List.Perm.refl _, ?_, fun _ _ => rfl⟩
    intro k
    simp [mergePass, Desc]
  | succ fuel ih =>
    have hS1 : ∀ x ∈ data.take blockSize, S x := fun x hx => hS x (List.mem_of_mem_take hx)
    have hd1 : Desc f (data.take blockSize) := by
      have := hb 0
      simpa using this
    by_cases h : 2 * blockSize ≤ data.length
    · simp only [mergePass, h, if_true]
      have hsl : slice data blockSize (2 * blockSize) = (data.drop blockSize).take blockSize := by
        unfold slice
        rw [List.drop_take]
        congr 1
        omega
      have hS2 : ∀ x ∈ slice data blockSize (2 * blockSize), S x := by
        intro x hx
        rw [hsl] at hx
        exact hS x (List.mem_of_mem_drop (List.mem_of_mem_take hx))
      have hd2 : Desc f (slice data blockSize (2 * blockSize)) := by
        rw [hsl]
        have := hb 1
        simpa using this
      have hjoin : data.take blockSize ++ slice data blockSize (2 * blockSize)
          = data.take (2 * blockSize) := by
        rw [hsl]
        have : 2 * blockSize = blockSize + blockSize := by omega
        rw [this, List.take_add]
      obtain ⟨p, d, fl⟩ := symMerge_spec less f S hr (2 * blockSize) (data.take blockSize)
        (slice data blockSize (2 * blockSize)) (by
          rw [hsl]
          simp only [List.length_take, List.length_drop]
          omega) hS1 hS2 hd1 hd2
      have hS3 : ∀ x ∈ data.drop (2 * blockSize), S x :=
        fun x hx => hS x (List.mem_of_mem_drop hx)
      obtain ⟨p', b', fl'⟩ := ih (data.drop (2 * blockSize)) (by
        rw [List.length_drop]
        omega) hS3 (blockSorted_drop f blockSize 2 data hb)
      rw [hjoin] at p fl
      refine ⟨?_, ?_, ?_⟩
      · have := List.Perm.append p p'
        rwa [List.take_append_drop] at this
      · apply blockSorted_append f (2 * blockSize) _ _ _ d b'
        rw [p.length_eq, List.length_take]
        omega
      · intro hd k
        rw [List.filter_append, fl hd k, fl' hd k, ← List.filter_append,
          List.take_append_drop]
    · by_cases h' : blockSize < data.length
      · simp only [mergePass, h, h', if_true, if_false]
        have hS2 : ∀ x ∈ data.drop blockSize, S x :=
          fun x hx => hS x (List.mem_of_mem_drop hx)
        have hd2 : Desc f (data.drop blockSize) := by
          have := hb 1
          rw [Nat.one_mul, List.take_of_length_le (by
            rw [List.length_drop]
            omega)] at this
          exact this
        obtain ⟨p, d, fl⟩ := symMerge_spec less f S hr data.length (data.take blockSize)
          (data.drop blockSize) (by
            simp only [List.length_take, List.length_drop]
            omega) hS1 hS2 hd1 hd2
        rw [List.take_append_drop] at p fl
        exact ⟨p, blockSorted_of_desc f _ _ d, fl⟩
      · simp only [mergePass, h, h', if_false]
        refine ⟨List.Perm.refl _, ?_, fun _ _ => trivial⟩
        exact blockSorted_of_desc f _ _ (desc_of_blockSorted f blockSize data hb (by omega))

theorem mergeLoop_spec {α : Type} (less : α → α → Bool) (f : α → Nat) (S : α → Prop)
    (hr : Refines less f S) (fuel blockSize : Nat) (hbs : 0 < blockSize) (data : List α)
    (hfuel : data.length < blockSize + fuel) (hS : ∀ x ∈ data, S x)
    (hb : BlockSorted f blockSize data) :
    (mergeLoop less fuel blockSize data).Perm data ∧
      Desc f (mergeLoop less fuel blockSize data) ∧
      (Decides less f S → ∀ k,
        (mergeLoop less fuel blockSize data).filter (fun z => decide (f z = k))
          = data.filter (fun z => decide (f z = k))) := by
  induction fuel generalizing blockSize data with
  | zero =>
    exact ⟨List.Perm.refl _, desc_of_blockSorted f blockSize data hb (by omega),
      fun _ _ => rfl⟩
  | succ fuel ih =>
    by_cases h : blockSize < data.length
    · simp only [mergeLoop, h, if_true]
      obtain ⟨p, b, fl⟩ := mergePass_spec less f S hr blockSize hbs data.length data
        (le_refl _) hS hb
      obtain ⟨p', d', fl'⟩ := ih (2 * blockSize) (by omega)
        (mergePass less blockSize data.length data) (by
          rw [p.length_eq]
          omega) (fun x hx => hS x (p.subset hx)) b
      exact ⟨p'.trans p, d', fun hd k => (fl' hd k).trans (fl hd k)⟩
    · simp only [mergeLoop, h, if_false]
      exact ⟨List.Perm.refl _, desc_of_blockSorted f blockSize data hb (by omega),
        fun _ _ => trivial⟩

/-- What `sort.SliceStable` does when the comparator refines the order of `f` on the elements
of the slice: the result is a rearrangement of the slice in which `f` does not increase, and,
when the comparator is the order of `f`, the elements of each value of `f` keep their
order. -/
theorem sliceStable_spec {α : Type} (less : α → α → Bool) (f : α → Nat) (S : α → Prop)
    (hr : Refines less f S) (data : List α) (hS : ∀ x ∈ data, S x) :
    (sliceStable less data).Perm data ∧ Desc f (sliceStable less data) ∧
      (Decides less f S → ∀ k,
        (sliceStable less data).filter (fun z => decide (f z = k))
          = data.filter (fun z => decide (f z = k))) := by
  obtain ⟨p, b, fl⟩ := insertionBlocks_spec less f S hr data.length data hS
  obtain ⟨p', d', fl'⟩ := mergeLoop_spec less f S hr data.length 20 (by omega)
    (insertionBlocks less data.length data) (by
      rw [p.length_eq]
      omega) (fun x hx => hS x (p.subset hx)) b
  exact ⟨p'.trans p, d', fun hd k => (fl' hd k).trans (fl hd k)⟩

/-- On at most 20 elements `sort.SliceStable` is the insertion sort. -/
theorem sliceStable_small {α : Type} (less : α → α → Bool) (data : List α)
    (h : data.length ≤ 20) : sliceStable less data = insertionSort less data := by
  unfold sliceStable
  have hib : insertionBlocks less data.length data = insertionSort less data := by
    cases hn : data.length with
    | zero => rfl
    | succ n =>
      by_cases h20 : 20 ≤ data.length
      · have hl : data.length = 20 := by omega
        simp only [insertionBlocks, h20, if_true]
        rw [List.take_of_length_le (by omega), List.drop_eq_nil_of_le (by omega)]
        cases n <;> simp [insertionBlocks, insertionSort]
      · simp only [insertionBlocks, h20, if_false]
  rw [hib]
  have hlen : (insertionSort less data).length ≤ 20 := by
    rw [(insertionSort_perm less data).length_eq]
    exact h
  cases hn : data.length with
  | zero => rfl
  | succ n =>
    have : ¬ 20 < (insertionSort less data).length := by omega
    simp only [mergeLoop, this, if_false]

/-! ## The route comparator -/

theorem sliceStable_pair {α : Type} (less : α → α → Bool) (a b : α) :
    sliceStable less [a, b] = if less b a then [b, a] else [a, b] := by
  rw [sliceStable_small less [a, b] (by simp)]
  by_cases h : less b a = true
  · simp [insertionSort, insertLeft, h]
  · simp [insertionSort, insertLeft, h]

theorem routeLess_hostLength :
    Refines routeLess (fun r => r.Host.length) (fun _ => True) := by
  constructor
  · intro a b _ _ h
    simp only at h
    have hne : a.Host ≠ b.Host := fun e => by
      rw [e] at h
      exact Nat.lt_irrefl _ h
    simp only [routeLess, hne, ne_eq, not_false_eq_true, if_true]
    simpa using h
  · intro a b _ _ h
    simp only
    by_cases hne : a.Host = b.Host
    · rw [hne]
    · simp only [routeLess, hne, ne_eq, not_false_eq_true, if_true, decide_eq_true_eq] at h
      exact Nat.le_of_lt h

/-- The comparator on two routes of one host. -/
theorem routeLess_same_host (a b : IngressRoute) (h : a.Host = b.Host) :
    routeLess a b =
      if isAllMatch a then false
      else if isAllMatch b then true
      else if a.PathType = b.PathType then
        if a.Path = b.Path then hasSuffix a.Name "canary".toList
        else decide (a.Path.length > b.Path.length)
      else if a.PathType = "exact".toList then true
      else if a.PathType ≠ "exact".toList ∧ b.PathType ≠ "exact".toList then
        decide (a.PathType = "prefix".toList)
      else false := by
  simp [routeLess, h]

theorem routeLess_catchAll (routes : List IngressRoute)
    (hhost : ∀ a ∈ routes, ∀ b ∈ routes, a.Host.length = b.Host.length → a.Host = b.Host) :
    Refines routeLess
      (fun r => 2 * r.Host.length + (if isAllMatch r then 0 else 1)) (fun r => r ∈ routes) := by
  constructor
  · intro a b ha hb h
    simp only at h
    by_cases hne : a.Host = b.Host
    · rw [routeLess_same_host a b hne]
      rw [hne] at h
      cases hA : isAllMatch a <;> cases hB : isAllMatch b <;> simp [hA, hB] at h ⊢
    · have hlen : a.Host.length ≠ b.Host.length := fun e => hne (hhost a ha b hb e)
      simp only [routeLess, hne, ne_eq, not_false_eq_true, if_true, decide_eq_true_eq]
      split at h <;> split at h <;> omega
  · intro a b ha hb h
    simp only
    by_cases hne : a.Host = b.Host
    · rw [routeLess_same_host a b hne] at h
      rw [hne]
      cases hA : isAllMatch a
      · simp only [Bool.false_eq_true, if_false]
        split <;> omega
      · simp [hA] at h
    · simp only [routeLess, hne, ne_eq, not_false_eq_true, if_true, decide_eq_true_eq] at h
      split <;> split <;> omega

theorem routeLess_pathLength (host pathType : Str) :
    Refines routeLess (fun r => r.Path.length)
        (fun r => r.Host = host ∧ r.PathType = pathType ∧ isAllMatch r = false ∧
          hasSuffix r.Name "canary".toList = false) ∧
      Decides routeLess (fun r => r.Path.length)
        (fun r => r.Host = host ∧ r.PathType = pathType ∧ isAllMatch r = false ∧
          hasSuffix r.Name "canary".toList = false) := by
  have key : ∀ a b : IngressRoute,
      (a.Host = host ∧ a.PathType = pathType ∧ isAllMatch a = false ∧
          hasSuffix a.Name "canary".toList = false) →
      (b.Host = host ∧ b.PathType = pathType ∧ isAllMatch b = false ∧
          hasSuffix b.Name "canary".toList = false) →
      (routeLess a b = true ↔ b.Path.length < a.Path.length) := by
    intro a b ha hb
    rw [routeLess_same_host a b (ha.1.trans hb.1.symm)]
    simp only [ha.2.2.1, hb.2.2.1, Bool.false_eq_true, if_false, ha.2.1, hb.2.1, if_true,
      ha.2.2.2]
    by_cases hp : a.Path = b.Path
    · simp [hp]
    · simp [hp]
  refine ⟨⟨?_, ?_⟩, ?_⟩
  · intro a b ha hb h
    exact (key a b ha hb).2 h
  · intro a b ha hb h
    exact Nat.le_of_lt ((key a b ha hb).1 h)
  · intro a b ha hb h
    exact (key a b ha hb).1 h

/-! ## Claims -/

theorem hasPrefix_append (p r : Str) : hasPrefix (p ++ r) p = true := by
  simp [hasPrefix]

theorem trimPrefix_append (p r : Str) : trimPrefix (p ++ r) p = r := by
  simp [trimPrefix, hasPrefix_append]

/-- C1, counterexample.  Two inputs on which the merged rule list is not the one the claim
describes.  In the first the rule lists of the authored `test-com` and `other-com` are slices
of one backing array, `[route-1]` with room for one more element and `[route-1, route-b]`;
no generated entry resolves to `other-com`, so its list should stay `[route-1, route-b]`, but
the append for `test-com` writes `route-2` into the shared array and the entry named
`other-com` comes out with `[route-1, route-2]`.  In the second the authored `test-com`
shares its spec object with the second of two generated entries that resolve to it; its list
should be `[route-1, route-2, route-1]` and is `[route-1, route-2, route-1, route-2]`. -/
theorem virtualServiceFilter_merge_shared :
    (virtualServiceFilter istioIngressGatewayName testClusterId sharedHeap sharedConfigs).map
        (fun r => (r.1.filter (fun e => decide (e.Name = "gw-123-istio-other-com".toList)),
          httpAt r.2 1))
      = some ([⟨"gw-123-istio-other-com".toList, "test".toList, 1⟩],
          [some ⟨"route-1".toList⟩, some ⟨"route-2".toList⟩]) ∧
    httpAt sharedHeap 1 ++
        ((sharedConfigs.filter (fun c => hasPrefix c.Name istioIngressGatewayName &&
            decide (createCRName istioIngressGatewayName testClusterId c.Name
              = "gw-123-istio-other-com".toList))).map
          (fun c => httpAt sharedHeap c.Spec)).flatten
      = [some ⟨"route-1".toList⟩, some ⟨"route-b".toList⟩] ∧
    (virtualServiceFilter istioIngressGatewayName testClusterId testVirtualServiceHeap
        aliasedConfigs).map
        (fun r => (r.1.filter (fun e => decide (e.Name = "gw-123-istio-test-com".toList)),
          httpAt r.2 0))
      = some ([⟨"gw-123-istio-test-com".toList, "test".toList, 0⟩],
          [some ⟨"route-1".toList⟩, some ⟨"route-2".toList⟩, some ⟨"route-1".toList⟩,
            some ⟨"route-2".toList⟩]) ∧
    httpAt testVirtualServiceHeap 0 ++
        ((aliasedConfigs.filter (fun c => hasPrefix c.Name istioIngressGatewayName &&
            decide (createCRName istioIngressGatewayName testClusterId c.Name
              = "gw-123-istio-test-com".toList))).map
          (fun c => httpAt testVirtualServiceHeap c.Spec)).flatten
      = [some ⟨"route-1".toList⟩, some ⟨"route-2".toList⟩, some ⟨"route-1".toList⟩] := by
  refine ⟨by decide, by decide, by decide, by decide⟩

/-- C1, amended.  On a name collision `virtualServiceFilter` merges.  Let the input be a list
of virtual services in which no two entries reference the same spec object, no two rule lists
lie in the same backing array, and every backing array has been allocated.  For an authored
entry `a` that is the last input entry with its name, the output has exactly one entry with
that name, it is `a`, and the rule list of its spec after the call is the rule list it had
before followed by the rule lists, in input order, of every generated entry whose
`createCRName` is that name. -/
theorem virtualServiceFilter_merge (gwName clusterId : Str) (heap : Heap)
    (configs l₁ l₂ : List Config) (a : Config)
    (hl : configs = l₁ ++ a :: l₂) (ha : hasPrefix a.Name gwName = false)
    (hlast : ∀ c ∈ l₂, c.Name ≠ a.Name)
    (hvs : ∀ c ∈ configs, isVirtualService heap c.Spec = true)
    (hnd : (configs.map Config.Spec).Nodup)
    (harr : (configs.filterMap (fun c => httpArray heap c.Spec)).Nodup)
    (halloc : ∀ x ∈ configs.filterMap (fun c => httpArray heap c.Spec), x < heap.next) :
    ∃ out heap', virtualServiceFilter gwName clusterId heap configs = some (out, heap') ∧
      out.filter (fun e => decide (e.Name = a.Name)) = [a] ∧
      httpAt heap' a.Spec = httpAt heap a.Spec ++
        ((configs.filter (fun c => hasPrefix c.Name gwName &&
            decide (createCRName gwName clusterId c.Name = a.Name))).map
          (fun c => httpAt heap c.Spec)).flatten := by
  obtain ⟨heap', hsome⟩ := virtualServiceFilter_isSome gwName clusterId heap configs hvs
  refine ⟨_, heap', hsome, ?_, ?_⟩
  · exact filter_mapValues_reconcile _ _ _ _ (reconcile_shadow _ _ _ _ _ _ hl ha hlast)
  · rw [virtualServiceFilter_contents gwName clusterId heap heap' configs _ hsome hnd harr halloc
      a (by simp [hl]), mergedInto_authored gwName clusterId configs l₁ l₂ a hl ha hlast hnd]

/-- C1, amended, on the input of `TestVirtualServiceFilter`: the authored
`gw-123-istio-test-com` ends with the rules `route-1`, `route-2`, in that order. -/
theorem virtualServiceFilter_merge_witness :
    ∃ out heap', virtualServiceFilter istioIngressGatewayName testClusterId
        testVirtualServiceHeap testConfigs = some (out, heap') ∧
      out.filter (fun e => decide (e.Name = "gw-123-istio-test-com".toList))
        = [{ Name := "gw-123-istio-test-com".toList, Namespace := "test".toList, Spec := 0 }] ∧
      httpAt heap' 0 = [some ⟨"route-1".toList⟩, some ⟨"route-2".toList⟩] := by
  obtain ⟨out, heap', h1, h2, h3⟩ :=
    virtualServiceFilter_merge istioIngressGatewayName testClusterId testVirtualServiceHeap
      testConfigs [] (testConfigs.drop 1)
      { Name := "gw-123-istio-test-com".toList, Namespace := "test".toList, Spec := 0 }
      (by decide) (by decide) (by decide) (by decide) (by decide) (by decide) (by decide)
  exact ⟨out, heap', h1, h2, h3.trans (by decide)⟩

/-- C2. The number of output entries of each filter is the number of distinct strings among
the names of the authored entries and the target names of the generated entries.  For
`virtualServiceFilter` this holds whenever it returns, and it returns when every spec is a
virtual service. -/
theorem filter_output_length (gwName clusterId : Str) (configs : List Config) :
    (∀ heap out heap', virtualServiceFilter gwName clusterId heap configs = some (out, heap') →
      out.length = ((authoredOf gwName configs).map Config.Name ++
        (generatedOf gwName configs).map
          (fun c => createCRName gwName clusterId c.Name)).toFinset.card) ∧
    (∀ heap, (∀ c ∈ configs, isVirtualService heap c.Spec = true) →
      ∃ out heap', virtualServiceFilter gwName clusterId heap configs = some (out, heap')) ∧
    (gatewayFilter gwName clusterId configs).length =
      ((authoredOf gwName configs).map Config.Name ++
        (generatedOf gwName configs).map
          (fun c => createCRName gwName clusterId c.Name)).toFinset.card ∧
    (destinationFilter gwName configs).length =
      ((authoredOf gwName configs).map Config.Name ++
        (generatedOf gwName configs).map
          (fun c => trimPrefix c.Name (gwName ++ "-".toList))).toFinset.card := by
  refine ⟨?_, ?_, ?_, ?_⟩
  · intro heap out heap' h
    rw [(virtualServiceFilter_some _ _ _ _ _ _ h).1]
    exact length_mapValues_reconcile _ _ _
  · intro heap hvs
    obtain ⟨heap', h⟩ := virtualServiceFilter_isSome gwName clusterId heap configs hvs
    exact ⟨_, heap', h⟩
  · rw [gatewayFilter_eq]
    exact length_mapValues_reconcile _ _ _
  · rw [destinationFilter_eq]
    exact length_mapValues_reconcile _ _ _

/-- C2 on the inputs of the three tests: 3, 3 and 1 entries. -/
theorem filter_output_length_witness :
    (∃ out heap', virtualServiceFilter istioIngressGatewayName testClusterId
        testVirtualServiceHeap testConfigs = some (out, heap') ∧ out.length = 3) ∧
    (gatewayFilter istioIngressGatewayName testClusterId testConfigs).length = 3 ∧
    (destinationFilter istioIngressGatewayName testDestinationConfigs).length = 1 := by
  have h := filter_output_length istioIngressGatewayName testClusterId testConfigs
  have hd := filter_output_length istioIngressGatewayName testClusterId testDestinationConfigs
  obtain ⟨out, heap', hs⟩ := h.2.1 testVirtualServiceHeap (by decide)
  exact ⟨⟨out, heap', hs, (h.1 _ _ _ hs).trans (by decide)⟩, h.2.2.1.trans (by decide),
    hd.2.2.2.trans (by decide)⟩

/-- C3. Shadowing in `gatewayFilter` and `destinationFilter`: when the target name of a
generated entry `g` is the name of an authored entry, the output has exactly one entry with
that name and it is the last authored entry `a` with that name, unchanged; and nothing of
`g` is in the output, which is the output for the input without `g`. -/
theorem gateway_destination_shadowing (gwName clusterId : Str)
    (configs l₁ l₂ k₁ k₂ : List Config) (a g : Config)
    (hl : configs = l₁ ++ a :: l₂) (ha : hasPrefix a.Name gwName = false)
    (hlast : ∀ c ∈ l₂, c.Name ≠ a.Name)
    (hk : configs = k₁ ++ g :: k₂) (hgen : hasPrefix g.Name gwName = true) :
    (createCRName gwName clusterId g.Name = a.Name →
      (gatewayFilter gwName clusterId configs).filter
          (fun e => decide (e.Name = createCRName gwName clusterId g.Name)) = [a] ∧
        gatewayFilter gwName clusterId configs = gatewayFilter gwName clusterId (k₁ ++ k₂)) ∧
    (trimPrefix g.Name (gwName ++ "-".toList) = a.Name →
      (destinationFilter gwName configs).filter
          (fun e => decide (e.Name = trimPrefix g.Name (gwName ++ "-".toList))) = [a] ∧
        destinationFilter gwName configs = destinationFilter gwName (k₁ ++ k₂)) := by
  have hidx := mapGet_indexAll_authored gwName configs l₁ l₂ a hl ha hlast
  constructor
  · intro hc
    refine ⟨?_, ?_⟩
    · rw [hc, gatewayFilter_eq]
      exact filter_mapValues_reconcile _ _ _ _ (reconcile_shadow _ _ _ _ _ _ hl ha hlast)
    · rw [gatewayFilter_eq, gatewayFilter_eq, hk]
      rw [hk, ← hc] at hidx
      rw [reconcile_drop_shadowed _ gwName k₁ k₂ g a hgen hidx]
  · intro hc
    refine ⟨?_, ?_⟩
    · rw [hc, destinationFilter_eq]
      exact filter_mapValues_reconcile _ _ _ _ (reconcile_shadow _ _ _ _ _ _ hl ha hlast)
    · rw [destinationFilter_eq, destinationFilter_eq, hk]
      rw [hk, ← hc] at hidx
      rw [reconcile_drop_shadowed (fun name => trimPrefix name (gwName ++ "-".toList))
        gwName k₁ k₂ g a hgen hidx]

/-- C3 on the inputs of `TestGatewayFilter` and `TestDestinationRuleFilter`: the entry kept
under the colliding name is the authored one, and the output is the one for the input
without the generated entry. -/
theorem gateway_destination_shadowing_witness :
    ((gatewayFilter istioIngressGatewayName testClusterId testConfigs).filter
        (fun e => decide (e.Name = "gw-123-istio-test-com".toList))
      = [{ Name := "gw-123-istio-test-com".toList, Namespace := "test".toList, Spec := 0 }] ∧
      gatewayFilter istioIngressGatewayName testClusterId testConfigs
        = gatewayFilter istioIngressGatewayName testClusterId
            (testConfigs.take 1 ++ testConfigs.drop 2)) ∧
    ((destinationFilter istioIngressGatewayName testDestinationConfigs).filter
        (fun e => decide (e.Name = "e3431b3db77d88642015e60647514d2f".toList))
      = [{ Name := "e3431b3db77d88642015e60647514d2f".toList, Namespace := "test".toList,
           Spec := 0 }] ∧
      destinationFilter istioIngressGatewayName testDestinationConfigs
        = destinationFilter istioIngressGatewayName (testDestinationConfigs.take 1 ++ [])) := by
  have h1 := (gateway_destination_shadowing istioIngressGatewayName testClusterId testConfigs
    [] (testConfigs.drop 1) (testConfigs.take 1) (testConfigs.drop 2)
    { Name := "gw-123-istio-test-com".toList, Namespace := "test".toList, Spec := 0 }
    { Name := "istio-autogenerated-k8s-ingress-test-com".toList, Namespace := "test".toList,
      Spec := 1 }
    (by decide) (by decide) (by decide) (by decide) (by decide)).1 (by decide)
  have h2 := (gateway_destination_shadowing istioIngressGatewayName testClusterId
    testDestinationConfigs [] (testDestinationConfigs.drop 1) (testDestinationConfigs.take 1) []
    { Name := "e3431b3db77d88642015e60647514d2f".toList, Namespace := "test".toList, Spec := 0 }
    { Name := "istio-autogenerated-k8s-ingress-e3431b3db77d88642015e60647514d2f".toList,
      Namespace := "test".toList, Spec := 1 }
    (by decide) (by decide) (by decide) (by decide) (by decide)).2 (by decide)
  exact ⟨h1, h2⟩

/-- C4. Admission in `gatewayFilter`: for a generated entry `g` whose target name is the name
of no authored entry, let `g₀` be the first generated entry of the input with that target
name; the output has exactly one entry with that name, and it is `g₀` with only its `Name`
replaced by the target name. -/
theorem gatewayFilter_admission (gwName clusterId : Str) (configs : List Config) (g : Config)
    (hg : g ∈ configs) (hgen : hasPrefix g.Name gwName = true)
    (hna : ∀ c ∈ configs, hasPrefix c.Name gwName = false →
      c.Name ≠ createCRName gwName clusterId g.Name) :
    ∃ l₁ g₀ l₂, configs = l₁ ++ g₀ :: l₂ ∧ hasPrefix g₀.Name gwName = true ∧
      createCRName gwName clusterId g₀.Name = createCRName gwName clusterId g.Name ∧
      (∀ c ∈ l₁, hasPrefix c.Name gwName = true →
        createCRName gwName clusterId c.Name ≠ createCRName gwName clusterId g.Name) ∧
      (gatewayFilter gwName clusterId configs).filter
          (fun e => decide (e.Name = createCRName gwName clusterId g.Name))
        = [{ Name := createCRName gwName clusterId g.Name, Namespace := g₀.Namespace,
             Spec := g₀.Spec }] := by
  obtain ⟨l₁, g₀, l₂, hl, hp, ht, hfirst, hget⟩ :=
    reconcile_admit (createCRName gwName clusterId) gwName configs g hg hgen hna
  refine ⟨l₁, g₀, l₂, hl, hp, ht, hfirst, ?_⟩
  rw [gatewayFilter_eq]
  exact filter_mapValues_reconcile (createCRName gwName clusterId) gwName configs
    { Name := createCRName gwName clusterId g.Name, Namespace := g₀.Namespace, Spec := g₀.Spec }
    hget

/-- C4 on the input of `TestGatewayFilter`: the generated entry for `foo.com` is admitted
under `gw-123-istio-foo-com` with its namespace and spec. -/
theorem gatewayFilter_admission_witness :
    (gatewayFilter istioIngressGatewayName testClusterId testConfigs).filter
        (fun e => decide (e.Name = "gw-123-istio-foo-com".toList))
      = [{ Name := "gw-123-istio-foo-com".toList, Namespace := "test".toList, Spec := 2 }] := by
  obtain ⟨l₁, g₀, l₂, hl, hp, ht, hfirst, hout⟩ :=
    gatewayFilter_admission istioIngressGatewayName testClusterId testConfigs
      { Name := "istio-autogenerated-k8s-ingress-foo-com".toList, Namespace := "test".toList,
        Spec := 2 }
      (by decide) (by decide) (by decide)
  have hname : createCRName istioIngressGatewayName testClusterId
      "istio-autogenerated-k8s-ingress-foo-com".toList = "gw-123-istio-foo-com".toList := by
    decide
  simp only [hname] at hout ht
  have hmem : g₀ ∈ testConfigs := by
    rw [hl]
    simp
  have hg₀ : g₀ = ⟨"istio-autogenerated-k8s-ingress-foo-com".toList, "test".toList, 2⟩ := by
    simp only [testConfigs, List.mem_cons, List.mem_singleton, List.not_mem_nil, or_false] at hmem
    rcases hmem with rfl | rfl | rfl | rfl
    · exact absurd ht (by decide)
    · exact absurd ht (by decide)
    · rfl
    · exact absurd ht (by decide)
  rw [hout, hg₀]

/-- C5. No two output entries of a filter have the same name, and every value in the name
index at the end of the second loop is stored under its own name.  For
`virtualServiceFilter` this holds whenever it returns, and it returns when every spec is a
virtual service. -/
theorem filter_output_names_nodup (gwName clusterId : Str) (configs : List Config) :
    (∀ heap out heap', virtualServiceFilter gwName clusterId heap configs = some (out, heap') →
      (out.map Config.Name).Nodup) ∧
    (∀ heap, (∀ c ∈ configs, isVirtualService heap c.Spec = true) →
      ∃ out heap', virtualServiceFilter gwName clusterId heap configs = some (out, heap')) ∧
    ((gatewayFilter gwName clusterId configs).map Config.Name).Nodup ∧
    ((destinationFilter gwName configs).map Config.Name).Nodup ∧
    (∀ heap m heap',
      virtualServiceLoop gwName clusterId (partitionConfigs gwName configs ([], [])).1
        (partitionConfigs gwName configs ([], [])).2 heap = some (m, heap') →
      ∀ p ∈ m, p.2.Name = p.1) ∧
    (∀ p ∈ admitLoop (createCRName gwName clusterId)
        (partitionConfigs gwName configs ([], [])).1 (partitionConfigs gwName configs ([], [])).2,
      p.2.Name = p.1) ∧
    (∀ p ∈ admitLoop (fun name => trimPrefix name (gwName ++ "-".toList))
        (partitionConfigs gwName configs ([], [])).1 (partitionConfigs gwName configs ([], [])).2,
      p.2.Name = p.1) := by
  have hg := indexOK_reconcile (createCRName gwName clusterId) gwName configs
  have hd := indexOK_reconcile (fun name => trimPrefix name (gwName ++ "-".toList)) gwName configs
  refine ⟨?_, ?_, ?_, ?_, ?_, ?_, ?_⟩
  · intro heap out heap' h
    rw [(virtualServiceFilter_some _ _ _ _ _ _ h).1, mapValues_names _ hg]
    exact hg.1
  · intro heap hvs
    obtain ⟨heap', h⟩ := virtualServiceFilter_isSome gwName clusterId heap configs hvs
    exact ⟨_, heap', h⟩
  · rw [gatewayFilter_eq, mapValues_names _ hg]
    exact hg.1
  · rw [destinationFilter_eq, mapValues_names _ hd]
    exact hd.1
  · intro heap m heap' h
    rw [partitionConfigs_eq] at h
    simp only [List.nil_append] at h
    rw [virtualServiceLoop_index _ _ _ _ _ _ _ h]
    exact hg.2
  · rw [partitionConfigs_eq]
    exact hg.2
  · rw [partitionConfigs_eq]
    exact hd.2

/-- C5 on the input of `TestVirtualServiceFilter`: the filter returns three entries with
three different names. -/
theorem filter_output_names_nodup_witness :
    ∃ out heap', virtualServiceFilter istioIngressGatewayName testClusterId
        testVirtualServiceHeap testConfigs = some (out, heap') ∧
      (out.map Config.Name).Nodup ∧ out.length = 3 := by
  have h := filter_output_names_nodup istioIngressGatewayName testClusterId testConfigs
  obtain ⟨out, heap', hs⟩ := h.2.1 testVirtualServiceHeap (by decide)
  refine ⟨out, heap', hs, h.1 _ _ _ hs, ?_⟩
  rw [(virtualServiceFilter_some _ _ _ _ _ _ hs).1, ← gatewayFilter_eq]
  decide

/-- C7. `createCRName` applied to the reserved prefix, a dash and `rest` returns `rest` for
the empty cluster id and for `Kubernetes`, and the cluster id, a dash and `rest` for any
other cluster id. -/
theorem createCRName_strips_prefix (gwName clusterId rest : Str) :
    createCRName gwName clusterId (gwName ++ "-".toList ++ rest) =
      if clusterId = [] ∨ clusterId = "Kubernetes".toList then rest
      else clusterId ++ "-".toList ++ rest := by
  unfold createCRName
  simp only [trimPrefix_append]
  by_cases h1 : clusterId = []
  · simp [h1]
  · by_cases h2 : clusterId = "Kubernetes".toList
    · simp [h2]
    · simp [h1, h2]

/-- C8. With a cluster id that is neither empty nor `Kubernetes`, if every authored entry
has a name starting with the cluster id then so has every output entry of `gatewayFilter`
and of `virtualServiceFilter`; the latter returns when every spec is a virtual service. -/
theorem output_names_start_with_clusterId (gwName clusterId : Str) (configs : List Config)
    (h1 : clusterId ≠ []) (h2 : clusterId ≠ "Kubernetes".toList)
    (hauth : ∀ c ∈ configs, hasPrefix c.Name gwName = false →
      hasPrefix c.Name clusterId = true) :
    (∀ e ∈ gatewayFilter gwName clusterId configs, hasPrefix e.Name clusterId = true) ∧
    (∀ heap out heap', virtualServiceFilter gwName clusterId heap configs = some (out, heap') →
      ∀ e ∈ out, hasPrefix e.Name clusterId = true) ∧
    (∀ heap, (∀ c ∈ configs, isVirtualService heap c.Spec = true) →
      ∃ out heap', virtualServiceFilter gwName clusterId heap configs = some (out, heap')) := by
  have key : ∀ e ∈ mapValues (reconcile (createCRName gwName clusterId) gwName configs),
      hasPrefix e.Name clusterId = true := by
    intro e he
    rcases mem_reconcile_cases _ gwName configs e he with h | ⟨g, _, _, rfl⟩
    · exact hauth e h.1 h.2
    · exact hasPrefix_createCRName gwName clusterId g.Name h1 h2
  refine ⟨?_, ?_, ?_⟩
  · rw [gatewayFilter_eq]
    exact key
  · intro heap out heap' h
    rw [(virtualServiceFilter_some _ _ _ _ _ _ h).1]
    exact key
  · intro heap hvs
    obtain ⟨heap', h⟩ := virtualServiceFilter_isSome gwName clusterId heap configs hvs
    exact ⟨_, heap', h⟩

/-- C8 on the inputs of `TestGatewayFilter` and `TestVirtualServiceFilter`: every output
name starts with `gw-123-istio`. -/
theorem output_names_start_with_clusterId_witness :
    (∀ e ∈ gatewayFilter istioIngressGatewayName testClusterId testConfigs,
      hasPrefix e.Name testClusterId = true) ∧
    ∃ out heap', virtualServiceFilter istioIngressGatewayName testClusterId
        testVirtualServiceHeap testConfigs = some (out, heap') ∧
      ∀ e ∈ out, hasPrefix e.Name testClusterId = true := by
  have h := output_names_start_with_clusterId istioIngressGatewayName testClusterId testConfigs
    (by decide) (by decide) (by decide)
  obtain ⟨out, heap', hs⟩ := h.2.2 testVirtualServiceHeap (by decide)
  exact ⟨h.1, out, heap', hs, h.2.1 _ _ _ hs⟩

/-- C6, counterexample.  With the default cluster id the generated entry named by the
reserved prefix, a dash, and a host that itself starts with the reserved prefix comes out of
each filter with a name that still has the prefix, and a second pass renames it again. -/
theorem filter_not_idempotent :
    gatewayFilter istioIngressGatewayName "Kubernetes".toList nestedConfigs
      = [⟨"istio-autogenerated-k8s-ingress-com".toList, "test".toList, 0⟩] ∧
    gatewayFilter istioIngressGatewayName "Kubernetes".toList
        (gatewayFilter istioIngressGatewayName "Kubernetes".toList nestedConfigs)
      = [⟨"com".toList, "test".toList, 0⟩] ∧
    ¬ (gatewayFilter istioIngressGatewayName "Kubernetes".toList
        (gatewayFilter istioIngressGatewayName "Kubernetes".toList nestedConfigs)).Perm
      (gatewayFilter istioIngressGatewayName "Kubernetes".toList nestedConfigs) ∧
    ¬ (destinationFilter istioIngressGatewayName
        (destinationFilter istioIngressGatewayName nestedConfigs)).Perm
      (destinationFilter istioIngressGatewayName nestedConfigs) ∧
    (virtualServiceFilter istioIngressGatewayName "Kubernetes".toList nestedHeap
        nestedConfigs).map Prod.fst
      = some [⟨"istio-autogenerated-k8s-ingress-com".toList, "test".toList, 0⟩] ∧
    (virtualServiceFilter istioIngressGatewayName "Kubernetes".toList nestedHeap
        [⟨"istio-autogenerated-k8s-ingress-com".toList, "test".toList, 0⟩]).map Prod.fst
      = some [⟨"com".toList, "test".toList, 0⟩] := by
  refine ⟨by decide, by decide, ?_, ?_, by decide, by decide⟩
  · intro h
    have := h.subset (List.mem_singleton.2 rfl :
      (⟨"com".toList, "test".toList, 0⟩ : Config) ∈ [⟨"com".toList, "test".toList, 0⟩])
    revert this
    decide
  · intro h
    have := h.subset (List.mem_singleton.2 rfl :
      (⟨"com".toList, "test".toList, 0⟩ : Config) ∈ [⟨"com".toList, "test".toList, 0⟩])
    revert this
    decide

/-- C6, amended.  When no generated entry has a target name that starts with the reserved
prefix, filtering the output again, in whatever order the entries come, gives the same
entries; for `virtualServiceFilter` the second pass also leaves the spec objects as the
first pass left them. -/
theorem filter_idempotent_of_clean (gwName clusterId : Str) (configs : List Config) :
    ((∀ c ∈ configs, hasPrefix c.Name gwName = true →
        hasPrefix (createCRName gwName clusterId c.Name) gwName = false) →
      (∀ out', out'.Perm (gatewayFilter gwName clusterId configs) →
        (gatewayFilter gwName clusterId out').Perm (gatewayFilter gwName clusterId configs)) ∧
      (∀ heap out heap',
        virtualServiceFilter gwName clusterId heap configs = some (out, heap') →
        ∀ out', out'.Perm out →
          ∃ out'', virtualServiceFilter gwName clusterId heap' out' = some (out'', heap') ∧
            out''.Perm out)) ∧
    ((∀ c ∈ configs, hasPrefix c.Name gwName = true →
        hasPrefix (trimPrefix c.Name (gwName ++ "-".toList)) gwName = false) →
      ∀ out', out'.Perm (destinationFilter gwName configs) →
        (destinationFilter gwName out').Perm (destinationFilter gwName configs)) := by
  have key : ∀ (target target' : Str → Str),
      (∀ c ∈ configs, hasPrefix c.Name gwName = true →
        hasPrefix (target c.Name) gwName = false) →
      ∀ out', out'.Perm (mapValues (reconcile target gwName configs)) →
        mapValues (reconcile target' gwName out') = out' ∧
          reconcile target' gwName out' = out'.map (fun c => (c.Name, c)) ∧
          generatedOf gwName out' = [] := by
    intro target target' hclean out' hperm
    have hok := indexOK_reconcile target gwName configs
    apply reconcile_of_authored_nodup
    · intro c hc
      exact reconcile_output_authored target gwName configs hclean c (hperm.subset hc)
    · have hnd : ((mapValues (reconcile target gwName configs)).map Config.Name).Nodup := by
        rw [mapValues_names _ hok]
        exact hok.1
      exact (hperm.map Config.Name).nodup_iff.2 hnd
  refine ⟨fun hclean => ⟨?_, ?_⟩, fun hclean => ?_⟩
  · intro out' hperm
    rw [gatewayFilter_eq] at hperm
    rw [gatewayFilter_eq, gatewayFilter_eq, (key _ (createCRName gwName clusterId) hclean out' hperm).1]
    exact hperm
  · intro heap out heap' hs out' hperm
    rw [(virtualServiceFilter_some _ _ _ _ _ _ hs).1] at hperm ⊢
    obtain ⟨h1, h2, h3⟩ := key _ (createCRName gwName clusterId) hclean out' hperm
    refine ⟨out', ?_, hperm⟩
    have hidx : indexAll (authoredOf gwName out') []
        = reconcile (createCRName gwName clusterId) gwName out' := by
      unfold reconcile
      rw [h3]
      rfl
    rw [virtualServiceFilter_eq, h3, hidx]
    simp only [virtualServiceLoop, h1]
  · intro out' hperm
    rw [destinationFilter_eq] at hperm
    rw [destinationFilter_eq, destinationFilter_eq,
      (key _ (fun name => trimPrefix name (gwName ++ "-".toList)) hclean out' hperm).1]
    exact hperm

/-- C6, amended, on the inputs of the tests: a second pass over the output of each filter
gives the entries of the first pass. -/
theorem filter_idempotent_of_clean_witness :
    (gatewayFilter istioIngressGatewayName testClusterId
        (gatewayFilter istioIngressGatewayName testClusterId testConfigs)).Perm
      (gatewayFilter istioIngressGatewayName testClusterId testConfigs) ∧
    (destinationFilter istioIngressGatewayName
        (destinationFilter istioIngressGatewayName testDestinationConfigs)).Perm
      (destinationFilter istioIngressGatewayName testDestinationConfigs) := by
  have h1 := (filter_idempotent_of_clean istioIngressGatewayName testClusterId testConfigs).1
    (by decide)
  have h2 := (filter_idempotent_of_clean istioIngressGatewayName testClusterId
    testDestinationConfigs).2 (by decide)
  exact ⟨h1.1 _ (List.Perm.refl _), h2 _ (List.Perm.refl _)⟩

/-- C9, counterexample.  On the input of `TestVirtualServiceFilter` with a gateway as the
spec of the authored entry the call panics: there is no output, also not for the entries
of `foo.com` and `bar.com`.  With a gateway as the spec of the entry for `foo.com`, which
collides with nothing, the call returns the three entries and reports nothing. -/
theorem virtualServiceFilter_mismatch_aborts :
    (virtualServiceFilter istioIngressGatewayName testClusterId mismatchedHeap
        testConfigs).isSome = false ∧
    (virtualServiceFilter istioIngressGatewayName testClusterId strayHeap
        testConfigs).map Prod.fst
      = some [⟨"gw-123-istio-test-com".toList, "test".toList, 0⟩,
          ⟨"gw-123-istio-foo-com".toList, "test".toList, 2⟩,
          ⟨"gw-123-istio-bar-com".toList, "test".toList, 3⟩] := by
  constructor <;> decide

/-- C9, amended.  `virtualServiceFilter` has no error value; it returns or it panics.  It
panics, with no output at all, exactly when the input has a collision at which a spec is not
a virtual service: a generated entry `c` whose target name is in the name index when the
second loop reaches `c`, the spec of `c` or the spec of the entry `e` held under that name
not being a virtual service; `e` is the last authored entry with that name or, when there is
none, the first generated entry before `c` with that target name.  When no collision is of
that kind the call returns the entries `gatewayFilter` returns: the specs of the entries
outside collisions are not looked at. -/
theorem virtualServiceFilter_panics (gwName clusterId : Str) (heap : Heap)
    (configs : List Config) :
    (virtualServiceFilter gwName clusterId heap configs = none ↔
      ∃ e c, Collision gwName clusterId configs e c ∧
        (isVirtualService heap e.Spec = false ∨ isVirtualService heap c.Spec = false)) ∧
    ((∀ e c, Collision gwName clusterId configs e c →
        isVirtualService heap e.Spec = true ∧ isVirtualService heap c.Spec = true) →
      ∃ out heap', virtualServiceFilter gwName clusterId heap configs = some (out, heap') ∧
        out.Perm (gatewayFilter gwName clusterId configs)) := by
  refine ⟨virtualServiceFilter_eq_none_iff gwName clusterId heap configs, ?_⟩
  intro hall
  cases hr : virtualServiceFilter gwName clusterId heap configs with
  | none =>
    exfalso
    obtain ⟨e, c, hcol, hbad⟩ := (virtualServiceFilter_eq_none_iff _ _ _ _).1 hr
    obtain ⟨h1, h2⟩ := hall e c hcol
    rw [h1, h2] at hbad
    simp at hbad
  | some r =>
    obtain ⟨out, heap'⟩ := r
    refine ⟨out, heap', rfl, ?_⟩
    rw [(virtualServiceFilter_some _ _ _ _ _ _ hr).1, gatewayFilter_eq]

/-- C9, amended, on the input of `TestVirtualServiceFilter`.  With a gateway as the spec of
the authored entry, which the generated entry for `test.com` collides with, the call panics.
With a gateway as the spec of the generated entry for `foo.com`, which is in no collision,
the call returns the entries of `gatewayFilter`. -/
theorem virtualServiceFilter_panics_witness :
    virtualServiceFilter istioIngressGatewayName testClusterId mismatchedHeap testConfigs
      = none ∧
    isVirtualService strayHeap 2 = false ∧
    ∃ out heap', virtualServiceFilter istioIngressGatewayName testClusterId strayHeap
        testConfigs = some (out, heap') ∧
      out.Perm (gatewayFilter istioIngressGatewayName testClusterId testConfigs) := by
  refine ⟨?_, by decide, ?_⟩
  · refine (virtualServiceFilter_panics istioIngressGatewayName testClusterId mismatchedHeap
      testConfigs).1.2
      ⟨⟨"gw-123-istio-test-com".toList, "test".toList, 0⟩,
        ⟨"istio-autogenerated-k8s-ingress-test-com".toList, "test".toList, 1⟩, ?_,
        Or.inl (by decide)⟩
    exact ⟨testConfigs.take 1, testConfigs.drop 2, by decide, by decide,
      Or.inl ⟨by decide, by decide, [], testConfigs.drop 1, by decide, by decide⟩⟩
  · apply (virtualServiceFilter_panics istioIngressGatewayName testClusterId strayHeap
      testConfigs).2
    intro e c hcol
    by_contra hbad
    have := (exists_collision_iff istioIngressGatewayName testClusterId testConfigs
      (fun p q => ¬ (isVirtualService strayHeap p = true ∧
        isVirtualService strayHeap q = true))).1 ⟨e, c, hcol, hbad⟩
    revert this
    decide

/-- C11, failing input.  Three routes: `/api` of `a.com`, a route of `b.com`, `/api/v1` of
`a.com`.  The comparator finds the first two and the last two equal, so the sort leaves the
list as it is, although the comparator puts the third route before the first. -/
theorem sort_leaves_routes_out_of_order :
    SortStableForIngressRoutes [routeApi, routeHealth, routeApiV1]
      = [routeApi, routeHealth, routeApiV1] ∧
    routeLess routeApiV1 routeApi = true := by
  decide

/-- C12, failing input.  The comparator is less on a canary route and itself, and its
incomparability is not transitive: `/api` of `a.com` and the route of `b.com` are
incomparable, the route of `b.com` and `/api/v1` of `a.com` are incomparable, and `/api/v1`
is less than `/api`. -/
theorem routeLess_not_strict_weak :
    routeLess routeApiCanary routeApiCanary = true ∧
    (routeLess routeApi routeHealth = false ∧ routeLess routeHealth routeApi = false) ∧
    (routeLess routeHealth routeApiV1 = false ∧ routeLess routeApiV1 routeHealth = false) ∧
    routeLess routeApiV1 routeApi = true := by
  decide

/-- C13, counterexample.  A catch-all route of a host with a longer name is placed before a
route of another host that is not a catch-all, from either starting position. -/
theorem catchAll_before_shorter_host :
    isAllMatch routeCatchAll = true ∧ isAllMatch routeApi = false ∧
    SortStableForIngressRoutes [routeCatchAll, routeApi] = [routeCatchAll, routeApi] ∧
    SortStableForIngressRoutes [routeApi, routeCatchAll] = [routeCatchAll, routeApi] := by
  decide

/-- C13, amended.  In a list where hosts of the same length are the same host, the sorted
list is a rearrangement of the input in which no route that is not a catch-all follows a
catch-all route of its host. -/
theorem catchAll_last_within_host (routes : List IngressRoute)
    (hhost : ∀ a ∈ routes, ∀ b ∈ routes, a.Host.length = b.Host.length → a.Host = b.Host) :
    (SortStableForIngressRoutes routes).Perm routes ∧
    (SortStableForIngressRoutes routes).Pairwise
      (fun a b => a.Host = b.Host → isAllMatch a = true → isAllMatch b = true) := by
  obtain ⟨p, d, _⟩ := sliceStable_spec routeLess
    (fun r => 2 * r.Host.length + (if isAllMatch r then 0 else 1)) (fun r => r ∈ routes)
    (routeLess_catchAll routes hhost) routes (fun x hx => hx)
  refine ⟨p, ?_⟩
  unfold SortStableForIngressRoutes
  refine List.Pairwise.imp ?_ d
  intro a b h hab ha
  cases hb : isAllMatch b with
  | true => rfl
  | false =>
    simp only [hab, ha, hb, if_true, Bool.false_eq_true, if_false] at h
    omega

/-- C13, amended, on three routes: the catch-all of `a.com` ends behind `/api` of `a.com`. -/
theorem catchAll_last_within_host_witness :
    (SortStableForIngressRoutes [routeApiRoot, routeApi, routeCatchAll]).Pairwise
        (fun a b => a.Host = b.Host → isAllMatch a = true → isAllMatch b = true) ∧
    SortStableForIngressRoutes [routeApiRoot, routeApi, routeCatchAll]
      = [routeCatchAll, routeApi, routeApiRoot] :=
  ⟨(catchAll_last_within_host [routeApiRoot, routeApi, routeCatchAll] (by decide)).2,
    by decide⟩

/-- C14, counterexample.  Of `/api` of `a.com` and its canary twin the canary route is placed
first, from either starting position. -/
theorem canary_sorted_first :
    hasSuffix routeApiCanary.Name "canary".toList = true ∧
    hasSuffix routeApi.Name "canary".toList = false ∧
    SortStableForIngressRoutes [routeApi, routeApiCanary] = [routeApiCanary, routeApi] ∧
    SortStableForIngressRoutes [routeApiCanary, routeApi] = [routeApiCanary, routeApi] := by
  decide

/-- C14, amended.  Of two routes with the same host, path type and path, not the catch-all,
one with a name that ends with `canary` and one without, the canary route is placed first
and the other second, from either starting position. -/
theorem canary_first (a b : IngressRoute) (hh : a.Host = b.Host)
    (ht : a.PathType = b.PathType) (hp : a.Path = b.Path) (hall : isAllMatch a = false)
    (ha : hasSuffix a.Name "canary".toList = true)
    (hb : hasSuffix b.Name "canary".toList = false) :
    SortStableForIngressRoutes [a, b] = [a, b] ∧ SortStableForIngressRoutes [b, a] = [a, b] := by
  have hallb : isAllMatch b = false := by
    simpa [isAllMatch, ht, hp] using hall
  have h1 : routeLess a b = true := by
    rw [routeLess_same_host a b hh, if_neg (by simp [hall]), if_neg (by simp [hallb]),
      if_pos ht, if_pos hp]
    exact ha
  have h2 : routeLess b a = false := by
    rw [routeLess_same_host b a hh.symm, if_neg (by simp [hallb]), if_neg (by simp [hall]),
      if_pos ht.symm, if_pos hp.symm]
    exact hb
  unfold SortStableForIngressRoutes
  rw [sliceStable_pair, sliceStable_pair]
  simp [h1, h2]

/-- C14, amended, on `/api` of `a.com` and its canary twin. -/
theorem canary_first_witness :
    SortStableForIngressRoutes [routeApiCanary, routeApi] = [routeApiCanary, routeApi] ∧
    SortStableForIngressRoutes [routeApi, routeApiCanary] = [routeApiCanary, routeApi] :=
  canary_first routeApiCanary routeApi (by decide) (by decide) (by decide) (by decide)
    (by decide) (by decide)

set_option maxRecDepth 100000 in
/-- C15, failing input.  Twenty-one different routes, the last one `/api/v1` of `a.com`.  The
comparator finds it equal to the route `/hlt03` of `b.com` at position 3, which comes earlier
in the input; the sort moves it to the front, before that route, and leaves the others in
their order. -/
theorem sort_reorders_equal_routes :
    twentyOneRoutes.Nodup ∧
    twentyOneRoutes[3]? = some (mkRoute "health03" "b.com" "exact" "/hlt03") ∧
    twentyOneRoutes[20]? = some routeApiV1 ∧
    routeLess (mkRoute "health03" "b.com" "exact" "/hlt03") routeApiV1 = false ∧
    routeLess routeApiV1 (mkRoute "health03" "b.com" "exact" "/hlt03") = false ∧
    SortStableForIngressRoutes twentyOneRoutes = routeApiV1 :: twentyOneRoutes.take 20 := by
  decide

/-- C16.  The sorted list is a rearrangement of the input in which the length of `Host` does
not increase: a route is never placed after one with a shorter host. -/
theorem sort_host_length_desc (routes : List IngressRoute) :
    (SortStableForIngressRoutes routes).Perm routes ∧
    (SortStableForIngressRoutes routes).Pairwise
      (fun a b => b.Host.length ≤ a.Host.length) := by
  obtain ⟨p, d, _⟩ := sliceStable_spec routeLess (fun r => r.Host.length) (fun _ => True)
    routeLess_hostLength routes (fun _ _ => trivial)
  exact ⟨p, d⟩

/-- C17.  Of two routes that differ only in `PathType`, one `exact` and one `prefix`, the
comparator puts the exact route before the other and not the other before it, and the sort
of the two places the exact route first from either starting position; this for every
path, `/` included. -/
theorem exact_before_prefix (r : IngressRoute) :
    routeLess { r with PathType := "exact".toList } { r with PathType := "prefix".toList } = true ∧
    routeLess { r with PathType := "prefix".toList } { r with PathType := "exact".toList } = false ∧
    SortStableForIngressRoutes
        [{ r with PathType := "exact".toList }, { r with PathType := "prefix".toList }]
      = [{ r with PathType := "exact".toList }, { r with PathType := "prefix".toList }] ∧
    SortStableForIngressRoutes
        [{ r with PathType := "prefix".toList }, { r with PathType := "exact".toList }]
      = [{ r with PathType := "exact".toList }, { r with PathType := "prefix".toList }] := by
  have h1 : routeLess { r with PathType := "exact".toList }
      { r with PathType := "prefix".toList } = true := by
    rw [routeLess_same_host { r with PathType := "exact".toList }
      { r with PathType := "prefix".toList } rfl]
    by_cases hp : r.Path = "/".toList
    · simp [isAllMatch, hp]
    · simp [isAllMatch, hp]
  have h2 : routeLess { r with PathType := "prefix".toList }
      { r with PathType := "exact".toList } = false := by
    rw [routeLess_same_host { r with PathType := "prefix".toList }
      { r with PathType := "exact".toList } rfl]
    by_cases hp : r.Path = "/".toList
    · simp [isAllMatch, hp]
    · simp [isAllMatch, hp]
  refine ⟨h1, h2, ?_, ?_⟩
  · unfold SortStableForIngressRoutes
    rw [sliceStable_pair, h2]
    rfl
  · unfold SortStableForIngressRoutes
    rw [sliceStable_pair, h1]
    rfl

/-- C18, failing input.  The name made of the reserved prefix and `x`, with no dash, passes
the prefix test of the first loop, is not the prefix, a dash and a rest, and `createCRName`
returns it whole behind the cluster id. -/
theorem prefix_test_admits_name_without_dash :
    hasPrefix "istio-autogenerated-k8s-ingressx".toList istioIngressGatewayName = true ∧
    (¬ ∃ rest, "istio-autogenerated-k8s-ingressx".toList
        = istioIngressGatewayName ++ "-".toList ++ rest) ∧
    createCRName istioIngressGatewayName testClusterId "istio-autogenerated-k8s-ingressx".toList
      = "gw-123-istio-istio-autogenerated-k8s-ingressx".toList ∧
    createCRName istioIngressGatewayName [] "istio-autogenerated-k8s-ingressx".toList
      = "istio-autogenerated-k8s-ingressx".toList := by
  refine ⟨by decide, ?_, by decide, by decide⟩
  rintro ⟨rest, h⟩
  have h1 : hasPrefix "istio-autogenerated-k8s-ingressx".toList
      (istioIngressGatewayName ++ "-".toList) = false := by decide
  rw [h, hasPrefix_append] at h1
  cases h1

/-- C19.  In `gatewayFilter` and `destinationFilter` the last authored entry with a name
wins: the output has exactly one entry with that name, it is that entry, and any other
entry with the name, so every earlier authored one that differs from it, be it in the
namespace only, is not in the output. -/
theorem last_authored_wins (gwName clusterId : Str) (configs l₁ l₂ : List Config)
    (a a₀ : Config) (hl : configs = l₁ ++ a :: l₂) (ha : hasPrefix a.Name gwName = false)
    (hlast : ∀ c ∈ l₂, c.Name ≠ a.Name) (hname : a₀.Name = a.Name) :
    ((gatewayFilter gwName clusterId configs).filter (fun e => decide (e.Name = a.Name)) = [a] ∧
      (a₀ ≠ a → a₀ ∉ gatewayFilter gwName clusterId configs)) ∧
    ((destinationFilter gwName configs).filter (fun e => decide (e.Name = a.Name)) = [a] ∧
      (a₀ ≠ a → a₀ ∉ destinationFilter gwName configs)) := by
  have key : ∀ out : List Config, out.filter (fun e => decide (e.Name = a.Name)) = [a] →
      a₀ ≠ a → a₀ ∉ out := by
    intro out hout hne hmem
    have : a₀ ∈ out.filter (fun e => decide (e.Name = a.Name)) :=
      List.mem_filter.2 ⟨hmem, by simpa using hname⟩
    rw [hout] at this
    exact hne (List.mem_singleton.1 this)
  have hg : (gatewayFilter gwName clusterId configs).filter
      (fun e => decide (e.Name = a.Name)) = [a] := by
    rw [gatewayFilter_eq]
    exact filter_mapValues_reconcile _ _ _ _ (reconcile_shadow _ _ _ _ _ _ hl ha hlast)
  have hd : (destinationFilter gwName configs).filter
      (fun e => decide (e.Name = a.Name)) = [a] := by
    rw [destinationFilter_eq]
    exact filter_mapValues_reconcile _ _ _ _ (reconcile_shadow _ _ _ _ _ _ hl ha hlast)
  exact ⟨⟨hg, key _ hg⟩, ⟨hd, key _ hd⟩⟩

/-- C19 on three authored entries, the first and the last named `gw-123-istio-test-com` in
two namespaces: the one kept is the last, and the first is not in the output. -/
theorem last_authored_wins_witness :
    (gatewayFilter istioIngressGatewayName testClusterId duplicateConfigs).filter
        (fun e => decide (e.Name = "gw-123-istio-test-com".toList))
      = [⟨"gw-123-istio-test-com".toList, "team-b".toList, 2⟩] ∧
    (⟨"gw-123-istio-test-com".toList, "team-a".toList, 0⟩ : Config)
      ∉ gatewayFilter istioIngressGatewayName testClusterId duplicateConfigs := by
  have h := (last_authored_wins istioIngressGatewayName testClusterId duplicateConfigs
    (duplicateConfigs.take 2) [] ⟨"gw-123-istio-test-com".toList, "team-b".toList, 2⟩
    ⟨"gw-123-istio-test-com".toList, "team-a".toList, 0⟩
    (by decide) (by decide) (by decide) (by decide)).1
  exact ⟨h.1, h.2 (by decide)⟩

/-- C20.  For routes of one host and one path type, none the catch-all and none with a name
that ends with `canary`, the sorted list is a rearrangement of the input in which the length
of `Path` does not increase, and the routes of each path length are in their input order. -/
theorem sort_path_length_desc (routes : List IngressRoute) (host pathType : Str)
    (h : ∀ r ∈ routes, r.Host = host ∧ r.PathType = pathType ∧ isAllMatch r = false ∧
      hasSuffix r.Name "canary".toList = false) :
    (SortStableForIngressRoutes routes).Perm routes ∧
    (SortStableForIngressRoutes routes).Pairwise
      (fun a b => b.Path.length ≤ a.Path.length) ∧
    ∀ k, (SortStableForIngressRoutes routes).filter (fun r => decide (r.Path.length = k))
      = routes.filter (fun r => decide (r.Path.length = k)) := by
  obtain ⟨hr, hd⟩ := routeLess_pathLength host pathType
  obtain ⟨p, d, fl⟩ := sliceStable_spec routeLess (fun r => r.Path.length) _ hr routes h
  exact ⟨p, d, fl hd⟩

/-- C20 on three prefix routes of `a.com`: `/api/v1` comes first, and `/api` and `/app`, of
the same length, stay in their input order. -/
theorem sort_path_length_desc_witness :
    (SortStableForIngressRoutes [routeApi, routeApp, routeApiV1]).Pairwise
        (fun a b => b.Path.length ≤ a.Path.length) ∧
    (SortStableForIngressRoutes [routeApi, routeApp, routeApiV1]).filter
        (fun r => decide (r.Path.length = 4)) = [routeApi, routeApp] ∧
    SortStableForIngressRoutes [routeApi, routeApp, routeApiV1]
      = [routeApiV1, routeApi, routeApp] := by
  have h := sort_path_length_desc [routeApi, routeApp, routeApiV1] "a.com".toList
    "prefix".toList (by decide)
  exact ⟨h.2.1, (h.2.2 4).trans (by decide), by decide⟩

end Higress
